import Mathlib

/-!
# Labeled directed graph store with label-constrained shortest path

Shallow embedding of `linkedVertices.h`, `linkedListOfVertices.h` and
`graphStoreLinked.h`.

Modelling conventions.

* `int` is modelled by `Int`; the two sentinels are `INT_MAX` and `INT_MIN`, and the only
  arithmetic of the program (`newDistance + 1`) is wrapped to 32 bits by `wrapInt`.
* `std::string` is modelled by `String`, compared lexicographically on its characters.
* `std::map<int, shared_ptr<LinkedVertices>>` is an association list kept in increasing key
  order. A `shared_ptr<NodeVertex>` stored in an adjacency vector is always the pointer
  `itStop->second->getHead()` to the head node of a map entry, and entries are never removed,
  so the pointer is modelled by the key of that entry and every access through the pointer
  is an access to the head of the entry under that key.
* A lookup `vertexList.find(k)->second` on a missing key is undefined behaviour in the
  source; the embedding returns `none` there. Loops of the source carry a fuel argument and
  return `none` when it is exhausted.
* Console output is not modelled.
-/

namespace graph

/-- The value of `std::numeric_limits<int>::max()`. -/
def INT_MAX : Int := 2147483647

/-- The value of `std::numeric_limits<int>::min()`. -/
def INT_MIN : Int := -2147483648

/-- Reduction of an integer to the 32-bit two's complement range. -/
def wrapInt (x : Int) : Int := (x + 2147483648) % 4294967296 - 2147483648

/-- The order `operator<` of `std::string`: lexicographic on the characters. -/
def strLess (a b : String) : Prop := a.toList < b.toList

instance strLessDecidable (a b : String) : Decidable (strLess a b) :=
  inferInstanceAs (Decidable (a.toList < b.toList))

/-- The result of `std::sort` on a vector of strings. -/
def sortLabels (l : List String) : List String :=
  List.insertionSort (fun a b => ¬ strLess b a) l

/-- The algorithm `std::includes(first1, last1, first2, last2)` on two ranges. -/
def includes : List String → List String → Bool
  | _, [] => true
  | [], _ :: _ => false
  | a :: l1, b :: l2 =>
    if strLess b a then false
    else if strLess a b then includes l1 (b :: l2)
    else includes l1 l2

/-- The struct `NodeVertex` of `LinkedVertices<V>`. -/
structure NodeVertex (V : Type) where
  id : Int
  data : V
  labelVec : List String
  distance : Int
  previous : Int
deriving DecidableEq

namespace NodeVertex

variable {V : Type}

/-- The constructor `NodeVertex(int vertexKey, V info)` with the default member values. -/
def new (vertexKey : Int) (info : V) : NodeVertex V :=
  { id := vertexKey, data := info, labelVec := [], distance := INT_MAX, previous := INT_MIN }

def setVertexDistance (n : NodeVertex V) (distance : Int) : NodeVertex V :=
  { n with distance := distance }

def setPreviousNode (n : NodeVertex V) (previous : Int) : NodeVertex V :=
  { n with previous := previous }

def getVertexDistance (n : NodeVertex V) : Int := n.distance

def getPreviousNode (n : NodeVertex V) : Int := n.previous

/-- The method `hasLabel`: `std::includes` of the label vector over the argument. -/
def hasLabel (n : NodeVertex V) (label : List String) : Bool :=
  includes n.labelVec label

end NodeVertex

/-- The class `LinkedVertices<V>`: the head node and, for the vector `nodes`, the keys of the
entries whose head nodes the stored pointers point to. -/
structure LinkedVertices (V : Type) where
  head : NodeVertex V
  nodes : List Int
deriving DecidableEq

namespace LinkedVertices

variable {V : Type}

/-- The constructor `LinkedVertices(int vertexKey, const V &info)`. -/
def new (vertexKey : Int) (info : V) : LinkedVertices V :=
  { head := NodeVertex.new vertexKey info, nodes := [] }

/-- The method `insertNodeVertex`, given the key of the entry whose head `newNode` points to. -/
def insertNodeVertex (lv : LinkedVertices V) (newNode : Int) : LinkedVertices V :=
  { lv with nodes := lv.nodes ++ [newNode] }

def getHead (lv : LinkedVertices V) : NodeVertex V := lv.head

/-- The method `addLabel`: `push_back` followed by `std::sort`. -/
def addLabel (lv : LinkedVertices V) (label : String) : LinkedVertices V :=
  { lv with head := { lv.head with labelVec := sortLabels (lv.head.labelVec ++ [label]) } }

/-- The method `removeLabel`: erase-remove of `label`, then `std::sort`; the result tells
whether the size changed. -/
def removeLabel (lv : LinkedVertices V) (label : String) : Bool × LinkedVertices V :=
  let labelVecBefore := lv.head.labelVec.length
  let erased := lv.head.labelVec.filter (fun l => l ≠ label)
  let lv1 : LinkedVertices V := { lv with head := { lv.head with labelVec := sortLabels erased } }
  if labelVecBefore = erased.length then (false, lv1) else (true, lv1)

def returnEdges (lv : LinkedVertices V) : List Int := lv.nodes

end LinkedVertices

/-- The lookup `vertexList.find(key)` of the map; `none` stands for `vertexList.end()`. -/
def mapFind {V : Type} : List (Int × LinkedVertices V) → Int → Option (LinkedVertices V)
  | [], _ => none
  | (k, lv) :: rest, key => if k = key then some lv else mapFind rest key

/-- The call `vertexList.insert(pair(key, lv))` of the ordered map: no effect on a key that
is present. -/
def mapInsert {V : Type} :
    List (Int × LinkedVertices V) → Int → LinkedVertices V → List (Int × LinkedVertices V)
  | [], key, lv => [(key, lv)]
  | (k, x) :: rest, key, lv =>
    if key < k then (key, lv) :: (k, x) :: rest
    else if key = k then (k, x) :: rest
    else (k, x) :: mapInsert rest key lv

/-- In-place update, through the shared pointer, of the entry stored under `key`. -/
def mapModify {V : Type} (m : List (Int × LinkedVertices V)) (key : Int)
    (f : LinkedVertices V → LinkedVertices V) : List (Int × LinkedVertices V) :=
  m.map (fun p => if p.1 = key then (p.1, f p.2) else p)

/-- In-place update of the head node of the entry stored under `key`. -/
def mapModifyHead {V : Type} (m : List (Int × LinkedVertices V)) (key : Int)
    (f : NodeVertex V → NodeVertex V) : List (Int × LinkedVertices V) :=
  mapModify m key (fun lv => { lv with head := f lv.head })

/-- The method `std::list<int>::unique`: drops every element equal to its predecessor. -/
def listUnique : List Int → List Int
  | [] => []
  | [x] => [x]
  | x :: y :: rest => if x = y then listUnique (y :: rest) else x :: listUnique (y :: rest)

/-- The method `std::list<int>::sort`. -/
def listSort (l : List Int) : List Int := List.insertionSort (fun a b => a ≤ b) l

/-- The method `std::list<int>::remove`: drops every element equal to `u`. -/
def listRemove (l : List Int) (u : Int) : List Int := l.filter (fun x => x ≠ u)

/-- The class `LinkedListOfVertices<V>`. -/
structure LinkedListOfVertices (V : Type) where
  vertexList : List (Int × LinkedVertices V)
  q : List Int
  qBackUp : List Int
  path : List Int
  enableOutputPrint : Bool
deriving DecidableEq

namespace LinkedListOfVertices

variable {V : Type}

/-- The default constructor. -/
def new : LinkedListOfVertices V :=
  { vertexList := [], q := [], qBackUp := [], path := [], enableOutputPrint := true }

def keyFoundInVertexListAsHead (s : LinkedListOfVertices V) (key : Int) : Bool :=
  (mapFind s.vertexList key).isSome

def insertNodeVertexAsHead (s : LinkedListOfVertices V) (key : Int) (info : V) :
    Bool × LinkedListOfVertices V :=
  if s.keyFoundInVertexListAsHead key then (false, s)
  else (true, { s with vertexList := mapInsert s.vertexList key (LinkedVertices.new key info) })

def addEdgeToHeadNodeVertex (s : LinkedListOfVertices V) (start stop : Int) :
    Bool × LinkedListOfVertices V :=
  match mapFind s.vertexList start, mapFind s.vertexList stop with
  | some _, some _ =>
    (true, { s with
      vertexList := mapModify s.vertexList start (fun lv => lv.insertNodeVertex stop)
      qBackUp := s.qBackUp ++ [start, stop] })
  | _, _ => (false, s)

def addLabelToVertex (s : LinkedListOfVertices V) (key : Int) (label : List String) :
    Bool × LinkedListOfVertices V :=
  match mapFind s.vertexList key with
  | some _ =>
    (true, { s with
      vertexList := mapModify s.vertexList key (fun lv => label.foldl LinkedVertices.addLabel lv) })
  | none => (false, s)

/-- The loop of `removeLabelFromVertex` over the requested labels. -/
def removeLabelLoop (lv : LinkedVertices V) (hasThisString : Bool) :
    List String → Bool × LinkedVertices V
  | [] => (hasThisString, lv)
  | l :: rest =>
    let r := lv.removeLabel l
    removeLabelLoop r.2 (if !r.1 then false else hasThisString) rest

def removeLabelFromVertex (s : LinkedListOfVertices V) (key : Int) (label : List String) :
    Bool × LinkedListOfVertices V :=
  let hasThisString := true
  match mapFind s.vertexList key with
  | some itNode =>
    ((removeLabelLoop itNode hasThisString label).1,
      { s with
        vertexList :=
          mapModify s.vertexList key (fun lv => (removeLabelLoop lv hasThisString label).2) })
  | none => (hasThisString, s)

/-- The method `getVertexInfo` only prints; the store is not changed. -/
def getVertexInfo (s : LinkedListOfVertices V) (_key : Int) : LinkedListOfVertices V := s

def disableOutputPrint (s : LinkedListOfVertices V) : LinkedListOfVertices V :=
  { s with enableOutputPrint := false }

/-- The first loop of `findShortestPath`: every element of `qBackUp` gets distance `INT_MAX`
and previous `INT_MIN`. -/
def resetLoop : List (Int × LinkedVertices V) → List Int → Option (List (Int × LinkedVertices V))
  | m, [] => some m
  | m, element :: rest =>
    match mapFind m element with
    | none => none
    | some _ =>
      resetLoop
        (mapModifyHead (mapModifyHead m element (fun n => n.setVertexDistance INT_MAX)) element
          (fun n => n.setPreviousNode INT_MIN))
        rest

/-- The selection loop `for (auto current : q)` that leaves in `u` the first key of least
distance. -/
def selectMin (m : List (Int × LinkedVertices V)) : Int → List Int → Option Int
  | u, [] => some u
  | u, current :: rest =>
    match mapFind m current, mapFind m u with
    | some c, some cu =>
      if c.getHead.getVertexDistance < cu.getHead.getVertexDistance then selectMin m current rest
      else selectMin m u rest
    | _, _ => none

/-- The loop over `returnEdges()` of `u`: an edge whose distance is greater than the one of
`u` and whose node has the labels gets distance `newDistance + 1` and previous `u`. -/
def relaxEdges (u : Int) (label : List String) :
    List (Int × LinkedVertices V) → List Int → Option (List (Int × LinkedVertices V))
  | m, [] => some m
  | m, edge :: rest =>
    match mapFind m u, mapFind m edge with
    | some lu, some e =>
      let newDistance := lu.getHead.getVertexDistance
      if newDistance < e.getHead.getVertexDistance ∧ e.getHead.hasLabel label = true then
        relaxEdges u label
          (mapModifyHead
            (mapModifyHead m edge (fun n => n.setVertexDistance (wrapInt (newDistance + 1))))
            edge (fun n => n.setPreviousNode u))
          rest
      else relaxEdges u label m rest
    | _, _ => none

/-- The loop `while (!q.empty())`; the state is the map, `q` and `tempNodeKey`. -/
def whileLoop (stop : Int) (label : List String) :
    Nat → List (Int × LinkedVertices V) → List Int → Int →
      Option (List (Int × LinkedVertices V) × List Int × Int)
  | _, m, [], tempNodeKey => some (m, [], tempNodeKey)
  | 0, _, _ :: _, _ => none
  | fuel + 1, m, front :: qrest, tempNodeKey =>
    match selectMin m front (front :: qrest) with
    | none => none
    | some u =>
      let tempNodeKey1 := if u = stop then u else tempNodeKey
      let q1 := if u = stop then [] else front :: qrest
      let q2 := listRemove q1 u
      match mapFind m u with
      | none => none
      | some lu =>
        match relaxEdges u label m lu.returnEdges with
        | none => none
        | some m1 => whileLoop stop label fuel m1 q2 tempNodeKey1

/-- The loop that pushes the chain of previous nodes at the front of `path`. -/
def reconstruct (m : List (Int × LinkedVertices V)) : Nat → Int → List Int → Option (List Int)
  | 0, _, _ => none
  | fuel + 1, tempNodeKey, path =>
    match mapFind m tempNodeKey with
    | none => none
    | some lv =>
      if lv.getHead.getPreviousNode ≠ INT_MIN then
        reconstruct m fuel lv.getHead.getPreviousNode (lv.getHead.getPreviousNode :: path)
      else some path

/-- The method `findShortestPath`. The result is the returned boolean and the store after
the call; `none` is undefined behaviour of the source (a lookup of a missing key). The
selection loop gets one unit of fuel per key of `q`, since every iteration removes the
selected key, and the walk along the previous nodes gets one more than that. -/
def findShortestPath (s : LinkedListOfVertices V) (start stop : Int) (label : List String) :
    Option (Bool × LinkedListOfVertices V) :=
  match mapFind s.vertexList start, mapFind s.vertexList stop with
  | some _, some _ =>
    let qBackUp := listUnique (listSort s.qBackUp)
    match resetLoop s.vertexList qBackUp with
    | none => none
    | some m0 =>
      let m1 := mapModifyHead m0 start (fun n => n.setVertexDistance 0)
      match whileLoop stop label qBackUp.length m1 qBackUp 0 with
      | none => none
      | some (m2, q, tempNodeKey) =>
        match reconstruct m2 (qBackUp.length + 1) tempNodeKey [] with
        | none => none
        | some path =>
          some (decide (path.length > 0),
            { s with vertexList := m2, q := q, qBackUp := qBackUp, path := path })
  | _, _ => some (false, s)

end LinkedListOfVertices

/-- The class `GraphStoreLinked<V>`, the interface to `LinkedListOfVertices<V>`. -/
structure GraphStoreLinked (V : Type) where
  linkedListOfVertices : LinkedListOfVertices V
deriving DecidableEq

namespace GraphStoreLinked

variable {V : Type}

/-- The constructor `GraphStoreLinked()`. -/
def new : GraphStoreLinked V := { linkedListOfVertices := LinkedListOfVertices.new }

def addVertex (g : GraphStoreLinked V) (key : Int) (info : V) : Bool × GraphStoreLinked V :=
  let r := g.linkedListOfVertices.insertNodeVertexAsHead key info
  (r.1, { linkedListOfVertices := r.2 })

def createEdge (g : GraphStoreLinked V) (start stop : Int) : Bool × GraphStoreLinked V :=
  let r := g.linkedListOfVertices.addEdgeToHeadNodeVertex start stop
  (r.1, { linkedListOfVertices := r.2 })

def addLabel (g : GraphStoreLinked V) (key : Int) (label : List String) :
    Bool × GraphStoreLinked V :=
  let r := g.linkedListOfVertices.addLabelToVertex key label
  (r.1, { linkedListOfVertices := r.2 })

def removeLabel (g : GraphStoreLinked V) (key : Int) (label : List String) :
    Bool × GraphStoreLinked V :=
  let r := g.linkedListOfVertices.removeLabelFromVertex key label
  (r.1, { linkedListOfVertices := r.2 })

def shortestPath (g : GraphStoreLinked V) (start stop : Int) (label : List String) :
    Option (Bool × GraphStoreLinked V) :=
  (g.linkedListOfVertices.findShortestPath start stop label).map
    (fun r => (r.1, { linkedListOfVertices := r.2 }))

def getVertexInfo (g : GraphStoreLinked V) (key : Int) : GraphStoreLinked V :=
  { linkedListOfVertices := g.linkedListOfVertices.getVertexInfo key }

def disableOutputPrint (g : GraphStoreLinked V) : GraphStoreLinked V :=
  { linkedListOfVertices := g.linkedListOfVertices.disableOutputPrint }

end GraphStoreLinked

/-! ## Vocabulary of the specification -/

/-- The search distance recorded in the head node stored under `k`. -/
def mapDist {V : Type} (m : List (Int × LinkedVertices V)) (k : Int) : Int :=
  match mapFind m k with
  | some lv => lv.head.distance
  | none => INT_MAX

/-- The predecessor recorded in the head node stored under `k`. -/
def mapPrev {V : Type} (m : List (Int × LinkedVertices V)) (k : Int) : Int :=
  match mapFind m k with
  | some lv => lv.head.previous
  | none => INT_MIN

/-- The adjacency vector of the entry stored under `k`. -/
def mapAdj {V : Type} (m : List (Int × LinkedVertices V)) (k : Int) : List Int :=
  match mapFind m k with
  | some lv => lv.nodes
  | none => []

/-- The label check `hasLabel(label)` on the head node stored under `k`. -/
def mapHasLabel {V : Type} (m : List (Int × LinkedVertices V)) (k : Int) (label : List String) :
    Bool :=
  match mapFind m k with
  | some lv => lv.head.hasLabel label
  | none => false

/-- The label vector of the head node stored under `k`; empty when `k` is not a key. -/
def mapLabels {V : Type} (m : List (Int × LinkedVertices V)) (k : Int) : List String :=
  match mapFind m k with
  | some lv => lv.head.labelVec
  | none => []

/-- A label vector in non-decreasing order of `operator<`: no element is greater than a
later one. -/
def LabelsSorted (l : List String) : Prop := List.Pairwise (fun a b => ¬ strLess b a) l

/-- The map in which the search fields of the keys of `qb` hold the values written by the
reset loop of a query. -/
def mapReset {V : Type} (qb : List Int) (m : List (Int × LinkedVertices V)) :
    List (Int × LinkedVertices V) :=
  m.map (fun p =>
    (p.1, if p.1 ∈ qb then
        { p.2 with head := { p.2.head with distance := INT_MAX, previous := INT_MIN } }
      else p.2))

/-- The part of an entry that a query never writes: id, payload, labels and adjacency. -/
def LinkedVertices.persistent {V : Type} (lv : LinkedVertices V) :
    Int × V × List String × List Int :=
  (lv.head.id, lv.head.data, lv.head.labelVec, lv.nodes)

/-- Two maps hold the same keys with the same id, payload, labels and adjacency. -/
def SameGraph {V : Type} (m m1 : List (Int × LinkedVertices V)) : Prop :=
  ∀ k, (mapFind m1 k).map LinkedVertices.persistent = (mapFind m k).map LinkedVertices.persistent

/-- The two writes `setVertexDistance(d)` and `setPreviousNode(p)` on the node under `e`. -/
def mapSetBoth {V : Type} (m : List (Int × LinkedVertices V)) (e d p : Int) :
    List (Int × LinkedVertices V) :=
  mapModifyHead (mapModifyHead m e (fun n => n.setVertexDistance d)) e
    (fun n => n.setPreviousNode p)

/-- The invariant of the loop `while (!q.empty())` of a query from `start` under the filter
`label`, where `qb` is the deduplicated edge-key list, `m` the map and `q` the keys that are
still to be selected. The last two fields need that no key with an outgoing edge is the
sentinel `INT_MIN`. -/
structure LoopInv {V : Type} (qb : List Int) (start : Int) (label : List String)
    (m : List (Int × LinkedVertices V)) (q : List Int) : Prop where
  keys : ∀ k ∈ qb, (mapFind m k).isSome = true
  adj : ∀ a b, b ∈ mapAdj m a → a ∈ qb ∧ b ∈ qb
  qsub : ∀ k ∈ q, k ∈ qb
  startIn : start ∈ qb
  dstart : mapDist m start = 0 ∧ mapPrev m start = INT_MIN
  rng : ∀ k ∈ qb, 0 ≤ mapDist m k ∧ mapDist m k ≤ INT_MAX
  settled : ∀ x ∈ qb, x ∉ q → ∀ y ∈ q, mapDist m x ≤ mapDist m y
  pred : ∀ v ∈ qb, mapPrev m v ≠ INT_MIN →
    mapPrev m v ∈ qb ∧ mapPrev m v ∉ q ∧ v ∈ mapAdj m (mapPrev m v) ∧
      mapHasLabel m v label = true ∧ mapDist m v = mapDist m (mapPrev m v) + 1
  relaxed : ∀ x ∈ qb, x ∉ q → mapDist m x < INT_MAX → ∀ v ∈ mapAdj m x,
    mapHasLabel m v label = true → mapDist m v ≤ mapDist m x + 1
  count : ∀ v ∈ qb, (mapDist m v < INT_MAX ∨ mapPrev m v ≠ INT_MIN) →
    mapDist m v + q.length ≤ qb.length
  unreached : (∀ k ∈ qb, mapAdj m k ≠ [] → k ≠ INT_MIN) → ∀ v ∈ qb, mapPrev m v = INT_MIN →
    v ≠ start →
    mapDist m v = INT_MAX
  reached : (∀ k ∈ qb, mapAdj m k ≠ [] → k ≠ INT_MIN) → ∀ x ∈ qb, x ∉ q →
    mapDist m x < INT_MAX →
    ∀ v ∈ mapAdj m x, mapHasLabel m v label = true → v = start ∨ mapPrev m v ≠ INT_MIN

/-- The invariant of the store: every key of the edge-key list is a key of the map, and
both ends of every edge are in the edge-key list. -/
structure WellFormed {V : Type} (s : LinkedListOfVertices V) : Prop where
  keys : ∀ k ∈ s.qBackUp, (mapFind s.vertexList k).isSome = true
  adj : ∀ a b, b ∈ mapAdj s.vertexList a → a ∈ s.qBackUp ∧ b ∈ s.qBackUp

/-- Two maps agree on everything a query reads after its reset loop, given the keys `qb`
of the edge-key list: they hold the same graph, every key has the same predecessor, and
every key of `qb` has the same search distance. -/
structure SameSearch {V : Type} (qb : List Int) (m m1 : List (Int × LinkedVertices V)) :
    Prop where
  graph : SameGraph m m1
  prev : ∀ k, mapPrev m1 k = mapPrev m k
  dist : ∀ k ∈ qb, mapDist m1 k = mapDist m k

namespace GraphStoreLinked

variable {V : Type}

/-- The entry of the vertex map stored under `k`, if any. -/
def vertex (g : GraphStoreLinked V) (k : Int) : Option (LinkedVertices V) :=
  mapFind g.linkedListOfVertices.vertexList k

/-- The edge-key list `qBackUp`. -/
def pool (g : GraphStoreLinked V) : List Int := g.linkedListOfVertices.qBackUp

/-- The deque `path` left by the last query. -/
def recordedPath (g : GraphStoreLinked V) : List Int := g.linkedListOfVertices.path

/-- The adjacency sequence of the vertex `k`. -/
def adjacency (g : GraphStoreLinked V) (k : Int) : List Int :=
  mapAdj g.linkedListOfVertices.vertexList k

/-- The label sequence of the vertex `k`. -/
def labels (g : GraphStoreLinked V) (k : Int) : List String :=
  mapLabels g.linkedListOfVertices.vertexList k

/-- An edge `a -> b` was created: `b` occurs in the adjacency vector of `a`. -/
def Edge (g : GraphStoreLinked V) (a b : Int) : Prop :=
  b ∈ mapAdj g.linkedListOfVertices.vertexList a

/-- The vertex `k` passes the label check. -/
def passes (g : GraphStoreLinked V) (label : List String) (k : Int) : Prop :=
  mapHasLabel g.linkedListOfVertices.vertexList k label = true

/-- One hop of a walk under a filter: an edge to a vertex that passes the label check. -/
def Hop (g : GraphStoreLinked V) (label : List String) (a b : Int) : Prop :=
  g.Edge a b ∧ g.passes label b

/-- A walk from `start` to `stop` under a filter: the list of its vertices, with at least
one edge, every vertex after the first one passing the label check. It has
`w.length - 1` edges. -/
def Walk (g : GraphStoreLinked V) (label : List String) (start stop : Int) (w : List Int) :
    Prop :=
  w.head? = some start ∧ w.getLast? = some stop ∧ 2 ≤ w.length ∧ List.Chain' (g.Hop label) w

/-- No key of the store is the sentinel `INT_MIN`. -/
def NoSentinelKey (g : GraphStoreLinked V) : Prop :=
  ∀ p ∈ g.linkedListOfVertices.vertexList, p.1 ≠ INT_MIN

instance decidableEdge (g : GraphStoreLinked V) (a b : Int) : Decidable (g.Edge a b) :=
  inferInstanceAs (Decidable (b ∈ mapAdj g.linkedListOfVertices.vertexList a))

instance decidablePasses (g : GraphStoreLinked V) (label : List String) (k : Int) :
    Decidable (g.passes label k) :=
  inferInstanceAs (Decidable (mapHasLabel g.linkedListOfVertices.vertexList k label = true))

instance decidableHop (g : GraphStoreLinked V) (label : List String) (a b : Int) :
    Decidable (g.Hop label a b) :=
  inferInstanceAs (Decidable (g.Edge a b ∧ g.passes label b))

instance decidableNoSentinelKey (g : GraphStoreLinked V) : Decidable g.NoSentinelKey :=
  inferInstanceAs (Decidable (∀ p ∈ g.linkedListOfVertices.vertexList, p.1 ≠ INT_MIN))

/-- The stores built from the empty one by the public operations. -/
inductive Reachable : GraphStoreLinked V → Prop
  | new : Reachable GraphStoreLinked.new
  | addVertex (g : GraphStoreLinked V) (key : Int) (info : V) :
      Reachable g → Reachable (g.addVertex key info).2
  | createEdge (g : GraphStoreLinked V) (start stop : Int) :
      Reachable g → Reachable (g.createEdge start stop).2
  | addLabel (g : GraphStoreLinked V) (key : Int) (label : List String) :
      Reachable g → Reachable (g.addLabel key label).2
  | removeLabel (g : GraphStoreLinked V) (key : Int) (label : List String) :
      Reachable g → Reachable (g.removeLabel key label).2
  | shortestPath (g : GraphStoreLinked V) (start stop : Int) (label : List String) (r : Bool)
      (g1 : GraphStoreLinked V) :
      Reachable g → g.shortestPath start stop label = some (r, g1) → Reachable g1
  | getVertexInfo (g : GraphStoreLinked V) (key : Int) : Reachable g → Reachable (g.getVertexInfo key)
  | disableOutputPrint (g : GraphStoreLinked V) : Reachable g → Reachable g.disableOutputPrint

end GraphStoreLinked

/-! ## Example stores -/

/-- Vertices 1 and 2 and the edge 1 -> 2. -/
def storeOneEdge : GraphStoreLinked Nat :=
  (((GraphStoreLinked.new.addVertex 1 10).2.addVertex 2 20).2.createEdge 1 2).2

/-- Vertices 0, 1 and 15 and the edge 1 -> 0; vertex 15 is on no edge. -/
def storeZeroKey : GraphStoreLinked Nat :=
  ((((GraphStoreLinked.new.addVertex 0 0).2.addVertex 1 10).2.addVertex 15 150).2.createEdge 1 0).2

/-- Vertex 1 with a self-loop and the cycle 1 -> 2 -> 1. -/
def storeCycle : GraphStoreLinked Nat :=
  (((((GraphStoreLinked.new.addVertex 1 10).2.addVertex 2 20).2.createEdge 1 1).2.createEdge
    1 2).2.createEdge 2 1).2

/-- The graph of the test case: vertices 1 to 5 labelled "a", edges 1 -> 2, 2 -> 3, 3 -> 5
and 2 -> 5. -/
def storeTest : GraphStoreLinked Nat :=
  ((((((((((((((GraphStoreLinked.new.addVertex 1 10).2.addVertex 2 20).2.addVertex 3 30).2.addVertex
    4 40).2.addVertex 5 50).2.createEdge 1 2).2.createEdge 2 3).2.createEdge 3 5).2.createEdge
    2 5).2.addLabel 1 ["a"]).2.addLabel 2 ["a"]).2.addLabel 3 ["a"]).2.addLabel 4 ["a"]).2.addLabel
    5 ["a"]).2

/-- The key of the `i`-th vertex of a long chain; the chain starts at `-2^30`. -/
def chainKey (i : Nat) : Int := (i : Int) - 1073741824

/-- The calls `addVertex(k, 0)` for the keys of a list, in order. -/
def addVertexList (g : GraphStoreLinked Nat) (ks : List Int) : GraphStoreLinked Nat :=
  ks.foldl (fun g k => (g.addVertex k 0).2) g

/-- The calls `createEdge(k, k + 1)` for the keys of a list, in order. -/
def createEdgeList (g : GraphStoreLinked Nat) (ks : List Int) : GraphStoreLinked Nat :=
  ks.foldl (fun g k => (g.createEdge k (k + 1)).2) g

/-- The chain of `n` edges `chainKey 0 -> chainKey 1 -> ... -> chainKey n`. -/
def chainStore (n : Nat) : GraphStoreLinked Nat :=
  createEdgeList (addVertexList GraphStoreLinked.new ((List.range (n + 1)).map chainKey))
    ((List.range n).map chainKey)

/-- The chain of `2^31` edges from `-2^30` to `2^30`; all its keys are values of `int`. -/
def storeLongChain : GraphStoreLinked Nat := chainStore 2147483648

/-- A vertex with the labels "a" and "b", added in one `addLabel` call. -/
def storeLabelled : GraphStoreLinked Nat :=
  ((GraphStoreLinked.new.addVertex 1 10).2.addLabel 1 ["a", "b"]).2


/-- Vertices 1, 2, 4 and 5 and the edges 1 -> 2, 1 -> 4, 2 -> 5 and 4 -> 5: two walks of two
edges lead from 1 to 5. -/
def storeTie : GraphStoreLinked Nat :=
  ((((((((GraphStoreLinked.new.addVertex 1 10).2.addVertex 2 20).2.addVertex 4 40).2.addVertex
    5 50).2.createEdge 1 2).2.createEdge 1 4).2.createEdge 2 5).2.createEdge 4 5).2

/-- The vertex map of `storeTie` in the query from 1 to 5 after the reset, the distance 0 of
the start and the relaxation loops of the first two selected vertices, 1 and 2. -/
def tieMap : List (Int × LinkedVertices Nat) :=
  ((((LinkedListOfVertices.resetLoop storeTie.linkedListOfVertices.vertexList [1, 2, 4, 5]).map
    (fun m => mapModifyHead m 1 (fun n => n.setVertexDistance 0))).bind
      (fun m => LinkedListOfVertices.relaxEdges 1 [] m [2, 4])).bind
      (fun m => LinkedListOfVertices.relaxEdges 2 [] m [5])).getD []

/-- Vertices 1 and 2, the label "a" on vertex 2 only, and the edge 1 -> 2. -/
def storeUnlabelledStart : GraphStoreLinked Nat :=
  ((((GraphStoreLinked.new.addVertex 1 10).2.addVertex 2 20).2.addLabel 2 ["a"]).2.createEdge
    1 2).2

/-- Vertices 1 and 2 and no edge. -/
def storeNoEdges : GraphStoreLinked Nat :=
  ((GraphStoreLinked.new.addVertex 1 10).2.addVertex 2 20).2

/-- Vertices 1, 2 and 3 and the edge 1 -> 2; vertex 3 is on no edge and 0 is no key. -/
def storeNoZero : GraphStoreLinked Nat :=
  ((((GraphStoreLinked.new.addVertex 1 10).2.addVertex 2 20).2.addVertex 3 30).2.createEdge
    1 2).2

/-- A vertex that gets the labels "c", "a" and "b" in two `addLabel` calls and then loses
"c" again after a second vertex was labelled. -/
def storeThreeLabels : GraphStoreLinked Nat :=
  ((((((GraphStoreLinked.new.addVertex 1 10).2.addVertex 2 20).2.addLabel 1 ["c", "a"]).2.addLabel
    1 ["b"]).2.addLabel 2 ["z", "y"]).2.removeLabel 2 ["q"]).2

/-- Vertices 1, 2 and 3 and the edges 1 -> 2 and 2 -> 3. -/
def storePath : GraphStoreLinked Nat :=
  (((((GraphStoreLinked.new.addVertex 1 10).2.addVertex 2 20).2.addVertex 3 30).2.createEdge
    1 2).2.createEdge 2 3).2

/-- The store `storePath` after the query `shortestPath(1, 3, [])`. -/
def storePathQueried : GraphStoreLinked Nat :=
  match storePath.shortestPath 1 3 [] with
  | some r => r.2
  | none => storePath

namespace GraphStoreLinked

variable {V : Type}

/-- Nothing of `g` is lost in `g1`: every vertex key of `g` is a key of `g1` with the same
id and payload, and the adjacency sequence it has in `g` is a prefix of the one it has in
`g1`. -/
def Kept (g g1 : GraphStoreLinked V) : Prop :=
  ∀ k lv, g.vertex k = some lv →
    ∃ lv1, g1.vertex k = some lv1 ∧ lv1.head.id = lv.head.id ∧ lv1.head.data = lv.head.data ∧
      lv.nodes <+: lv1.nodes

/-- The empty store after `addVertex(a, x)`, `addVertex(b, y)` and `createEdge(a, b)`. -/
def twoVertexStore (a b : Int) (x y : V) : GraphStoreLinked V :=
  (((GraphStoreLinked.new.addVertex a x).2.addVertex b y).2.createEdge a b).2

end GraphStoreLinked
/-! ## The vertex map -/

section MapLemmas

variable {V : Type}

theorem mapModify_cons (k0 : Int) (lv0 : LinkedVertices V) (rest : List (Int × LinkedVertices V))
    (key : Int) (f : LinkedVertices V → LinkedVertices V) :
    mapModify ((k0, lv0) :: rest) key f =
      (k0, if k0 = key then f lv0 else lv0) :: mapModify rest key f := by
  unfold mapModify
  by_cases h : k0 = key <;> simp [h]

theorem mapFind_mapModify (m : List (Int × LinkedVertices V)) (key k : Int)
    (f : LinkedVertices V → LinkedVertices V) :
    mapFind (mapModify m key f) k = (mapFind m k).map (fun lv => if k = key then f lv else lv) := by
  induction m with
  | nil => simp [mapModify, mapFind]
  | cons p rest ih =>
    obtain ⟨k0, lv0⟩ := p
    rw [mapModify_cons]
    by_cases h1 : k0 = k
    · subst h1; simp [mapFind]
    · simp [mapFind, h1, ih]

theorem mapFind_mapModify_ne (m : List (Int × LinkedVertices V)) (key k : Int)
    (f : LinkedVertices V → LinkedVertices V) (h : k ≠ key) :
    mapFind (mapModify m key f) k = mapFind m k := by
  rw [mapFind_mapModify]; cases mapFind m k <;> simp [h]

theorem mapFind_mapModify_self (m : List (Int × LinkedVertices V)) (key : Int)
    (f : LinkedVertices V → LinkedVertices V) :
    mapFind (mapModify m key f) key = (mapFind m key).map f := by
  rw [mapFind_mapModify]; cases mapFind m key <;> simp

theorem mapFind_mapInsert_self (m : List (Int × LinkedVertices V)) (key : Int)
    (lv : LinkedVertices V) (h : mapFind m key = none) :
    mapFind (mapInsert m key lv) key = some lv := by
  induction m with
  | nil => simp [mapInsert, mapFind]
  | cons p rest ih =>
    obtain ⟨k0, lv0⟩ := p
    by_cases h0 : k0 = key
    · simp [mapFind, h0] at h
    · simp only [mapFind, h0, if_false] at h
      have h1 : ¬ key = k0 := fun e => h0 e.symm
      by_cases h2 : key < k0
      · simp [mapInsert, h2, mapFind]
      · simp [mapInsert, h2, h1, mapFind, h0, ih h]

theorem mapFind_mapInsert_ne (m : List (Int × LinkedVertices V)) (key k : Int)
    (lv : LinkedVertices V) (h : k ≠ key) :
    mapFind (mapInsert m key lv) k = mapFind m k := by
  have h' : ¬ key = k := fun e => h e.symm
  induction m with
  | nil => simp [mapInsert, mapFind, h']
  | cons p rest ih =>
    obtain ⟨k0, lv0⟩ := p
    by_cases h2 : key < k0
    · simp [mapInsert, h2, mapFind, h']
    · by_cases h1 : key = k0
      · simp [mapInsert, h2, h1]
      · by_cases h3 : k0 = k
        · subst h3; simp [mapInsert, h2, h1, mapFind]
        · simp [mapInsert, h2, h1, mapFind, h3, ih]

end MapLemmas

/-! ## Reading and writing the search fields -/

section SearchFields

variable {V : Type}

theorem SameGraph.refl (m : List (Int × LinkedVertices V)) : SameGraph m m := fun _ => rfl

theorem SameGraph.trans {m m1 m2 : List (Int × LinkedVertices V)} (h1 : SameGraph m m1)
    (h2 : SameGraph m1 m2) : SameGraph m m2 := fun k => (h2 k).trans (h1 k)

theorem SameGraph.symm {m m1 : List (Int × LinkedVertices V)} (h : SameGraph m m1) :
    SameGraph m1 m := fun k => (h k).symm

theorem SameGraph.isSome {m m1 : List (Int × LinkedVertices V)} (h : SameGraph m m1) (k : Int) :
    (mapFind m1 k).isSome = (mapFind m k).isSome := by
  have := congrArg Option.isSome (h k)
  simpa using this

theorem SameGraph.mapAdj {m m1 : List (Int × LinkedVertices V)} (h : SameGraph m m1) (k : Int) :
    mapAdj m1 k = mapAdj m k := by
  have := h k
  unfold graph.mapAdj
  cases h1 : mapFind m1 k <;> cases h2 : mapFind m k <;>
    simp [h1, h2, LinkedVertices.persistent] at this ⊢
  exact this.2.2.2

theorem SameGraph.mapHasLabel {m m1 : List (Int × LinkedVertices V)} (h : SameGraph m m1)
    (k : Int) (label : List String) : mapHasLabel m1 k label = mapHasLabel m k label := by
  have := h k
  unfold graph.mapHasLabel
  cases h1 : mapFind m1 k <;> cases h2 : mapFind m k <;>
    simp [h1, h2, LinkedVertices.persistent] at this ⊢
  simp [NodeVertex.hasLabel, this.2.2.1]

theorem mapFind_mapModifyHead (m : List (Int × LinkedVertices V)) (key k : Int)
    (f : NodeVertex V → NodeVertex V) :
    mapFind (mapModifyHead m key f) k =
      (mapFind m k).map (fun lv => if k = key then { lv with head := f lv.head } else lv) := by
  unfold mapModifyHead
  rw [mapFind_mapModify]

theorem sameGraph_mapModifyHead (m : List (Int × LinkedVertices V)) (key : Int)
    (f : NodeVertex V → NodeVertex V)
    (hf : ∀ n, (f n).id = n.id ∧ (f n).data = n.data ∧ (f n).labelVec = n.labelVec) :
    SameGraph m (mapModifyHead m key f) := by
  intro k
  rw [mapFind_mapModifyHead]
  cases h : mapFind m k with
  | none => rfl
  | some lv =>
    by_cases hk : k = key
    · simp [hk, LinkedVertices.persistent, hf lv.head]
    · simp [hk]

theorem mapFind_mapSetBoth (m : List (Int × LinkedVertices V)) (e d p k : Int) :
    mapFind (mapSetBoth m e d p) k =
      (mapFind m k).map (fun lv =>
        if k = e then { lv with head := { lv.head with distance := d, previous := p } } else lv) := by
  unfold mapSetBoth
  rw [mapFind_mapModifyHead, mapFind_mapModifyHead]
  cases h : mapFind m k with
  | none => rfl
  | some lv =>
    by_cases hk : k = e
    · simp [hk, NodeVertex.setVertexDistance, NodeVertex.setPreviousNode]
    · simp [hk]

theorem mapFind_mapSetBoth_ne (m : List (Int × LinkedVertices V)) (e d p k : Int) (h : k ≠ e) :
    mapFind (mapSetBoth m e d p) k = mapFind m k := by
  rw [mapFind_mapSetBoth]; cases mapFind m k <;> simp [h]

theorem sameGraph_mapSetBoth (m : List (Int × LinkedVertices V)) (e d p : Int) :
    SameGraph m (mapSetBoth m e d p) := by
  intro k
  rw [mapFind_mapSetBoth]
  cases h : mapFind m k with
  | none => rfl
  | some lv =>
    by_cases hk : k = e
    · simp [hk, LinkedVertices.persistent]
    · simp [hk]

theorem mapDist_mapSetBoth_self (m : List (Int × LinkedVertices V)) (e d p : Int)
    (h : (mapFind m e).isSome = true) : mapDist (mapSetBoth m e d p) e = d := by
  unfold mapDist
  rw [mapFind_mapSetBoth]
  cases h1 : mapFind m e with
  | none => simp [h1] at h
  | some lv => simp

theorem mapPrev_mapSetBoth_self (m : List (Int × LinkedVertices V)) (e d p : Int)
    (h : (mapFind m e).isSome = true) : mapPrev (mapSetBoth m e d p) e = p := by
  unfold mapPrev
  rw [mapFind_mapSetBoth]
  cases h1 : mapFind m e with
  | none => simp [h1] at h
  | some lv => simp

theorem mapDist_congr {m m1 : List (Int × LinkedVertices V)} {k : Int}
    (h : mapFind m1 k = mapFind m k) : mapDist m1 k = mapDist m k := by
  unfold mapDist; rw [h]

theorem mapPrev_congr {m m1 : List (Int × LinkedVertices V)} {k : Int}
    (h : mapFind m1 k = mapFind m k) : mapPrev m1 k = mapPrev m k := by
  unfold mapPrev; rw [h]

/-- Writing distance 0 to the start node keeps everything else. -/
theorem mapFind_setStart_ne (m : List (Int × LinkedVertices V)) (start k : Int) (h : k ≠ start) :
    mapFind (mapModifyHead m start (fun n => n.setVertexDistance 0)) k = mapFind m k := by
  rw [mapFind_mapModifyHead]; cases mapFind m k <;> simp [h]

theorem mapDist_setStart (m : List (Int × LinkedVertices V)) (start : Int)
    (h : (mapFind m start).isSome = true) :
    mapDist (mapModifyHead m start (fun n => n.setVertexDistance 0)) start = 0 := by
  unfold mapDist
  rw [mapFind_mapModifyHead]
  cases h1 : mapFind m start with
  | none => simp [h1] at h
  | some lv => simp [NodeVertex.setVertexDistance]

theorem mapPrev_setStart (m : List (Int × LinkedVertices V)) (start k : Int) :
    mapPrev (mapModifyHead m start (fun n => n.setVertexDistance 0)) k = mapPrev m k := by
  unfold mapPrev
  rw [mapFind_mapModifyHead]
  cases h1 : mapFind m k with
  | none => rfl
  | some lv => by_cases hk : k = start <;> simp [hk, NodeVertex.setVertexDistance]

theorem sameGraph_setStart (m : List (Int × LinkedVertices V)) (start : Int) :
    SameGraph m (mapModifyHead m start (fun n => n.setVertexDistance 0)) :=
  sameGraph_mapModifyHead m start _ (fun _ => ⟨rfl, rfl, rfl⟩)

/-! ## The reset loop and the selection loop -/

theorem resetLoop_cons (m : List (Int × LinkedVertices V)) (e : Int) (rest : List Int) :
    LinkedListOfVertices.resetLoop m (e :: rest) =
      match mapFind m e with
      | none => none
      | some _ => LinkedListOfVertices.resetLoop (mapSetBoth m e INT_MAX INT_MIN) rest := rfl

/-- Whenever the reset loop returns, the graph is the same. -/
theorem resetLoop_sameGraph (l : List Int) :
    ∀ (m m1 : List (Int × LinkedVertices V)),
      LinkedListOfVertices.resetLoop m l = some m1 → SameGraph m m1 := by
  induction l with
  | nil => intro m m1 h; simp [LinkedListOfVertices.resetLoop] at h; subst h; exact SameGraph.refl m
  | cons e rest ih =>
    intro m m1 h
    rw [resetLoop_cons] at h
    cases h1 : mapFind m e with
    | none => simp [h1] at h
    | some lv =>
      simp only [h1] at h
      exact (sameGraph_mapSetBoth m e INT_MAX INT_MIN).trans (ih _ _ h)

/-- On keys that are all present the reset loop returns; the listed keys get distance
`INT_MAX` and previous `INT_MIN`, the other entries are kept. -/
theorem resetLoop_spec (l : List Int) :
    ∀ (m : List (Int × LinkedVertices V)), (∀ k ∈ l, (mapFind m k).isSome = true) →
      ∃ m1, LinkedListOfVertices.resetLoop m l = some m1 ∧
        (∀ k ∈ l, mapDist m1 k = INT_MAX ∧ mapPrev m1 k = INT_MIN) ∧
        (∀ k, k ∉ l → mapFind m1 k = mapFind m k) := by
  induction l with
  | nil => intro m _; exact ⟨m, rfl, by simp, fun _ _ => rfl⟩
  | cons e rest ih =>
    intro m hk
    have he : (mapFind m e).isSome = true := hk e (List.mem_cons_self _ _)
    have hsg := sameGraph_mapSetBoth m e INT_MAX INT_MIN
    obtain ⟨m1, h1, h2, h3⟩ := ih (mapSetBoth m e INT_MAX INT_MIN) (by
      intro k hkr
      rw [hsg.isSome]; exact hk k (List.mem_cons_of_mem _ hkr))
    refine ⟨m1, ?_, ?_, ?_⟩
    · rw [resetLoop_cons]
      cases h4 : mapFind m e with
      | none => simp [h4] at he
      | some lv => simpa using h1
    · intro k hkl
      by_cases hkr : k ∈ rest
      · exact h2 k hkr
      · have hke : k = e := by
          rcases List.mem_cons.mp hkl with h | h
          · exact h
          · exact absurd h hkr
        subst hke
        have h5 := h3 k hkr
        exact ⟨(mapDist_congr h5).trans (mapDist_mapSetBoth_self m k _ _ he),
          (mapPrev_congr h5).trans (mapPrev_mapSetBoth_self m k _ _ he)⟩
    · intro k hkl
      have hke : k ≠ e := fun h => hkl (h ▸ List.mem_cons_self _ _)
      have hkr : k ∉ rest := fun h => hkl (List.mem_cons_of_mem _ h)
      rw [h3 k hkr, mapFind_mapSetBoth_ne m e _ _ k hke]

/-- On keys that are all present the selection returns a key of the list whose distance is
least. -/
theorem selectMin_spec (m : List (Int × LinkedVertices V)) (l : List Int) :
    ∀ (u : Int), (mapFind m u).isSome = true → (∀ k ∈ l, (mapFind m k).isSome = true) →
      ∃ r, LinkedListOfVertices.selectMin m u l = some r ∧ (r = u ∨ r ∈ l) ∧
        mapDist m r ≤ mapDist m u ∧ ∀ y ∈ l, mapDist m r ≤ mapDist m y := by
  induction l with
  | nil => intro u _ _; exact ⟨u, rfl, Or.inl rfl, le_refl _, by simp⟩
  | cons c rest ih =>
    intro u hu hk
    have hc : (mapFind m c).isSome = true := hk c (List.mem_cons_self _ _)
    have hrest : ∀ k ∈ rest, (mapFind m k).isSome = true :=
      fun k h => hk k (List.mem_cons_of_mem _ h)
    obtain ⟨lc, hlc⟩ := Option.isSome_iff_exists.mp hc
    obtain ⟨lu, hlu⟩ := Option.isSome_iff_exists.mp hu
    have hdc : mapDist m c = lc.head.distance := by simp [mapDist, hlc]
    have hdu : mapDist m u = lu.head.distance := by simp [mapDist, hlu]
    by_cases hlt : lc.head.distance < lu.head.distance
    · obtain ⟨r, h1, h2, h3, h4⟩ := ih c hc hrest
      refine ⟨r, ?_, ?_, ?_, ?_⟩
      · simp [LinkedListOfVertices.selectMin, hlc, hlu, LinkedVertices.getHead,
          NodeVertex.getVertexDistance, hlt, h1]
      · rcases h2 with h2 | h2
        · exact Or.inr (h2 ▸ List.mem_cons_self _ _)
        · exact Or.inr (List.mem_cons_of_mem _ h2)
      · rw [hdc] at h3; rw [hdu]; omega
      · intro y hy
        rcases List.mem_cons.mp hy with h | h
        · rw [h]; exact h3
        · exact h4 y h
    · obtain ⟨r, h1, h2, h3, h4⟩ := ih u hu hrest
      refine ⟨r, ?_, ?_, h3, ?_⟩
      · simp [LinkedListOfVertices.selectMin, hlc, hlu, LinkedVertices.getHead,
          NodeVertex.getVertexDistance, hlt, h1]
      · rcases h2 with h2 | h2
        · exact Or.inl h2
        · exact Or.inr (List.mem_cons_of_mem _ h2)
      · intro y hy
        rcases List.mem_cons.mp hy with h | h
        · rw [h, hdc]; rw [hdu] at h3; omega
        · exact h4 y h

end SearchFields

/-! ## The relaxation loop -/

section Relaxation

variable {V : Type}

theorem wrapInt_eq_self (x : Int) (h0 : 0 ≤ x) (h1 : x ≤ INT_MAX) : wrapInt x = x := by
  unfold wrapInt
  unfold INT_MAX at h1
  omega

theorem relaxEdges_cons (u : Int) (label : List String) (m : List (Int × LinkedVertices V))
    (e : Int) (rest : List Int) :
    LinkedListOfVertices.relaxEdges u label m (e :: rest) =
      match mapFind m u, mapFind m e with
      | some lu, some le =>
        if lu.head.distance < le.head.distance ∧ le.head.hasLabel label = true then
          LinkedListOfVertices.relaxEdges u label
            (mapSetBoth m e (wrapInt (lu.head.distance + 1)) u) rest
        else LinkedListOfVertices.relaxEdges u label m rest
      | _, _ => none := rfl

/-- Whenever the relaxation loop returns, the graph is the same. -/
theorem relaxEdges_sameGraph (u : Int) (label : List String) (es : List Int) :
    ∀ (m m1 : List (Int × LinkedVertices V)),
      LinkedListOfVertices.relaxEdges u label m es = some m1 → SameGraph m m1 := by
  induction es with
  | nil =>
    intro m m1 h
    simp [LinkedListOfVertices.relaxEdges] at h
    subst h; exact SameGraph.refl m
  | cons e rest ih =>
    intro m m1 h
    rw [relaxEdges_cons] at h
    cases h1 : mapFind m u with
    | none => simp [h1] at h
    | some lu =>
      cases h2 : mapFind m e with
      | none => simp [h1, h2] at h
      | some le =>
        simp only [h1, h2] at h
        split_ifs at h with hc
        · exact (sameGraph_mapSetBoth m e _ u).trans (ih _ _ h)
        · exact ih _ _ h

/-- The condition under which the relaxation of the edges `es` of `u` rewrites `v`. -/
theorem relaxEdges_spec (u : Int) (label : List String) (es : List Int) :
    ∀ (m : List (Int × LinkedVertices V)), (mapFind m u).isSome = true →
      (∀ e ∈ es, (mapFind m e).isSome = true) → 0 ≤ mapDist m u →
      (∀ e ∈ es, mapDist m e ≤ INT_MAX) →
      ∃ m1, LinkedListOfVertices.relaxEdges u label m es = some m1 ∧
        (∀ v, (v ∈ es ∧ mapDist m u < mapDist m v ∧ mapHasLabel m v label = true) →
          mapDist m1 v = mapDist m u + 1 ∧ mapPrev m1 v = u) ∧
        (∀ v, ¬ (v ∈ es ∧ mapDist m u < mapDist m v ∧ mapHasLabel m v label = true) →
          mapFind m1 v = mapFind m v) := by
  induction es with
  | nil => intro m _ _ _ _; exact ⟨m, rfl, by simp, fun _ _ => rfl⟩
  | cons e rest ih =>
    intro m hu hes h0 hmax
    have he : (mapFind m e).isSome = true := hes e (List.mem_cons_self _ _)
    obtain ⟨lu, hlu⟩ := Option.isSome_iff_exists.mp hu
    obtain ⟨le, hle⟩ := Option.isSome_iff_exists.mp he
    have hdu : mapDist m u = lu.head.distance := by simp [mapDist, hlu]
    have hde : mapDist m e = le.head.distance := by simp [mapDist, hle]
    have hle_lab : mapHasLabel m e label = le.head.hasLabel label := by simp [mapHasLabel, hle]
    by_cases hc : lu.head.distance < le.head.distance ∧ le.head.hasLabel label = true
    · -- the edge is relaxed
      have hemax : mapDist m e ≤ INT_MAX := hmax e (List.mem_cons_self _ _)
      have hw : wrapInt (lu.head.distance + 1) = lu.head.distance + 1 := by
        apply wrapInt_eq_self <;> omega
      have hne : u ≠ e := by
        intro h; subst h
        rw [hlu] at hle; cases hle; omega
      have hsg := sameGraph_mapSetBoth m e (lu.head.distance + 1) u
      have hu1 : mapFind (mapSetBoth m e (lu.head.distance + 1) u) u = mapFind m u :=
        mapFind_mapSetBoth_ne m e _ _ u hne
      have hdu1 : mapDist (mapSetBoth m e (lu.head.distance + 1) u) u = mapDist m u :=
        mapDist_congr hu1
      have hde1 : mapDist (mapSetBoth m e (lu.head.distance + 1) u) e = lu.head.distance + 1 :=
        mapDist_mapSetBoth_self m e _ _ he
      have hpe1 : mapPrev (mapSetBoth m e (lu.head.distance + 1) u) e = u :=
        mapPrev_mapSetBoth_self m e _ _ he
      obtain ⟨m1, h1, h2, h3⟩ := ih (mapSetBoth m e (lu.head.distance + 1) u)
        (by rw [hu1]; exact hu)
        (by intro k hk; rw [hsg.isSome]; exact hes k (List.mem_cons_of_mem _ hk))
        (by rw [hdu1]; exact h0)
        (by
          intro k hk
          by_cases hke : k = e
          · rw [hke, hde1]; omega
          · rw [mapDist_congr (mapFind_mapSetBoth_ne m e _ _ k hke)]
            exact hmax k (List.mem_cons_of_mem _ hk))
      refine ⟨m1, ?_, ?_, ?_⟩
      · rw [relaxEdges_cons]
        simp only [hlu, hle, hw, if_pos hc]
        exact h1
      · intro v hv
        by_cases hve : v = e
        · subst hve
          by_cases hin : v ∈ rest
          · have := h2 v ⟨hin, by rw [hdu1, hde1, hdu]; omega, by
              rw [hsg.mapHasLabel]; exact hv.2.2⟩
            rw [hdu1] at this
            exact this
          · have h4 := h3 v (fun h => hin h.1)
            rw [mapDist_congr h4, mapPrev_congr h4, hde1, hpe1, hdu]
            exact ⟨rfl, rfl⟩
        · have hfv := mapFind_mapSetBoth_ne m e (lu.head.distance + 1) u v hve
          have hin : v ∈ rest := by
            rcases List.mem_cons.mp hv.1 with h | h
            · exact absurd h hve
            · exact h
          have := h2 v ⟨hin, by rw [hdu1, mapDist_congr hfv]; exact hv.2.1, by
            rw [hsg.mapHasLabel]; exact hv.2.2⟩
          rw [hdu1] at this
          exact this
      · intro v hv
        have hve : v ≠ e := by
          intro h; subst h
          exact hv ⟨List.mem_cons_self _ _, by rw [hdu, hde]; exact hc.1, by
            rw [hle_lab]; exact hc.2⟩
        have hfv := mapFind_mapSetBoth_ne m e (lu.head.distance + 1) u v hve
        rw [← hfv]
        apply h3
        intro h
        apply hv
        refine ⟨List.mem_cons_of_mem _ h.1, ?_, ?_⟩
        · have := h.2.1
          rw [hdu1, mapDist_congr hfv] at this
          exact this
        · have := h.2.2
          rw [hsg.mapHasLabel] at this
          exact this
    · -- the edge is left as it is
      obtain ⟨m1, h1, h2, h3⟩ := ih m hu (fun k hk => hes k (List.mem_cons_of_mem _ hk)) h0
        (fun k hk => hmax k (List.mem_cons_of_mem _ hk))
      have hnot : ¬ (mapDist m u < mapDist m e ∧ mapHasLabel m e label = true) := by
        rw [hdu, hde, hle_lab]; exact hc
      refine ⟨m1, ?_, ?_, ?_⟩
      · rw [relaxEdges_cons]
        simp only [hlu, hle, if_neg hc]
        exact h1
      · intro v hv
        apply h2
        refine ⟨?_, hv.2⟩
        rcases List.mem_cons.mp hv.1 with h | h
        · subst h; exact absurd hv.2 hnot
        · exact h
      · intro v hv
        apply h3
        intro h
        exact hv ⟨List.mem_cons_of_mem _ h.1, h.2⟩

end Relaxation

/-! ## The invariant of the selection loop -/

section LoopInvariant

variable {V : Type}

theorem mem_listRemove (q : List Int) (u x : Int) : x ∈ listRemove q u ↔ x ∈ q ∧ x ≠ u := by
  simp [listRemove]

theorem length_listRemove_lt (q : List Int) (u : Int) (h : u ∈ q) :
    (listRemove q u).length + 1 ≤ q.length := by
  induction q with
  | nil => simp at h
  | cons a rest ih =>
    by_cases ha : a = u
    · have : (listRemove (a :: rest) u).length ≤ rest.length := by
        simp only [listRemove, ha]
        simp only [ne_eq, not_true_eq_false, decide_False, Bool.false_eq_true,
          not_false_eq_true, List.filter_cons_of_neg]
        exact List.length_filter_le _ _
      simp only [List.length_cons]
      omega
    · have hr : u ∈ rest := by
        rcases List.mem_cons.mp h with h1 | h1
        · exact absurd h1.symm ha
        · exact h1
      have := ih hr
      simp only [listRemove, ne_eq, ha, not_false_eq_true, decide_True, List.filter_cons_of_pos,
        List.length_cons] at this ⊢
      omega

/-- One iteration keeps the invariant: `u` is a key of `q` of least distance, and `m1` is
the map after the relaxation of the edges of `u`. -/
theorem loopInv_step {qb : List Int} {start : Int} {label : List String}
    {m m1 : List (Int × LinkedVertices V)} {q : List Int} {u : Int}
    (hinv : LoopInv qb start label m q) (hu : u ∈ q)
    (hmin : ∀ y ∈ q, mapDist m u ≤ mapDist m y) (hsg : SameGraph m m1)
    (hrel : ∀ v, (v ∈ mapAdj m u ∧ mapDist m u < mapDist m v ∧ mapHasLabel m v label = true) →
      mapDist m1 v = mapDist m u + 1 ∧ mapPrev m1 v = u)
    (hkeep : ∀ v, ¬ (v ∈ mapAdj m u ∧ mapDist m u < mapDist m v ∧ mapHasLabel m v label = true) →
      mapFind m1 v = mapFind m v) :
    LoopInv qb start label m1 (listRemove q u) := by
  have huqb : u ∈ qb := hinv.qsub u hu
  have hu0 : 0 ≤ mapDist m u := (hinv.rng u huqb).1
  -- a rewritten vertex is still in `q` and is not `u`
  have hcq : ∀ v, (v ∈ mapAdj m u ∧ mapDist m u < mapDist m v ∧ mapHasLabel m v label = true) →
      v ∈ q ∧ v ≠ u ∧ v ∈ qb := by
    intro v hc
    have hvqb : v ∈ qb := (hinv.adj u v hc.1).2
    refine ⟨?_, ?_, hvqb⟩
    · by_contra hvq
      have := hinv.settled v hvqb hvq u hu
      omega
    · intro h; rw [h] at hc; omega
  have hsameD : ∀ v,
      ¬ (v ∈ mapAdj m u ∧ mapDist m u < mapDist m v ∧ mapHasLabel m v label = true) →
      mapDist m1 v = mapDist m v := fun v hv => mapDist_congr (hkeep v hv)
  have hsameP : ∀ v,
      ¬ (v ∈ mapAdj m u ∧ mapDist m u < mapDist m v ∧ mapHasLabel m v label = true) →
      mapPrev m1 v = mapPrev m v := fun v hv => mapPrev_congr (hkeep v hv)
  have hnotq : ∀ x, x ∉ listRemove q u →
      ¬ (x ∈ mapAdj m u ∧ mapDist m u < mapDist m x ∧ mapHasLabel m x label = true) := by
    intro x hx hc
    have := hcq x hc
    exact hx ((mem_listRemove q u x).mpr ⟨this.1, this.2.1⟩)
  have hle : ∀ v, mapDist m1 v ≤ mapDist m v := by
    intro v
    by_cases hc : v ∈ mapAdj m u ∧ mapDist m u < mapDist m v ∧ mapHasLabel m v label = true
    · rw [(hrel v hc).1]; omega
    · rw [hsameD v hc]
  have hxu : ∀ x ∈ qb, x ∉ listRemove q u → mapDist m x ≤ mapDist m u := by
    intro x hxqb hx
    by_cases hxq : x ∈ q
    · have : x = u := by
        by_contra hne
        exact hx ((mem_listRemove q u x).mpr ⟨hxq, hne⟩)
      rw [this]
    · exact hinv.settled x hxqb hxq u hu
  have hlen := length_listRemove_lt q u hu
  have hset : (∀ k ∈ qb, mapAdj m k ≠ [] → k ≠ INT_MIN) → ∀ v ∈ qb, mapDist m v < INT_MAX →
      v = start ∨ mapPrev m v ≠ INT_MIN := by
    intro hns v hv hd
    by_cases h1 : v = start
    · exact Or.inl h1
    · right
      intro h2
      have := hinv.unreached hns v hv h2 h1
      omega
  constructor
  · intro k hk
    rw [hsg.isSome]; exact hinv.keys k hk
  · intro a b hab
    rw [hsg.mapAdj] at hab; exact hinv.adj a b hab
  · intro k hk
    exact hinv.qsub k ((mem_listRemove q u k).mp hk).1
  · exact hinv.startIn
  · have hns : ¬ (start ∈ mapAdj m u ∧ mapDist m u < mapDist m start ∧
        mapHasLabel m start label = true) := by
      intro hc
      have := hinv.dstart.1
      omega
    rw [hsameD start hns, hsameP start hns]
    exact hinv.dstart
  · intro k hk
    by_cases hc : k ∈ mapAdj m u ∧ mapDist m u < mapDist m k ∧ mapHasLabel m k label = true
    · rw [(hrel k hc).1]
      have := (hinv.rng k hk).2
      omega
    · rw [hsameD k hc]; exact hinv.rng k hk
  · intro x hxqb hx y hy
    have hyq := (mem_listRemove q u y).mp hy
    rw [hsameD x (hnotq x hx)]
    have h1 := hxu x hxqb hx
    by_cases hc : y ∈ mapAdj m u ∧ mapDist m u < mapDist m y ∧ mapHasLabel m y label = true
    · rw [(hrel y hc).1]; omega
    · rw [hsameD y hc]
      have := hmin y hyq.1
      omega
  · intro v hv hp
    by_cases hc : v ∈ mapAdj m u ∧ mapDist m u < mapDist m v ∧ mapHasLabel m v label = true
    · have hr := hrel v hc
      have hnu : ¬ (u ∈ mapAdj m u ∧ mapDist m u < mapDist m u ∧ mapHasLabel m u label = true) := by
        intro h; omega
      rw [hr.2, hr.1, hsameD u hnu, hsg.mapAdj, hsg.mapHasLabel]
      refine ⟨huqb, ?_, hc.1, hc.2.2, rfl⟩
      intro h
      exact ((mem_listRemove q u u).mp h).2 rfl
    · rw [hsameP v hc] at hp ⊢
      obtain ⟨h1, h2, h3, h4, h5⟩ := hinv.pred v hv hp
      have hw : mapPrev m v ∉ listRemove q u := fun h => h2 ((mem_listRemove q u _).mp h).1
      rw [hsameD v hc, hsameD _ (hnotq _ hw), hsg.mapAdj, hsg.mapHasLabel]
      exact ⟨h1, hw, h3, h4, h5⟩
  · intro x hxqb hx hdx v hv hl
    rw [hsameD x (hnotq x hx)] at hdx ⊢
    rw [hsg.mapAdj] at hv
    rw [hsg.mapHasLabel] at hl
    by_cases hxq : x ∈ q
    · have hxeq : x = u := by
        by_contra hne
        exact hx ((mem_listRemove q u x).mpr ⟨hxq, hne⟩)
      subst hxeq
      by_cases hlt : mapDist m x < mapDist m v
      · rw [(hrel v ⟨hv, hlt, hl⟩).1]
      · have := hle v
        omega
    · have := hinv.relaxed x hxqb hxq hdx v hv hl
      have := hle v
      omega
  · intro v hv hp
    by_cases hc : v ∈ mapAdj m u ∧ mapDist m u < mapDist m v ∧ mapHasLabel m v label = true
    · rw [(hrel v hc).1]
      have h1 := (hinv.rng v hv).2
      have := hinv.count u huqb (Or.inl (by omega))
      omega
    · rw [hsameD v hc, hsameP v hc] at hp
      rw [hsameD v hc]
      have := hinv.count v hv hp
      omega
  · intro hns1 v hv hp hvs
    have hns : ∀ k ∈ qb, mapAdj m k ≠ [] → k ≠ INT_MIN := by
      intro k hk hne
      refine hns1 k hk ?_
      rw [hsg.mapAdj]; exact hne
    by_cases hc : v ∈ mapAdj m u ∧ mapDist m u < mapDist m v ∧ mapHasLabel m v label = true
    · rw [(hrel v hc).2] at hp
      exact absurd hp (hns u huqb (List.ne_nil_of_mem hc.1))
    · rw [hsameP v hc] at hp
      rw [hsameD v hc]
      exact hinv.unreached hns v hv hp hvs
  · intro hns1 x hxqb hx hdx v hv hl
    have hns : ∀ k ∈ qb, mapAdj m k ≠ [] → k ≠ INT_MIN := by
      intro k hk hne
      refine hns1 k hk ?_
      rw [hsg.mapAdj]; exact hne
    rw [hsameD x (hnotq x hx)] at hdx
    rw [hsg.mapAdj] at hv
    rw [hsg.mapHasLabel] at hl
    by_cases hc : v ∈ mapAdj m u ∧ mapDist m u < mapDist m v ∧ mapHasLabel m v label = true
    · right
      rw [(hrel v hc).2]
      exact hns u huqb (List.ne_nil_of_mem hc.1)
    · rw [hsameP v hc]
      by_cases hxq : x ∈ q
      · have hxeq : x = u := by
          by_contra hne
          exact hx ((mem_listRemove q u x).mpr ⟨hxq, hne⟩)
        subst hxeq
        have hvqb : v ∈ qb := (hinv.adj x v hv).2
        have hnlt : ¬ mapDist m x < mapDist m v := fun h => hc ⟨hv, h, hl⟩
        exact hset hns v hvqb (by omega)
      · exact hinv.reached hns x hxqb hxq hdx v hv hl

end LoopInvariant

/-! ## The selection loop and the reconstruction of the path -/

section SearchLoop

variable {V : Type}

theorem whileLoop_nil (stop : Int) (label : List String) (fuel : Nat)
    (m : List (Int × LinkedVertices V)) (t : Int) :
    LinkedListOfVertices.whileLoop stop label fuel m [] t = some (m, [], t) := by
  cases fuel <;> rfl

theorem whileLoop_cons (stop : Int) (label : List String) (fuel : Nat)
    (m : List (Int × LinkedVertices V)) (front : Int) (qrest : List Int) (t : Int) :
    LinkedListOfVertices.whileLoop stop label (fuel + 1) m (front :: qrest) t =
      match LinkedListOfVertices.selectMin m front (front :: qrest) with
      | none => none
      | some u =>
        match mapFind m u with
        | none => none
        | some lu =>
          match LinkedListOfVertices.relaxEdges u label m lu.returnEdges with
          | none => none
          | some m1 =>
            LinkedListOfVertices.whileLoop stop label fuel m1
              (listRemove (if u = stop then [] else front :: qrest) u)
              (if u = stop then u else t) := rfl

/-- Whenever the selection loop returns, the graph is the same and `q` is empty. -/
theorem whileLoop_sameGraph (stop : Int) (label : List String) (fuel : Nat) :
    ∀ (m : List (Int × LinkedVertices V)) (q : List Int) (t : Int)
      (m1 : List (Int × LinkedVertices V)) (q1 : List Int) (t1 : Int),
      LinkedListOfVertices.whileLoop stop label fuel m q t = some (m1, q1, t1) →
        SameGraph m m1 ∧ q1 = [] := by
  induction fuel with
  | zero =>
    intro m q t m1 q1 t1 h
    cases q with
    | nil =>
      rw [whileLoop_nil] at h
      simp only [Option.some.injEq, Prod.mk.injEq] at h
      obtain ⟨h1, h2, _⟩ := h
      subst h1
      exact ⟨SameGraph.refl m, h2.symm⟩
    | cons a rest => simp [LinkedListOfVertices.whileLoop] at h
  | succ fuel ih =>
    intro m q t m1 q1 t1 h
    cases q with
    | nil =>
      rw [whileLoop_nil] at h
      simp only [Option.some.injEq, Prod.mk.injEq] at h
      obtain ⟨h1, h2, _⟩ := h
      subst h1
      exact ⟨SameGraph.refl m, h2.symm⟩
    | cons a rest =>
      rw [whileLoop_cons] at h
      cases hs : LinkedListOfVertices.selectMin m a (a :: rest) with
      | none => simp [hs] at h
      | some u =>
        cases hf : mapFind m u with
        | none => simp [hs, hf] at h
        | some lu =>
          cases hr : LinkedListOfVertices.relaxEdges u label m lu.returnEdges with
          | none => simp [hs, hf, hr] at h
          | some m2 =>
            simp only [hs, hf, hr] at h
            have := ih _ _ _ _ _ _ h
            exact ⟨(relaxEdges_sameGraph u label _ m m2 hr).trans this.1, this.2⟩

/-- Under the invariant the selection loop returns with enough fuel. The invariant holds at
the end for the keys `qv` that were still to be selected when the loop stopped; a `stop`
that is in `q` ends up in `tempNodeKey` and outside `qv`. -/
theorem whileLoop_spec (qb : List Int) (start stop : Int) (label : List String) (fuel : Nat) :
    ∀ (m : List (Int × LinkedVertices V)) (q : List Int) (t : Int),
      LoopInv qb start label m q → q.length ≤ fuel →
      ∃ m1 qv t1, LinkedListOfVertices.whileLoop stop label fuel m q t = some (m1, [], t1) ∧
        LoopInv qb start label m1 qv ∧ (stop ∈ q → t1 = stop ∧ stop ∉ qv) ∧
        (stop ∉ q → t1 = t ∧ qv = []) := by
  induction fuel with
  | zero =>
    intro m q t hinv hlen
    cases q with
    | nil => exact ⟨m, [], t, whileLoop_nil _ _ _ _ _, hinv, by simp, by simp⟩
    | cons a rest => simp at hlen
  | succ fuel ih =>
    intro m q t hinv hlen
    cases q with
    | nil => exact ⟨m, [], t, whileLoop_nil _ _ _ _ _, hinv, by simp, by simp⟩
    | cons a rest =>
      have hkq : ∀ k ∈ a :: rest, (mapFind m k).isSome = true :=
        fun k hk => hinv.keys k (hinv.qsub k hk)
      obtain ⟨u, hs, hmem, _, hmin⟩ :=
        selectMin_spec m (a :: rest) a (hkq a (List.mem_cons_self _ _)) hkq
      have hu : u ∈ a :: rest := by
        rcases hmem with h | h
        · rw [h]; exact List.mem_cons_self _ _
        · exact h
      have huqb : u ∈ qb := hinv.qsub u hu
      obtain ⟨lu, hlu⟩ := Option.isSome_iff_exists.mp (hinv.keys u huqb)
      have hadj : mapAdj m u = lu.returnEdges := by simp [mapAdj, hlu, LinkedVertices.returnEdges]
      obtain ⟨m1, hr, hrel, hkeep⟩ := relaxEdges_spec u label lu.returnEdges m (hinv.keys u huqb)
        (by intro e he; rw [← hadj] at he; exact hinv.keys e (hinv.adj u e he).2)
        (hinv.rng u huqb).1
        (by intro e he; rw [← hadj] at he; exact (hinv.rng e (hinv.adj u e he).2).2)
      rw [← hadj] at hrel hkeep
      have hsg := relaxEdges_sameGraph u label _ m m1 hr
      have hstep := loopInv_step hinv hu hmin hsg hrel hkeep
      have hlen2 := length_listRemove_lt (a :: rest) u hu
      by_cases hus : u = stop
      · refine ⟨m1, listRemove (a :: rest) u, stop, ?_, hstep, ?_, ?_⟩
        · rw [whileLoop_cons]
          simp only [hs, hlu, hr, if_pos hus]
          have : listRemove [] u = [] := rfl
          rw [this, whileLoop_nil, hus]
        · intro _
          refine ⟨rfl, ?_⟩
          intro h
          exact ((mem_listRemove _ _ _).mp h).2 hus.symm
        · intro h
          exact absurd (hus ▸ hu) h
      · obtain ⟨m2, qv, t1, h1, h2, h3, h4⟩ := ih m1 (listRemove (a :: rest) u) t hstep (by
          simp only [List.length_cons] at hlen hlen2 ⊢
          omega)
        refine ⟨m2, qv, t1, ?_, h2, ?_, ?_⟩
        · rw [whileLoop_cons]
          simp only [hs, hlu, hr, if_neg hus]
          exact h1
        · intro h
          exact h3 ((mem_listRemove _ _ _).mpr ⟨h, fun e => hus e.symm⟩)
        · intro h
          exact h4 (fun e => h ((mem_listRemove _ _ _).mp e).1)

/-- Under the invariant the walk along the previous nodes from `v` returns with fuel above
the distance of `v`: it pushes a list `p` that ends at a node `t` without previous node, has
one element per unit of distance between `t` and `v`, and steps along edges to labelled
nodes. -/
theorem reconstruct_spec {qb : List Int} {start : Int} {label : List String}
    {m : List (Int × LinkedVertices V)} {qv : List Int} (hinv : LoopInv qb start label m qv)
    (n : Nat) :
    ∀ (v : Int) (fuel : Nat) (path : List Int), v ∈ qb → mapDist m v ≤ n → n < fuel →
      ∃ p t, LinkedListOfVertices.reconstruct m fuel v path = some (p ++ path) ∧
        (p ++ [v]).head? = some t ∧ mapPrev m t = INT_MIN ∧
        (p.length : Int) = mapDist m v - mapDist m t ∧
        List.Chain' (fun a b => b ∈ mapAdj m a ∧ mapHasLabel m b label = true) (p ++ [v]) ∧
        ∀ x ∈ p, x ∈ qb ∧ mapDist m x < mapDist m v := by
  induction n with
  | zero =>
    intro v fuel path hv hd hf
    obtain ⟨k, rfl⟩ : ∃ k, fuel = k + 1 := ⟨fuel - 1, by omega⟩
    obtain ⟨lv, hlv⟩ := Option.isSome_iff_exists.mp (hinv.keys v hv)
    have hp : mapPrev m v = lv.head.previous := by simp [mapPrev, hlv]
    by_cases hprev : lv.head.previous = INT_MIN
    · refine ⟨[], v, ?_, rfl, by rw [hp]; exact hprev, by simp, by simp, by simp⟩
      simp [LinkedListOfVertices.reconstruct, hlv, LinkedVertices.getHead,
        NodeVertex.getPreviousNode, hprev]
    · exfalso
      obtain ⟨h1, _, _, _, h5⟩ := hinv.pred v hv (by rw [hp]; exact hprev)
      have := (hinv.rng _ h1).1
      omega
  | succ n ih =>
    intro v fuel path hv hd hf
    obtain ⟨k, rfl⟩ : ∃ k, fuel = k + 1 := ⟨fuel - 1, by omega⟩
    obtain ⟨lv, hlv⟩ := Option.isSome_iff_exists.mp (hinv.keys v hv)
    have hp : mapPrev m v = lv.head.previous := by simp [mapPrev, hlv]
    by_cases hprev : lv.head.previous = INT_MIN
    · refine ⟨[], v, ?_, rfl, by rw [hp]; exact hprev, by simp, by simp, by simp⟩
      simp [LinkedListOfVertices.reconstruct, hlv, LinkedVertices.getHead,
        NodeVertex.getPreviousNode, hprev]
    · obtain ⟨h1, _, h3, h4, h5⟩ := hinv.pred v hv (by rw [hp]; exact hprev)
      rw [hp] at h1 h3 h5
      obtain ⟨p, t, e1, e2, e3, e4, e5, e6⟩ :=
        ih lv.head.previous k (lv.head.previous :: path) h1 (by omega) (by omega)
      refine ⟨p ++ [lv.head.previous], t, ?_, ?_, e3, ?_, ?_, ?_⟩
      · simp [LinkedListOfVertices.reconstruct, hlv, LinkedVertices.getHead,
          NodeVertex.getPreviousNode, hprev, e1]
      · rw [List.head?_append_of_ne_nil _ (by simp)]
        exact e2
      · simp only [List.length_append, List.length_singleton, Nat.cast_add, Nat.cast_one]
        omega
      · rw [List.chain'_append]
        refine ⟨e5, List.chain'_singleton _, ?_⟩
        intro x hx y hy
        have hx1 : lv.head.previous = x := by simpa using hx
        have hy1 : v = y := by simpa using hy
        subst hx1; subst hy1
        exact ⟨h3, h4⟩
      · intro x hx
        rcases List.mem_append.mp hx with h | h
        · have := e6 x h
          exact ⟨this.1, by omega⟩
        · simp only [List.mem_singleton] at h
          subst h
          exact ⟨h1, by omega⟩

end SearchLoop

/-! ## The whole query -/

section Query

variable {V : Type}

theorem mem_listSort (l : List Int) (x : Int) : x ∈ listSort l ↔ x ∈ l :=
  (List.perm_insertionSort _ l).mem_iff

theorem mem_listUnique : ∀ (l : List Int) (x : Int), x ∈ listUnique l ↔ x ∈ l
  | [], x => by simp [listUnique]
  | [a], x => by simp [listUnique]
  | a :: b :: rest, x => by
    have ih := mem_listUnique (b :: rest) x
    by_cases h : a = b
    · simp only [listUnique, h, if_true, ih]
      simp
    · simp only [listUnique, h, if_false, List.mem_cons] at ih ⊢
      rw [ih]

theorem mem_pool_dedup (l : List Int) (x : Int) : x ∈ listUnique (listSort l) ↔ x ∈ l := by
  rw [mem_listUnique, mem_listSort]

theorem int_max_pos : (0 : Int) < INT_MAX := by unfold INT_MAX; omega

/-- The state at the first test of `while (!q.empty())` satisfies the invariant. -/
theorem loopInv_init (s : LinkedListOfVertices V) (start : Int) (label : List String)
    (hwf : WellFormed s) (hstart : start ∈ s.qBackUp) :
    ∃ m0, LinkedListOfVertices.resetLoop s.vertexList (listUnique (listSort s.qBackUp)) = some m0 ∧
      LoopInv (listUnique (listSort s.qBackUp)) start label
        (mapModifyHead m0 start (fun n => n.setVertexDistance 0))
        (listUnique (listSort s.qBackUp)) := by
  have hkeys : ∀ k ∈ listUnique (listSort s.qBackUp), (mapFind s.vertexList k).isSome = true :=
    fun k hk => hwf.keys k ((mem_pool_dedup _ _).mp hk)
  obtain ⟨m0, h0, hreset, _⟩ := resetLoop_spec _ s.vertexList hkeys
  have hsg0 := resetLoop_sameGraph _ _ _ h0
  have hsg1 := sameGraph_setStart m0 start
  have hsg := hsg0.trans hsg1
  have hsin : start ∈ listUnique (listSort s.qBackUp) := (mem_pool_dedup _ _).mpr hstart
  have hs0 : (mapFind m0 start).isSome = true := by
    rw [hsg0.isSome]; exact hkeys start hsin
  have hd : ∀ k ∈ listUnique (listSort s.qBackUp), k ≠ start →
      mapDist (mapModifyHead m0 start (fun n => n.setVertexDistance 0)) k = INT_MAX := by
    intro k hk hne
    rw [mapDist_congr (mapFind_setStart_ne m0 start k hne)]
    exact (hreset k hk).1
  have hp : ∀ k ∈ listUnique (listSort s.qBackUp),
      mapPrev (mapModifyHead m0 start (fun n => n.setVertexDistance 0)) k = INT_MIN := by
    intro k hk
    rw [mapPrev_setStart]
    exact (hreset k hk).2
  have hds := mapDist_setStart m0 start hs0
  have hmax := int_max_pos
  refine ⟨m0, h0, ?_⟩
  constructor
  · intro k hk
    rw [hsg.isSome]; exact hkeys k hk
  · intro a b hab
    rw [hsg.mapAdj] at hab
    have := hwf.adj a b hab
    exact ⟨(mem_pool_dedup _ _).mpr this.1, (mem_pool_dedup _ _).mpr this.2⟩
  · intro k hk; exact hk
  · exact hsin
  · exact ⟨hds, hp start hsin⟩
  · intro k hk
    by_cases hks : k = start
    · rw [hks, hds]; omega
    · rw [hd k hk hks]; omega
  · intro x hx hxq
    exact absurd hx hxq
  · intro v hv hpv
    exact absurd (hp v hv) hpv
  · intro x hx hxq
    exact absurd hx hxq
  · intro v hv hprem
    have hvs : v = start := by
      by_contra hne
      rcases hprem with h | h
      · rw [hd v hv hne] at h; omega
      · exact h (hp v hv)
    rw [hvs, hds]; omega
  · intro _ v hv _ hne
    exact hd v hv hne
  · intro _ x hx hxq
    exact absurd hx hxq

theorem reconstruct_no_previous (m : List (Int × LinkedVertices V)) (k : Nat) (v : Int)
    (path : List Int) (h : (mapFind m v).isSome = true) (hp : mapPrev m v = INT_MIN) :
    LinkedListOfVertices.reconstruct m (k + 1) v path = some path := by
  obtain ⟨lv, hlv⟩ := Option.isSome_iff_exists.mp h
  have : lv.head.previous = INT_MIN := by simpa [mapPrev, hlv] using hp
  simp [LinkedListOfVertices.reconstruct, hlv, LinkedVertices.getHead,
    NodeVertex.getPreviousNode, this]

/-- A query between two keys of the edge-key list of a well-formed store returns. It
returns whether the reconstructed list `p` is non-empty; the invariant of the selection loop
holds in the final map for the keys `qv` left when `stop` was selected; `p` starts at a node
`t` without previous node and leads to `stop`. -/
theorem findShortestPath_spec (s : LinkedListOfVertices V) (start stop : Int)
    (label : List String) (hwf : WellFormed s) (hstart : start ∈ s.qBackUp)
    (hstop : stop ∈ s.qBackUp) :
    ∃ m2 qv p t,
      s.findShortestPath start stop label =
        some (decide (p.length > 0),
          { s with vertexList := m2, q := [], qBackUp := listUnique (listSort s.qBackUp),
                   path := p }) ∧
      SameGraph s.vertexList m2 ∧
      LoopInv (listUnique (listSort s.qBackUp)) start label m2 qv ∧ stop ∉ qv ∧
      (p ++ [stop]).head? = some t ∧ mapPrev m2 t = INT_MIN ∧
      (p.length : Int) = mapDist m2 stop - mapDist m2 t ∧
      List.Chain' (fun a b => b ∈ mapAdj m2 a ∧ mapHasLabel m2 b label = true) (p ++ [stop]) ∧
      ∀ x ∈ p, x ∈ listUnique (listSort s.qBackUp) ∧ mapDist m2 x < mapDist m2 stop := by
  obtain ⟨m0, h0, hinit⟩ := loopInv_init s start label hwf hstart
  have hstopIn : stop ∈ listUnique (listSort s.qBackUp) := (mem_pool_dedup _ _).mpr hstop
  obtain ⟨m2, qv, t1, hw, hinv, ht, _⟩ :=
    whileLoop_spec _ start stop label (listUnique (listSort s.qBackUp)).length _ _ 0 hinit
      (le_refl _)
  obtain ⟨ht1, hqv⟩ := ht hstopIn
  subst ht1
  have hsg : SameGraph s.vertexList m2 :=
    ((resetLoop_sameGraph _ _ _ h0).trans (sameGraph_setStart m0 start)).trans
      (whileLoop_sameGraph _ _ _ _ _ _ _ _ _ hw).1
  obtain ⟨ls, hls⟩ := Option.isSome_iff_exists.mp (hwf.keys start hstart)
  obtain ⟨lt, hlt⟩ := Option.isSome_iff_exists.mp (hwf.keys t1 hstop)
  have hrec : ∃ p t,
      LinkedListOfVertices.reconstruct m2 ((listUnique (listSort s.qBackUp)).length + 1) t1 [] =
        some p ∧
      (p ++ [t1]).head? = some t ∧ mapPrev m2 t = INT_MIN ∧
      (p.length : Int) = mapDist m2 t1 - mapDist m2 t ∧
      List.Chain' (fun a b => b ∈ mapAdj m2 a ∧ mapHasLabel m2 b label = true) (p ++ [t1]) ∧
      ∀ x ∈ p, x ∈ listUnique (listSort s.qBackUp) ∧ mapDist m2 x < mapDist m2 t1 := by
    by_cases hprev : mapPrev m2 t1 = INT_MIN
    · exact ⟨[], t1, reconstruct_no_previous m2 _ t1 [] (hinv.keys t1 hstopIn) hprev, rfl, hprev,
        by simp, by simp, by simp⟩
    · have hc := hinv.count t1 hstopIn (Or.inr hprev)
      have h0 := (hinv.rng t1 hstopIn).1
      obtain ⟨p, t, e1, e2⟩ := reconstruct_spec hinv (mapDist m2 t1).toNat t1
        ((listUnique (listSort s.qBackUp)).length + 1) [] hstopIn (by omega) (by omega)
      exact ⟨p, t, by simpa using e1, e2⟩
  obtain ⟨p, t, e1, e2⟩ := hrec
  refine ⟨m2, qv, p, t, ?_, hsg, hinv, hqv, e2⟩
  simp only [LinkedListOfVertices.findShortestPath, hls, hlt, h0, hw, e1]

end Query

/-! ## The invariant of the store -/

section StoreInvariant

variable {V : Type}

theorem isSome_mapFind_mapModify (m : List (Int × LinkedVertices V)) (key k : Int)
    (f : LinkedVertices V → LinkedVertices V) :
    (mapFind (mapModify m key f) k).isSome = (mapFind m k).isSome := by
  rw [mapFind_mapModify]; cases mapFind m k <;> rfl

theorem mapAdj_mapModify_of_nodes (m : List (Int × LinkedVertices V)) (key a : Int)
    (f : LinkedVertices V → LinkedVertices V) (hf : ∀ lv, (f lv).nodes = lv.nodes) :
    mapAdj (mapModify m key f) a = mapAdj m a := by
  unfold mapAdj
  rw [mapFind_mapModify]
  cases mapFind m a with
  | none => rfl
  | some lv => by_cases h : a = key <;> simp [h, hf]

theorem nodes_foldl_addLabel (label : List String) :
    ∀ lv : LinkedVertices V, (label.foldl LinkedVertices.addLabel lv).nodes = lv.nodes := by
  induction label with
  | nil => intro lv; rfl
  | cons l rest ih => intro lv; rw [List.foldl_cons, ih]; rfl

theorem nodes_removeLabelLoop (label : List String) :
    ∀ (lv : LinkedVertices V) (b : Bool),
      (LinkedListOfVertices.removeLabelLoop lv b label).2.nodes = lv.nodes := by
  induction label with
  | nil => intro lv b; rfl
  | cons l rest ih =>
    intro lv b
    simp only [LinkedListOfVertices.removeLabelLoop]
    rw [ih]
    unfold LinkedVertices.removeLabel
    simp only
    split_ifs <;> rfl

theorem wellFormed_new : WellFormed (LinkedListOfVertices.new : LinkedListOfVertices V) :=
  ⟨by simp [LinkedListOfVertices.new], by simp [LinkedListOfVertices.new, mapAdj, mapFind]⟩

theorem wellFormed_insertNodeVertexAsHead (s : LinkedListOfVertices V) (key : Int) (info : V)
    (h : WellFormed s) : WellFormed (s.insertNodeVertexAsHead key info).2 := by
  unfold LinkedListOfVertices.insertNodeVertexAsHead
    LinkedListOfVertices.keyFoundInVertexListAsHead
  cases hk : mapFind s.vertexList key with
  | some lv => simpa using h
  | none =>
    simp only [Option.isSome_none, Bool.false_eq_true, if_false]
    constructor
    · intro k hkq
      have h1 := h.keys k hkq
      have hne : k ≠ key := by
        intro e; rw [e, hk] at h1; simp at h1
      simp only [mapFind_mapInsert_ne _ _ _ _ hne]
      exact h1
    · intro a b hab
      by_cases ha : a = key
      · subst ha
        simp [mapAdj, mapFind_mapInsert_self _ _ _ hk, LinkedVertices.new] at hab
      · simp only [mapAdj, mapFind_mapInsert_ne _ _ _ _ ha] at hab
        exact h.adj a b hab

theorem wellFormed_addEdgeToHeadNodeVertex (s : LinkedListOfVertices V) (start stop : Int)
    (h : WellFormed s) : WellFormed (s.addEdgeToHeadNodeVertex start stop).2 := by
  unfold LinkedListOfVertices.addEdgeToHeadNodeVertex
  cases h1 : mapFind s.vertexList start with
  | none => simpa using h
  | some ls =>
    cases h2 : mapFind s.vertexList stop with
    | none => simpa using h
    | some lt =>
      simp only
      constructor
      · intro k hk
        simp only [isSome_mapFind_mapModify]
        simp only [List.mem_append, List.mem_cons, List.mem_singleton, List.not_mem_nil,
          or_false] at hk
        rcases hk with hk | hk | hk
        · exact h.keys k hk
        · rw [hk, h1]; rfl
        · rw [hk, h2]; rfl
      · intro a b hab
        simp only [List.mem_append, List.mem_cons, List.mem_singleton, List.not_mem_nil,
          or_false]
        by_cases ha : a = start
        · subst ha
          have : mapAdj (mapModify s.vertexList a (fun lv => lv.insertNodeVertex stop)) a =
              ls.nodes ++ [stop] := by
            simp [mapAdj, mapFind_mapModify_self, h1, LinkedVertices.insertNodeVertex]
          rw [this] at hab
          rcases List.mem_append.mp hab with hb | hb
          · have := h.adj a b (by simpa [mapAdj, h1] using hb)
            exact ⟨Or.inl this.1, Or.inl this.2⟩
          · simp only [List.mem_singleton] at hb
            exact ⟨Or.inr (Or.inl rfl), Or.inr (Or.inr hb)⟩
        · have : mapAdj (mapModify s.vertexList start (fun lv => lv.insertNodeVertex stop)) a =
              mapAdj s.vertexList a := by
            simp [mapAdj, mapFind_mapModify_ne _ _ _ _ ha]
          rw [this] at hab
          have := h.adj a b hab
          exact ⟨Or.inl this.1, Or.inl this.2⟩

theorem wellFormed_addLabelToVertex (s : LinkedListOfVertices V) (key : Int)
    (label : List String) (h : WellFormed s) : WellFormed (s.addLabelToVertex key label).2 := by
  unfold LinkedListOfVertices.addLabelToVertex
  cases h1 : mapFind s.vertexList key with
  | none => simpa using h
  | some lv =>
    simp only
    constructor
    · intro k hk
      simp only [isSome_mapFind_mapModify]
      exact h.keys k hk
    · intro a b hab
      rw [mapAdj_mapModify_of_nodes _ _ _ _ (nodes_foldl_addLabel label)] at hab
      exact h.adj a b hab

theorem wellFormed_removeLabelFromVertex (s : LinkedListOfVertices V) (key : Int)
    (label : List String) (h : WellFormed s) :
    WellFormed (s.removeLabelFromVertex key label).2 := by
  unfold LinkedListOfVertices.removeLabelFromVertex
  cases h1 : mapFind s.vertexList key with
  | none => simpa using h
  | some lv =>
    simp only
    constructor
    · intro k hk
      simp only [isSome_mapFind_mapModify]
      exact h.keys k hk
    · intro a b hab
      rw [mapAdj_mapModify_of_nodes _ _ _ _ (fun lv => nodes_removeLabelLoop label lv true)] at hab
      exact h.adj a b hab

/-- Whenever a query returns, the graph is the same and the edge-key list holds the same
keys. -/
theorem findShortestPath_frame (s s1 : LinkedListOfVertices V) (start stop : Int)
    (label : List String) (r : Bool) (h : s.findShortestPath start stop label = some (r, s1)) :
    SameGraph s.vertexList s1.vertexList ∧ (∀ k, k ∈ s1.qBackUp ↔ k ∈ s.qBackUp) ∧
      s1.enableOutputPrint = s.enableOutputPrint := by
  unfold LinkedListOfVertices.findShortestPath at h
  cases h1 : mapFind s.vertexList start with
  | none =>
    simp only [h1, Option.some.injEq, Prod.mk.injEq] at h
    rw [← h.2]
    exact ⟨SameGraph.refl _, fun _ => Iff.rfl, rfl⟩
  | some ls =>
    cases h2 : mapFind s.vertexList stop with
    | none =>
      simp only [h1, h2, Option.some.injEq, Prod.mk.injEq] at h
      rw [← h.2]
      exact ⟨SameGraph.refl _, fun _ => Iff.rfl, rfl⟩
    | some lt =>
      simp only [h1, h2] at h
      cases h3 : LinkedListOfVertices.resetLoop s.vertexList (listUnique (listSort s.qBackUp)) with
      | none => simp [h3] at h
      | some m0 =>
        simp only [h3] at h
        cases h4 : LinkedListOfVertices.whileLoop stop label
            (listUnique (listSort s.qBackUp)).length
            (mapModifyHead m0 start (fun n => n.setVertexDistance 0))
            (listUnique (listSort s.qBackUp)) 0 with
        | none => simp [h4] at h
        | some res =>
          obtain ⟨m2, q2, t2⟩ := res
          simp only [h4] at h
          cases h5 : LinkedListOfVertices.reconstruct m2
              ((listUnique (listSort s.qBackUp)).length + 1) t2 [] with
          | none => simp [h5] at h
          | some path =>
            simp only [h5, Option.some.injEq, Prod.mk.injEq] at h
            rw [← h.2]
            refine ⟨?_, fun k => mem_pool_dedup _ k, rfl⟩
            exact ((resetLoop_sameGraph _ _ _ h3).trans (sameGraph_setStart m0 start)).trans
              (whileLoop_sameGraph _ _ _ _ _ _ _ _ _ h4).1

theorem wellFormed_findShortestPath (s s1 : LinkedListOfVertices V) (start stop : Int)
    (label : List String) (r : Bool) (h : s.findShortestPath start stop label = some (r, s1))
    (hwf : WellFormed s) : WellFormed s1 := by
  obtain ⟨hsg, hq, _⟩ := findShortestPath_frame s s1 start stop label r h
  constructor
  · intro k hk
    rw [hsg.isSome]
    exact hwf.keys k ((hq k).mp hk)
  · intro a b hab
    rw [hsg.mapAdj] at hab
    have := hwf.adj a b hab
    exact ⟨(hq a).mpr this.1, (hq b).mpr this.2⟩

/-- Every store built by the public operations is well formed. -/
theorem reachable_wellFormed {g : GraphStoreLinked V} (h : GraphStoreLinked.Reachable g) :
    WellFormed g.linkedListOfVertices := by
  induction h with
  | new => exact wellFormed_new
  | addVertex g key info _ ih => exact wellFormed_insertNodeVertexAsHead _ key info ih
  | createEdge g start stop _ ih => exact wellFormed_addEdgeToHeadNodeVertex _ start stop ih
  | addLabel g key label _ ih => exact wellFormed_addLabelToVertex _ key label ih
  | removeLabel g key label _ ih => exact wellFormed_removeLabelFromVertex _ key label ih
  | shortestPath g start stop label r g1 _ hq ih =>
    unfold GraphStoreLinked.shortestPath at hq
    cases hf : g.linkedListOfVertices.findShortestPath start stop label with
    | none => simp [hf] at hq
    | some res =>
      obtain ⟨r1, s1⟩ := res
      simp only [hf, Option.map_some', Option.some.injEq, Prod.mk.injEq] at hq
      rw [← hq.2]
      exact wellFormed_findShortestPath _ s1 start stop label r1 hf ih
  | getVertexInfo g key _ ih => exact ih
  | disableOutputPrint g _ ih => exact ⟨ih.keys, ih.adj⟩

theorem mapFind_some_mem (m : List (Int × LinkedVertices V)) (k : Int) (lv : LinkedVertices V)
    (h : mapFind m k = some lv) : (k, lv) ∈ m := by
  induction m with
  | nil => simp [mapFind] at h
  | cons p rest ih =>
    obtain ⟨k0, lv0⟩ := p
    by_cases h0 : k0 = k
    · simp only [mapFind, h0, if_true, Option.some.injEq] at h
      rw [h0, h]; exact List.mem_cons_self _ _
    · simp only [mapFind, h0, if_false] at h
      exact List.mem_cons_of_mem _ (ih h)

end StoreInvariant

/-! ## Walks and the final state of a query -/

section Walks

variable {V : Type}

/-- In the final state the distance of `stop` is at most the number of edges of any walk
that leads to `stop` from a node whose distance is known to be small. -/
theorem walk_lower_bound {qb : List Int} {start stop : Int} {label : List String}
    {m : List (Int × LinkedVertices V)} {qv : List Int} (hinv : LoopInv qb start label m qv)
    (hstop : stop ∈ qb) (hqv : stop ∉ qv) (l : List Int) :
    ∀ (a : Int) (i : Int),
      List.Chain (fun a b => b ∈ mapAdj m a ∧ mapHasLabel m b label = true) a l →
      (a :: l).getLast? = some stop → (mapDist m a ≤ i ∨ mapDist m stop ≤ i) →
      mapDist m stop ≤ i + l.length := by
  induction l with
  | nil =>
    intro a i _ hlast hd
    have : a = stop := by simpa using hlast
    subst this
    simp only [List.length_nil, Nat.cast_zero, add_zero]
    rcases hd with h | h <;> exact h
  | cons b rest ih =>
    intro a i hch hlast hd
    rw [List.chain_cons] at hch
    rw [List.getLast?_cons_cons] at hlast
    have hnext : mapDist m b ≤ i + 1 ∨ mapDist m stop ≤ i + 1 := by
      by_cases hs : mapDist m stop ≤ i
      · right; omega
      · left
        have hda : mapDist m a ≤ i := by
          rcases hd with h | h
          · exact h
          · exact absurd h hs
        have haqb : a ∈ qb := (hinv.adj a b hch.1.1).1
        have haq : a ∉ qv := by
          intro h
          have := hinv.settled stop hstop hqv a h
          omega
        have hmax := (hinv.rng stop hstop).2
        have := hinv.relaxed a haqb haq (by omega) b hch.1.1 hch.1.2
        omega
    have := ih b (i + 1) hch.2 hlast hnext
    simp only [List.length_cons, Nat.cast_add, Nat.cast_one]
    omega

/-- In the final state, when no key with an outgoing edge is the sentinel, a walk of at most
`INT_MAX` edges from a reached node leaves `stop` reached. -/
theorem walk_reaches {qb : List Int} {start stop : Int} {label : List String}
    {m : List (Int × LinkedVertices V)} {qv : List Int} (hinv : LoopInv qb start label m qv)
    (hns : ∀ k ∈ qb, mapAdj m k ≠ [] → k ≠ INT_MIN) (hstop : stop ∈ qb) (hqv : stop ∉ qv)
    (l : List Int) :
    ∀ (a : Int) (i : Int),
      List.Chain (fun a b => b ∈ mapAdj m a ∧ mapHasLabel m b label = true) a l →
      (a :: l).getLast? = some stop → (a = start ∨ mapPrev m a ≠ INT_MIN) → mapDist m a ≤ i →
      i + l.length ≤ INT_MAX → (stop = start ∨ mapPrev m stop ≠ INT_MIN) := by
  induction l with
  | nil =>
    intro a i _ hlast hset _ _
    have : a = stop := by simpa using hlast
    subst this
    exact hset
  | cons b rest ih =>
    intro a i hch hlast hset hda hlen
    rw [List.chain_cons] at hch
    rw [List.getLast?_cons_cons] at hlast
    simp only [List.length_cons, Nat.cast_add, Nat.cast_one] at hlen
    have haqb : a ∈ qb := (hinv.adj a b hch.1.1).1
    have hbqb : b ∈ qb := (hinv.adj a b hch.1.1).2
    by_cases haq : a ∈ qv
    · have h1 := hinv.settled stop hstop hqv a haq
      by_cases hs : stop = start
      · exact Or.inl hs
      · right
        intro hp
        have := hinv.unreached hns stop hstop hp hs
        omega
    · have h1 := hinv.relaxed a haqb haq (by omega) b hch.1.1 hch.1.2
      have h2 := hinv.reached hns a haqb haq (by omega) b hch.1.1 hch.1.2
      exact ih b (i + 1) hch.2 hlast h2 (by omega) (by omega)

/-- The last vertex of a walk with at least one edge is in the edge-key list. -/
theorem chain_last_mem_pool (s : LinkedListOfVertices V) (label : List String)
    (hwf : WellFormed s) (l : List Int) :
    ∀ (a x : Int),
      List.Chain (fun a b => b ∈ mapAdj s.vertexList a ∧ mapHasLabel s.vertexList b label = true)
        a l →
      l ≠ [] → (a :: l).getLast? = some x → x ∈ s.qBackUp := by
  induction l with
  | nil => intro a x _ h; exact absurd rfl h
  | cons b rest ih =>
    intro a x hch _ hlast
    rw [List.chain_cons] at hch
    rw [List.getLast?_cons_cons] at hlast
    cases rest with
    | nil =>
      have : b = x := by simpa using hlast
      rw [← this]
      exact (hwf.adj a b hch.1.1).2
    | cons c rest2 => exact ih b x hch.2 (by simp) hlast

/-- The final state of a query between two keys of the edge-key list of a store built by
the public operations that has no sentinel key. -/
theorem query_core (g : GraphStoreLinked V) (start stop : Int) (label : List String)
    (hr : GraphStoreLinked.Reachable g) (hns : g.NoSentinelKey) (hstart : start ∈ g.pool)
    (hstop : stop ∈ g.pool) :
    ∃ m2 qv p g1,
      g.shortestPath start stop label = some (decide (p.length > 0), g1) ∧
      g1.recordedPath = p ∧
      SameGraph g.linkedListOfVertices.vertexList m2 ∧
      LoopInv (listUnique (listSort g.pool)) start label m2 qv ∧ stop ∉ qv ∧
      (∀ k ∈ listUnique (listSort g.pool), k ≠ INT_MIN) ∧
      (p = [] → stop = start ∨ mapPrev m2 stop = INT_MIN) ∧
      (p ≠ [] → p.head? = some start ∧ (p.length : Int) = mapDist m2 stop) ∧
      stop ∉ p ∧ List.Chain' (g.Hop label) (p ++ [stop]) := by
  have hwf := reachable_wellFormed hr
  obtain ⟨m2, qv, p, t, hq, hsg, hinv, hqv, e1, e2, e3, e4, e5⟩ :=
    findShortestPath_spec g.linkedListOfVertices start stop label hwf hstart hstop
  have hnsq : ∀ k ∈ listUnique (listSort g.pool), k ≠ INT_MIN := by
    intro k hk
    have hk1 := hwf.keys k ((mem_pool_dedup _ _).mp hk)
    obtain ⟨lv, hlv⟩ := Option.isSome_iff_exists.mp hk1
    exact hns (k, lv) (mapFind_some_mem _ _ _ hlv)
  have hstopIn : stop ∈ listUnique (listSort g.pool) := (mem_pool_dedup _ _).mpr hstop
  refine ⟨m2, qv, p,
    { linkedListOfVertices :=
        { g.linkedListOfVertices with
          vertexList := m2, q := [], qBackUp := listUnique (listSort g.linkedListOfVertices.qBackUp),
          path := p } },
    ?_, rfl, hsg, hinv, hqv, hnsq, ?_, ?_, ?_, ?_⟩
  · unfold GraphStoreLinked.shortestPath
    rw [hq]
    rfl
  · intro hp
    subst hp
    have : stop = t := by simpa using e1
    rw [← this] at e2
    exact Or.inr e2
  · intro hp
    obtain ⟨a, rest, rfl⟩ := List.exists_cons_of_ne_nil hp
    have hta : a = t := by simpa using e1
    subst hta
    have h1 := e5 a (List.mem_cons_self _ _)
    have hmax := (hinv.rng stop hstopIn).2
    have hts : a = start := by
      by_contra hne
      have := hinv.unreached (fun k hk _ => hnsq k hk) a h1.1 e2 hne
      omega
    subst hts
    refine ⟨rfl, ?_⟩
    rw [e3, hinv.dstart.1]
    omega
  · intro h
    have := (e5 stop h).2
    omega
  · refine List.Chain'.imp ?_ e4
    intro a b hab
    refine ⟨?_, ?_⟩
    · unfold GraphStoreLinked.Edge
      rw [← hsg.mapAdj]; exact hab.1
    · unfold GraphStoreLinked.passes
      rw [← hsg.mapHasLabel]; exact hab.2

end Walks

/-! ## Vertex insertion and edge creation -/

namespace GraphStoreLinked

variable {V : Type}

/-- C8: `addVertex(k, y)` on a key that is present returns false and leaves the whole store
unchanged; when the store comes from a first `addVertex(k, x)` on a fresh key, the payload
stored under `k` after the failed call is still `x`. -/
theorem addVertex_present (g : GraphStoreLinked V) (k : Int) (y : V)
    (h : (g.vertex k).isSome = true) :
    g.addVertex k y = (false, g) ∧
      ∀ (g0 : GraphStoreLinked V) (x : V), g0.vertex k = none → g = (g0.addVertex k x).2 →
        ((g.addVertex k y).2.vertex k).map (fun lv => lv.head.data) = some x := by
  have h1 : g.addVertex k y = (false, g) := by
    unfold vertex at h
    simp [addVertex, LinkedListOfVertices.insertNodeVertexAsHead,
      LinkedListOfVertices.keyFoundInVertexListAsHead, h]
  refine ⟨h1, ?_⟩
  intro g0 x h0 hg
  rw [h1]
  subst hg
  unfold vertex at h0 ⊢
  simp [addVertex, LinkedListOfVertices.insertNodeVertexAsHead,
    LinkedListOfVertices.keyFoundInVertexListAsHead, h0, mapFind_mapInsert_self,
    LinkedVertices.new, NodeVertex.new]

theorem addVertex_present_witness :
    (((GraphStoreLinked.new.addVertex 1 10).2 : GraphStoreLinked Nat).vertex 1).isSome = true ∧
      ((GraphStoreLinked.new.addVertex 1 10).2 : GraphStoreLinked Nat).addVertex 1 99 =
        (false, (GraphStoreLinked.new.addVertex 1 10).2) :=
  ⟨by decide, (addVertex_present _ 1 99 (by decide)).1⟩

/-- C9: `addVertex(k, x)` on a key that is not present returns true; afterwards `k` maps to
a record with id `k`, payload `x`, no label, no adjacency entry, distance `INT_MAX` and
previous `INT_MIN`; every other entry of the map and every other member of the store are
as before. -/
theorem addVertex_fresh (g : GraphStoreLinked V) (k : Int) (x : V) (h : g.vertex k = none) :
    (g.addVertex k x).1 = true ∧
      (g.addVertex k x).2.vertex k =
        some { head := { id := k, data := x, labelVec := [], distance := INT_MAX,
                         previous := INT_MIN },
               nodes := [] } ∧
      (∀ k1, k1 ≠ k → (g.addVertex k x).2.vertex k1 = g.vertex k1) ∧
      (g.addVertex k x).2.pool = g.pool ∧
      { (g.addVertex k x).2.linkedListOfVertices with
          vertexList := g.linkedListOfVertices.vertexList } = g.linkedListOfVertices := by
  unfold vertex at h
  have e : g.addVertex k x =
      (true, { linkedListOfVertices := { g.linkedListOfVertices with
        vertexList := mapInsert g.linkedListOfVertices.vertexList k (LinkedVertices.new k x) } }) := by
    simp [addVertex, LinkedListOfVertices.insertNodeVertexAsHead,
      LinkedListOfVertices.keyFoundInVertexListAsHead, h]
  rw [e]
  refine ⟨rfl, ?_, ?_, rfl, rfl⟩
  · simp [vertex, mapFind_mapInsert_self _ _ _ h, LinkedVertices.new, NodeVertex.new]
  · intro k1 hk
    simp [vertex, mapFind_mapInsert_ne _ _ _ _ hk]

theorem addVertex_fresh_witness :
    (GraphStoreLinked.new : GraphStoreLinked Nat).vertex 7 = none ∧
      ((GraphStoreLinked.new : GraphStoreLinked Nat).addVertex 7 70).1 = true :=
  ⟨by decide, (addVertex_fresh GraphStoreLinked.new 7 70 (by decide)).1⟩

/-- C10: `createEdge(start, stop)` returns true exactly when both keys are present, and a
call that returns false leaves the whole store unchanged. -/
theorem createEdge_true_iff (g : GraphStoreLinked V) (start stop : Int) :
    ((g.createEdge start stop).1 = true ↔
        (g.vertex start).isSome = true ∧ (g.vertex stop).isSome = true) ∧
      ((g.createEdge start stop).1 = false → (g.createEdge start stop).2 = g) := by
  unfold vertex createEdge LinkedListOfVertices.addEdgeToHeadNodeVertex
  cases h1 : mapFind g.linkedListOfVertices.vertexList start <;>
    cases h2 : mapFind g.linkedListOfVertices.vertexList stop <;> simp

/-! ## Queries that do not run the search -/

/-- C5, amended: a query with an unknown start or stop returns false and leaves the whole
store as it was, search fields, adjacency, edge-key list and recorded path included. -/
theorem shortestPath_unknown_endpoint (g : GraphStoreLinked V) (start stop : Int)
    (label : List String) (h : g.vertex start = none ∨ g.vertex stop = none) :
    g.shortestPath start stop label = some (false, g) := by
  unfold vertex at h
  unfold shortestPath LinkedListOfVertices.findShortestPath
  rcases h with h | h
  · simp [h]
  · cases h1 : mapFind g.linkedListOfVertices.vertexList start <;> simp [h]

theorem shortestPath_unknown_endpoint_witness :
    (storeOneEdge.vertex 1 = none ∨ storeOneEdge.vertex 25 = none) ∧
      storeOneEdge.shortestPath 1 25 ["a"] = some (false, storeOneEdge) :=
  ⟨Or.inr (by decide), shortestPath_unknown_endpoint storeOneEdge 1 25 ["a"] (Or.inr (by decide))⟩

/-- C5 as stated fails: after a successful query the recorded path is `[1]`, and a query
with the unknown stop 25 returns false while the recorded path stays `[1]`. -/
theorem shortestPath_unknown_endpoint_path_kept :
    ∃ g1 g2 : GraphStoreLinked Nat,
      storeOneEdge.shortestPath 1 2 [] = some (true, g1) ∧ g1.vertex 25 = none ∧
        g1.shortestPath 1 25 [] = some (false, g2) ∧ g2.recordedPath = [1] := by
  refine ⟨_, _, rfl, ?_, rfl, ?_⟩ <;> decide

/-- C4 fails on the code: in the store with vertices 0, 1, 15 and the single edge 1 -> 0,
vertex 15 is known and on no edge, and the query from 1 to 15 returns true. -/
theorem shortestPath_unconnected_stop_true :
    Reachable storeZeroKey ∧ (storeZeroKey.vertex 1).isSome = true ∧
      (storeZeroKey.vertex 15).isSome = true ∧ 15 ∉ storeZeroKey.pool ∧
      (∀ a, ¬ storeZeroKey.Edge a 15) ∧
      (storeZeroKey.shortestPath 1 15 []).map (fun r => (r.1, r.2.recordedPath)) =
        some (true, [1]) := by
  refine ⟨?_, by decide, by decide, by decide, ?_, by decide⟩
  · exact Reachable.createEdge _ 1 0 (Reachable.addVertex _ 15 150
      (Reachable.addVertex _ 1 10 (Reachable.addVertex _ 0 0 Reachable.new)))
  · intro a
    unfold Edge mapAdj
    by_cases h0 : (0 : Int) = a
    · subst h0; decide
    · by_cases h1 : (1 : Int) = a
      · subst h1; decide
      · by_cases h2 : (15 : Int) = a
        · subst h2; decide
        · simp [storeZeroKey, GraphStoreLinked.new, LinkedListOfVertices.new, addVertex,
            createEdge, LinkedListOfVertices.insertNodeVertexAsHead,
            LinkedListOfVertices.keyFoundInVertexListAsHead,
            LinkedListOfVertices.addEdgeToHeadNodeVertex, mapFind, mapInsert, mapModify, h0, h1, h2]

/-! ## The label check -/

/-- C7 fails on the code: the vertex labelled by `addLabel(1, "a", "b")` holds both labels,
yet `hasLabel` is false for the filter `["b", "a"]` and for the filter `["a", "a"]`. -/
theorem hasLabel_not_subset_check :
    ∃ lv : LinkedVertices Nat, storeLabelled.vertex 1 = some lv ∧
      lv.head.labelVec = ["a", "b"] ∧ (∀ x ∈ ["b", "a"], x ∈ lv.head.labelVec) ∧
      lv.head.hasLabel ["b", "a"] = false ∧ lv.head.hasLabel ["a", "a"] = false ∧
      lv.head.hasLabel ["a", "b"] = true := by
  refine ⟨_, rfl, ?_, ?_, ?_, ?_, ?_⟩ <;> decide

end GraphStoreLinked

/-! ## Soundness, minimality and completeness of the query -/

namespace GraphStoreLinked

variable {V : Type}

theorem reachable_storeTest : Reachable storeTest :=
  Reachable.addLabel _ 5 ["a"] (Reachable.addLabel _ 4 ["a"] (Reachable.addLabel _ 3 ["a"]
    (Reachable.addLabel _ 2 ["a"] (Reachable.addLabel _ 1 ["a"] (Reachable.createEdge _ 2 5
      (Reachable.createEdge _ 3 5 (Reachable.createEdge _ 2 3 (Reachable.createEdge _ 1 2
        (Reachable.addVertex _ 5 50 (Reachable.addVertex _ 4 40 (Reachable.addVertex _ 3 30
          (Reachable.addVertex _ 2 20 (Reachable.addVertex _ 1 10 Reachable.new)))))))))))))

theorem noSentinelKey_storeTest : storeTest.NoSentinelKey := by decide

theorem reachable_storeCycle : Reachable storeCycle :=
  Reachable.createEdge _ 2 1 (Reachable.createEdge _ 1 2 (Reachable.createEdge _ 1 1
    (Reachable.addVertex _ 2 20 (Reachable.addVertex _ 1 10 Reachable.new))))

theorem walk_storeTest : storeTest.Walk ["a"] 1 5 [1, 2, 5] := by
  refine ⟨rfl, rfl, by decide, ?_⟩
  simp only [List.chain'_cons, List.chain'_singleton, and_true]
  decide

/-- C1: in a store built by the public operations without sentinel key, a query between two
keys that have been endpoints of edges returns, and when it returns true the recorded path
is non-empty, starts with `start`, does not contain `stop`, and together with `stop` steps
along created edges to vertices that pass the label check. -/
theorem shortestPath_sound (g : GraphStoreLinked V) (start stop : Int) (label : List String)
    (hr : Reachable g) (hns : g.NoSentinelKey) (hstart : start ∈ g.pool)
    (hstop : stop ∈ g.pool) :
    ∃ r g1, g.shortestPath start stop label = some (r, g1) ∧
      (r = true →
        g1.recordedPath ≠ [] ∧ g1.recordedPath.head? = some start ∧ stop ∉ g1.recordedPath ∧
          List.Chain' (fun a b => g.Edge a b ∧ g.passes label b) (g1.recordedPath ++ [stop])) := by
  obtain ⟨m2, qv, p, g1, hq, hp, _, _, _, _, _, h2, h3, h4⟩ :=
    query_core g start stop label hr hns hstart hstop
  refine ⟨_, g1, hq, ?_⟩
  intro hr1
  have hpne : p ≠ [] := by
    intro h
    rw [h] at hr1
    simp at hr1
  rw [hp]
  exact ⟨hpne, (h2 hpne).1, h3, h4⟩

theorem shortestPath_sound_witness :
    Reachable storeTest ∧ storeTest.NoSentinelKey ∧ (1 : Int) ∈ storeTest.pool ∧
      (5 : Int) ∈ storeTest.pool ∧
      ∃ r g1, storeTest.shortestPath 1 5 ["a"] = some (r, g1) ∧
        (r = true →
          g1.recordedPath ≠ [] ∧ g1.recordedPath.head? = some 1 ∧ (5 : Int) ∉ g1.recordedPath ∧
            List.Chain' (fun a b => storeTest.Edge a b ∧ storeTest.passes ["a"] b)
              (g1.recordedPath ++ [5])) :=
  ⟨reachable_storeTest, noSentinelKey_storeTest, by decide, by decide,
    shortestPath_sound storeTest 1 5 ["a"] reachable_storeTest noSentinelKey_storeTest
      (by decide) (by decide)⟩

/-- C2: under the same conditions, when the query returns true the recorded path followed by
`stop` is a walk from `start` to `stop` under the filter, and every such walk has at least
as many edges as the recorded path has elements. -/
theorem shortestPath_minimal (g : GraphStoreLinked V) (start stop : Int) (label : List String)
    (hr : Reachable g) (hns : g.NoSentinelKey) (hstart : start ∈ g.pool)
    (hstop : stop ∈ g.pool) :
    ∃ r g1, g.shortestPath start stop label = some (r, g1) ∧
      (r = true →
        g.Walk label start stop (g1.recordedPath ++ [stop]) ∧
          ∀ w, g.Walk label start stop w → g1.recordedPath.length ≤ w.length - 1) := by
  obtain ⟨m2, qv, p, g1, hq, hp, hsg, hinv, hqv, _, _, h2, _, h4⟩ :=
    query_core g start stop label hr hns hstart hstop
  refine ⟨_, g1, hq, ?_⟩
  intro hr1
  have hpne : p ≠ [] := by
    intro h
    rw [h] at hr1
    simp at hr1
  rw [hp]
  obtain ⟨hhead, hlen⟩ := h2 hpne
  have hl1 : 1 ≤ p.length := by
    cases p with
    | nil => exact absurd rfl hpne
    | cons a rest => simp
  refine ⟨⟨?_, ?_, ?_, h4⟩, ?_⟩
  · rw [List.head?_append_of_ne_nil _ hpne]; exact hhead
  · simp
  · simp only [List.length_append, List.length_singleton]; omega
  · intro w hw
    obtain ⟨w1, w2, w3, w4⟩ := hw
    cases w with
    | nil => simp at w3
    | cons a l =>
      have ha : a = start := by simpa using w1
      subst ha
      have hch : List.Chain (fun a b => b ∈ mapAdj m2 a ∧ mapHasLabel m2 b label = true) a l := by
        have : List.Chain (g.Hop label) a l := w4
        refine List.Chain.imp ?_ this
        intro x y hxy
        refine ⟨?_, ?_⟩
        · rw [hsg.mapAdj]; exact hxy.1
        · rw [hsg.mapHasLabel]; exact hxy.2
      have hstopIn : stop ∈ listUnique (listSort g.pool) := (mem_pool_dedup _ _).mpr hstop
      have := walk_lower_bound hinv hstopIn hqv l a 0 hch w2 (Or.inl (le_of_eq hinv.dstart.1))
      simp only [List.length_cons, Nat.add_sub_cancel]
      omega

theorem shortestPath_minimal_witness :
    Reachable storeTest ∧ storeTest.NoSentinelKey ∧ (1 : Int) ∈ storeTest.pool ∧
      (5 : Int) ∈ storeTest.pool ∧
      ∃ r g1, storeTest.shortestPath 1 5 ["a"] = some (r, g1) ∧
        (r = true →
          storeTest.Walk ["a"] 1 5 (g1.recordedPath ++ [5]) ∧
            ∀ w, storeTest.Walk ["a"] 1 5 w → g1.recordedPath.length ≤ w.length - 1) :=
  ⟨reachable_storeTest, noSentinelKey_storeTest, by decide, by decide,
    shortestPath_minimal storeTest 1 5 ["a"] reachable_storeTest noSentinelKey_storeTest
      (by decide) (by decide)⟩

/-- C3, amended: in a store built by the public operations without sentinel key, for
distinct `start` and `stop`, if there is a walk from `start` to `stop` under the filter with
at most `INT_MAX` edges, the query returns true. -/
theorem shortestPath_complete (g : GraphStoreLinked V) (start stop : Int) (label : List String)
    (w : List Int) (hr : Reachable g) (hns : g.NoSentinelKey) (hne : start ≠ stop)
    (hw : g.Walk label start stop w) (hlen : w.length - 1 ≤ 2147483647) :
    ∃ g1, g.shortestPath start stop label = some (true, g1) := by
  have hwf := reachable_wellFormed hr
  obtain ⟨w1, w2, w3, w4⟩ := hw
  cases w with
  | nil => simp at w3
  | cons a l =>
    have ha : a = start := by simpa using w1
    subst ha
    have hl : l ≠ [] := by
      intro h; rw [h] at w3; simp at w3
    have hch0 : List.Chain (fun a b => b ∈ mapAdj g.linkedListOfVertices.vertexList a ∧
        mapHasLabel g.linkedListOfVertices.vertexList b label = true) a l := w4
    have hstop : stop ∈ g.pool := chain_last_mem_pool _ label hwf l a stop hch0 hl w2
    have hstart : a ∈ g.pool := by
      cases l with
      | nil => exact absurd rfl hl
      | cons b rest =>
        rw [List.chain_cons] at hch0
        exact (hwf.adj a b hch0.1.1).1
    obtain ⟨m2, qv, p, g1, hq, _, hsg, hinv, hqv, hnsq, h1, _, _, _⟩ :=
      query_core g a stop label hr hns hstart hstop
    have hch : List.Chain (fun a b => b ∈ mapAdj m2 a ∧ mapHasLabel m2 b label = true) a l := by
      refine List.Chain.imp ?_ hch0
      intro x y hxy
      refine ⟨?_, ?_⟩
      · rw [hsg.mapAdj]; exact hxy.1
      · rw [hsg.mapHasLabel]; exact hxy.2
    have hstopIn : stop ∈ listUnique (listSort g.pool) := (mem_pool_dedup _ _).mpr hstop
    have hreach := walk_reaches hinv (fun k hk _ => hnsq k hk) hstopIn hqv l a 0 hch w2 (Or.inl rfl)
      (le_of_eq hinv.dstart.1) (by
        simp only [List.length_cons, Nat.add_sub_cancel] at hlen
        unfold INT_MAX
        omega)
    have hpne : p ≠ [] := by
      intro hp
      rcases h1 hp with h | h
      · exact hne h.symm
      · rcases hreach with h2 | h2
        · exact hne h2.symm
        · exact h2 h
    refine ⟨g1, ?_⟩
    rw [hq]
    have : 0 < p.length := List.length_pos.mpr hpne
    simp [this]

theorem shortestPath_complete_witness :
    Reachable storeTest ∧ storeTest.NoSentinelKey ∧ (1 : Int) ≠ 5 ∧
      storeTest.Walk ["a"] 1 5 [1, 2, 5] ∧ [(1 : Int), 2, 5].length - 1 ≤ 2147483647 ∧
      ∃ g1, storeTest.shortestPath 1 5 ["a"] = some (true, g1) :=
  ⟨reachable_storeTest, noSentinelKey_storeTest, by decide, walk_storeTest, by decide,
    shortestPath_complete storeTest 1 5 ["a"] [1, 2, 5] reachable_storeTest
      noSentinelKey_storeTest (by decide) walk_storeTest (by decide)⟩

/-- C6: in a store built by the public operations, a query from a key that has been an
endpoint of an edge to the same key returns false. -/
theorem shortestPath_same_endpoint (g : GraphStoreLinked V) (a : Int) (label : List String)
    (hr : Reachable g) (ha : a ∈ g.pool) :
    ∃ g1, g.shortestPath a a label = some (false, g1) := by
  have hwf := reachable_wellFormed hr
  obtain ⟨m2, qv, p, t, hq, _, hinv, _, e1, _, e3, _, e5⟩ :=
    findShortestPath_spec g.linkedListOfVertices a a label hwf ha ha
  have haIn : a ∈ listUnique (listSort g.linkedListOfVertices.qBackUp) :=
    (mem_pool_dedup _ _).mpr ha
  have hp : p = [] := by
    cases p with
    | nil => rfl
    | cons b rest =>
      exfalso
      have hb : b = t := by simpa using e1
      have h1 := e5 b (List.mem_cons_self _ _)
      have h2 := (hinv.rng b h1.1).1
      have h3 := hinv.dstart.1
      omega
  subst hp
  unfold shortestPath
  rw [hq]
  exact ⟨_, rfl⟩

theorem shortestPath_same_endpoint_witness :
    Reachable storeCycle ∧ (1 : Int) ∈ storeCycle.pool ∧ storeCycle.Edge 1 1 ∧
      ∃ g1, storeCycle.shortestPath 1 1 [] = some (false, g1) :=
  ⟨reachable_storeCycle, by decide, by decide,
    shortestPath_same_endpoint storeCycle 1 [] reachable_storeCycle (by decide)⟩

end GraphStoreLinked

/-! ## A chain longer than `INT_MAX` edges -/

namespace GraphStoreLinked

theorem mem_mapInsert {V : Type} (m : List (Int × LinkedVertices V)) (k : Int)
    (lv : LinkedVertices V) (p : Int × LinkedVertices V) (h : p ∈ mapInsert m k lv) :
    p = (k, lv) ∨ p ∈ m := by
  induction m with
  | nil => left; simpa [mapInsert] using h
  | cons p0 rest ih =>
    obtain ⟨k0, lv0⟩ := p0
    unfold mapInsert at h
    split_ifs at h with h1 h2
    · rcases List.mem_cons.mp h with h3 | h3
      · exact Or.inl h3
      · exact Or.inr h3
    · exact Or.inr h
    · rcases List.mem_cons.mp h with h3 | h3
      · exact Or.inr (h3 ▸ List.mem_cons_self _ _)
      · rcases ih h3 with h4 | h4
        · exact Or.inl h4
        · exact Or.inr (List.mem_cons_of_mem _ h4)

theorem addVertex_cases {V : Type} (g : GraphStoreLinked V) (k : Int) (x : V) :
    ((g.vertex k).isSome = true ∧ (g.addVertex k x).2 = g) ∨
      (g.vertex k = none ∧
        (g.addVertex k x).2 =
          { linkedListOfVertices := { g.linkedListOfVertices with
              vertexList :=
                mapInsert g.linkedListOfVertices.vertexList k (LinkedVertices.new k x) } }) := by
  unfold vertex addVertex LinkedListOfVertices.insertNodeVertexAsHead
    LinkedListOfVertices.keyFoundInVertexListAsHead
  cases h : mapFind g.linkedListOfVertices.vertexList k <;> simp

theorem createEdge_cases {V : Type} (g : GraphStoreLinked V) (a b : Int) :
    (g.createEdge a b).2 = g ∨
      ((g.vertex a).isSome = true ∧ (g.vertex b).isSome = true ∧
        (g.createEdge a b).2 =
          { linkedListOfVertices := { g.linkedListOfVertices with
              vertexList :=
                mapModify g.linkedListOfVertices.vertexList a (fun lv => lv.insertNodeVertex b)
              qBackUp := g.linkedListOfVertices.qBackUp ++ [a, b] } }) := by
  unfold vertex createEdge LinkedListOfVertices.addEdgeToHeadNodeVertex
  cases h1 : mapFind g.linkedListOfVertices.vertexList a <;>
    cases h2 : mapFind g.linkedListOfVertices.vertexList b <;> simp

theorem mapAdj_insertNodeVertex {V : Type} (m : List (Int × LinkedVertices V)) (a0 b0 a : Int) :
    mapAdj (mapModify m a0 (fun lv => lv.insertNodeVertex b0)) a =
      if a = a0 ∧ (mapFind m a).isSome = true then mapAdj m a ++ [b0] else mapAdj m a := by
  unfold mapAdj
  rw [mapFind_mapModify]
  cases h : mapFind m a with
  | none => simp
  | some lv => by_cases h1 : a = a0 <;> simp [h1, LinkedVertices.insertNodeVertex]

theorem vertex_isSome_addVertex {V : Type} (g : GraphStoreLinked V) (k : Int) (x : V) (k1 : Int)
    (h : k1 = k ∨ (g.vertex k1).isSome = true) : ((g.addVertex k x).2.vertex k1).isSome = true := by
  rcases addVertex_cases g k x with ⟨h1, h2⟩ | ⟨h1, h2⟩
  · rw [h2]
    rcases h with h | h
    · rw [h]; exact h1
    · exact h
  · rw [h2]
    unfold vertex at h h1 ⊢
    by_cases hk : k1 = k
    · rw [hk]
      simp [mapFind_mapInsert_self _ _ _ h1]
    · simp only [mapFind_mapInsert_ne _ _ _ _ hk]
      rcases h with h | h
      · exact absurd h hk
      · exact h

theorem vertex_isSome_createEdge {V : Type} (g : GraphStoreLinked V) (a b k : Int) :
    ((g.createEdge a b).2.vertex k).isSome = (g.vertex k).isSome := by
  rcases createEdge_cases g a b with h | ⟨_, _, h⟩
  · rw [h]
  · rw [h]
    simp only [vertex, isSome_mapFind_mapModify]

theorem edge_createEdge_mono {V : Type} (g : GraphStoreLinked V) (a b c d : Int)
    (h : g.Edge c d) : (g.createEdge a b).2.Edge c d := by
  rcases createEdge_cases g a b with h1 | ⟨_, _, h1⟩
  · rw [h1]; exact h
  · rw [h1]
    unfold Edge at h ⊢
    simp only [mapAdj_insertNodeVertex]
    split_ifs
    · exact List.mem_append_left _ h
    · exact h

theorem edge_createEdge_self {V : Type} (g : GraphStoreLinked V) (a b : Int)
    (ha : (g.vertex a).isSome = true) (hb : (g.vertex b).isSome = true) :
    (g.createEdge a b).2.Edge a b := by
  rcases createEdge_cases g a b with h1 | ⟨_, _, h1⟩
  · exfalso
    have := congrArg (fun g : GraphStoreLinked V => g.pool.length) h1
    unfold vertex at ha hb
    obtain ⟨la, hla⟩ := Option.isSome_iff_exists.mp ha
    obtain ⟨lb, hlb⟩ := Option.isSome_iff_exists.mp hb
    simp [createEdge, LinkedListOfVertices.addEdgeToHeadNodeVertex, hla, hlb, pool] at this
  · rw [h1]
    unfold Edge
    unfold vertex at ha
    simp only [mapAdj_insertNodeVertex, ha, and_self, if_true]
    simp

theorem edge_step_createEdge {V : Type} (g : GraphStoreLinked V) (k : Int)
    (h : ∀ a b, g.Edge a b → b = a + 1) :
    ∀ a b, (g.createEdge k (k + 1)).2.Edge a b → b = a + 1 := by
  rcases createEdge_cases g k (k + 1) with h1 | ⟨_, _, h1⟩
  · rw [h1]; exact h
  · rw [h1]
    intro a b hab
    unfold Edge at hab h
    simp only [mapAdj_insertNodeVertex] at hab
    split_ifs at hab with hc
    · rcases List.mem_append.mp hab with h2 | h2
      · exact h a b h2
      · simp only [List.mem_singleton] at h2
        rw [h2, hc.1]
    · exact h a b hab

theorem edge_addVertex {V : Type} (g : GraphStoreLinked V) (k : Int) (x : V) (a b : Int)
    (h : (g.addVertex k x).2.Edge a b) : g.Edge a b := by
  rcases addVertex_cases g k x with ⟨_, h2⟩ | ⟨h1, h2⟩
  · rw [h2] at h; exact h
  · rw [h2] at h
    unfold Edge mapAdj at h ⊢
    unfold vertex at h1
    by_cases hk : a = k
    · rw [hk] at h
      simp [mapFind_mapInsert_self _ _ _ h1, LinkedVertices.new] at h
    · simpa only [mapFind_mapInsert_ne _ _ _ _ hk] using h

theorem keys_addVertex {V : Type} (P : Int → Prop) (g : GraphStoreLinked V) (k : Int) (x : V)
    (h : ∀ p ∈ g.linkedListOfVertices.vertexList, P p.1) (hk : P k) :
    ∀ p ∈ (g.addVertex k x).2.linkedListOfVertices.vertexList, P p.1 := by
  rcases addVertex_cases g k x with ⟨_, h2⟩ | ⟨_, h2⟩
  · rw [h2]; exact h
  · rw [h2]
    intro p hp
    rcases mem_mapInsert _ _ _ _ hp with h3 | h3
    · rw [h3]; exact hk
    · exact h p h3

theorem keys_createEdge {V : Type} (P : Int → Prop) (g : GraphStoreLinked V) (a b : Int)
    (h : ∀ p ∈ g.linkedListOfVertices.vertexList, P p.1) :
    ∀ p ∈ (g.createEdge a b).2.linkedListOfVertices.vertexList, P p.1 := by
  rcases createEdge_cases g a b with h1 | ⟨_, _, h1⟩
  · rw [h1]; exact h
  · rw [h1]
    intro p hp
    simp only [mapModify, List.mem_map] at hp
    obtain ⟨p0, hp0, hp1⟩ := hp
    have := h p0 hp0
    split_ifs at hp1 <;> (rw [← hp1]; exact this)

/-- The properties of the store after the vertices of a list were added. -/
theorem addVertexList_spec (P : Int → Prop) (ks : List Int) :
    ∀ g : GraphStoreLinked Nat, Reachable g →
      (∀ p ∈ g.linkedListOfVertices.vertexList, P p.1) → (∀ k ∈ ks, P k) →
      (∀ a b, g.Edge a b → b = a + 1) →
      Reachable (addVertexList g ks) ∧
        (∀ p ∈ (addVertexList g ks).linkedListOfVertices.vertexList, P p.1) ∧
        (∀ a b, (addVertexList g ks).Edge a b → b = a + 1) ∧
        (∀ k, (k ∈ ks ∨ (g.vertex k).isSome = true) →
          ((addVertexList g ks).vertex k).isSome = true) := by
  induction ks with
  | nil => intro g hr hns _ he; exact ⟨hr, hns, he, fun k hk => by simpa using hk⟩
  | cons k0 rest ih =>
    intro g hr hns hks he
    have h := ih (g.addVertex k0 0).2 (Reachable.addVertex g k0 0 hr)
      (keys_addVertex P g k0 0 hns (hks k0 (List.mem_cons_self _ _)))
      (fun k hk => hks k (List.mem_cons_of_mem _ hk))
      (fun a b hab => he a b (edge_addVertex g k0 0 a b hab))
    refine ⟨h.1, h.2.1, h.2.2.1, ?_⟩
    intro k hk
    apply h.2.2.2 k
    rcases hk with hk | hk
    · rcases List.mem_cons.mp hk with h1 | h1
      · exact Or.inr (vertex_isSome_addVertex g k0 0 k (Or.inl h1))
      · exact Or.inl h1
    · exact Or.inr (vertex_isSome_addVertex g k0 0 k (Or.inr hk))

/-- The properties of the store after the edges `k -> k + 1` of a list were created. -/
theorem createEdgeList_spec (P : Int → Prop) (ks : List Int) :
    ∀ g : GraphStoreLinked Nat, Reachable g →
      (∀ p ∈ g.linkedListOfVertices.vertexList, P p.1) →
      (∀ a b, g.Edge a b → b = a + 1) →
      Reachable (createEdgeList g ks) ∧
        (∀ p ∈ (createEdgeList g ks).linkedListOfVertices.vertexList, P p.1) ∧
        (∀ a b, (createEdgeList g ks).Edge a b → b = a + 1) ∧
        (∀ k, ((createEdgeList g ks).vertex k).isSome = (g.vertex k).isSome) ∧
        (∀ a b, g.Edge a b → (createEdgeList g ks).Edge a b) ∧
        (∀ k ∈ ks, (g.vertex k).isSome = true → (g.vertex (k + 1)).isSome = true →
          (createEdgeList g ks).Edge k (k + 1)) := by
  induction ks with
  | nil =>
    intro g hr hns he
    exact ⟨hr, hns, he, fun _ => rfl, fun _ _ h => h, fun k hk => by simp at hk⟩
  | cons k0 rest ih =>
    intro g hr hns he
    have h := ih (g.createEdge k0 (k0 + 1)).2 (Reachable.createEdge g k0 (k0 + 1) hr)
      (keys_createEdge P g k0 (k0 + 1) hns) (edge_step_createEdge g k0 he)
    refine ⟨h.1, h.2.1, h.2.2.1, ?_, ?_, ?_⟩
    · intro k
      exact (h.2.2.2.1 k).trans (vertex_isSome_createEdge g k0 (k0 + 1) k)
    · intro a b hab
      exact h.2.2.2.2.1 a b (edge_createEdge_mono g k0 (k0 + 1) a b hab)
    · intro k hk h1 h2
      rcases List.mem_cons.mp hk with h3 | h3
      · rw [h3] at h1 h2 ⊢
        exact h.2.2.2.2.1 _ _ (edge_createEdge_self g k0 (k0 + 1) h1 h2)
      · apply h.2.2.2.2.2 k h3
        · rw [vertex_isSome_createEdge]; exact h1
        · rw [vertex_isSome_createEdge]; exact h2

theorem chainKey_succ (i : Nat) : chainKey (i + 1) = chainKey i + 1 := by
  unfold chainKey; push_cast; ring

/-- In a graph whose edges all go from `a` to `a + 1`, a walk of `n` edges ends `n` above
its first vertex. -/
theorem chain_step_last (l : List Int) :
    ∀ (a x : Int), List.Chain (fun a b => b = a + 1) a l → (a :: l).getLast? = some x →
      x = a + l.length := by
  induction l with
  | nil => intro a x _ h; have : a = x := by simpa using h
           simp [this]
  | cons b rest ih =>
    intro a x hch hlast
    rw [List.chain_cons] at hch
    rw [List.getLast?_cons_cons] at hlast
    have := ih b x hch.2 hlast
    simp only [List.length_cons, Nat.cast_add, Nat.cast_one]
    omega

/-- The chain store of `n` edges, `n` at most `2^31`, is built by the public operations, all
its keys are values of `int` above `INT_MIN`, it only has edges `a -> a + 1`, and it holds
the walk along all its keys. -/
theorem chainStore_spec (n : Nat) (hn : 1 ≤ n) (hn2 : n ≤ 2147483648) :
    Reachable (chainStore n) ∧
      (∀ p ∈ (chainStore n).linkedListOfVertices.vertexList, INT_MIN < p.1 ∧ p.1 ≤ INT_MAX) ∧
      (∀ a b, (chainStore n).Edge a b → b = a + 1) ∧
      (chainStore n).Walk [] (chainKey 0) (chainKey n) ((List.range (n + 1)).map chainKey) := by
  have hnew : ∀ p ∈ (GraphStoreLinked.new : GraphStoreLinked Nat).linkedListOfVertices.vertexList,
      INT_MIN < p.1 ∧ p.1 ≤ INT_MAX := by
    intro p hp; simp [GraphStoreLinked.new, LinkedListOfVertices.new] at hp
  have henew : ∀ a b, (GraphStoreLinked.new : GraphStoreLinked Nat).Edge a b → b = a + 1 := by
    intro a b h; simp [Edge, mapAdj, GraphStoreLinked.new, LinkedListOfVertices.new, mapFind] at h
  have hkeys : ∀ k ∈ (List.range (n + 1)).map chainKey, INT_MIN < k ∧ k ≤ INT_MAX := by
    intro k hk
    obtain ⟨i, hi, rfl⟩ := List.mem_map.mp hk
    have := List.mem_range.mp hi
    unfold chainKey INT_MIN INT_MAX
    omega
  obtain ⟨a1, a2, a3, a4⟩ :=
    addVertexList_spec (fun k => INT_MIN < k ∧ k ≤ INT_MAX) ((List.range (n + 1)).map chainKey)
      GraphStoreLinked.new Reachable.new hnew hkeys henew
  obtain ⟨b1, b2, b3, b4, _, b6⟩ :=
    createEdgeList_spec (fun k => INT_MIN < k ∧ k ≤ INT_MAX) ((List.range n).map chainKey) _
      a1 a2 a3
  have hvert : ∀ i, i ≤ n → ((chainStore n).vertex (chainKey i)).isSome = true := by
    intro i hi
    unfold chainStore
    rw [b4]
    apply a4
    left
    exact List.mem_map.mpr ⟨i, List.mem_range.mpr (by omega), rfl⟩
  refine ⟨b1, b2, b3, ?_, ?_, ?_, ?_⟩
  · rw [List.range_succ_eq_map]; rfl
  · rw [List.range_succ, List.map_append]; simp
  · simp only [List.length_map, List.length_range]; omega
  · rw [List.chain'_map, List.chain'_range_succ]
    intro i hi
    rw [chainKey_succ]
    refine ⟨?_, ?_⟩
    · apply b6 (chainKey i) (List.mem_map.mpr ⟨i, List.mem_range.mpr hi, rfl⟩)
      · apply a4; left
        exact List.mem_map.mpr ⟨i, List.mem_range.mpr (by omega), rfl⟩
      · apply a4; left
        rw [← chainKey_succ]
        exact List.mem_map.mpr ⟨i + 1, List.mem_range.mpr (by omega), rfl⟩
    · have := hvert (i + 1) (by omega)
      rw [chainKey_succ] at this
      unfold passes mapHasLabel
      unfold vertex at this
      obtain ⟨lv, hlv⟩ := Option.isSome_iff_exists.mp this
      rw [hlv]
      simp [NodeVertex.hasLabel, includes]

/-- On the chain of `2^31` edges the query between its ends returns false. -/
theorem chainStore_query (n : Nat) (hn : 2147483647 < n) (hn2 : n ≤ 2147483648) :
    ∃ g1, (chainStore n).shortestPath (chainKey 0) (chainKey n) [] = some (false, g1) := by
  obtain ⟨hr, hrange, hstep, hw⟩ := chainStore_spec n (by omega) hn2
  have hns : (chainStore n).NoSentinelKey := fun p hp => ne_of_gt (hrange p hp).1
  have hwf := reachable_wellFormed hr
  obtain ⟨_, w2, _, w4⟩ := hw
  have hedge0 : (chainStore n).Edge (chainKey 0) (chainKey 0 + 1) := by
    rw [List.chain'_map, List.chain'_range_succ] at w4
    have := (w4 0 (by omega)).1
    rwa [chainKey_succ] at this
  have hedgeN : (chainStore n).Edge (chainKey (n - 1)) (chainKey n) := by
    rw [List.chain'_map, List.chain'_range_succ] at w4
    have := (w4 (n - 1) (by omega)).1
    have e : n - 1 + 1 = n := by omega
    rwa [Nat.succ_eq_add_one, e] at this
  have hstart : chainKey 0 ∈ (chainStore n).pool := (hwf.adj _ _ hedge0).1
  have hstop : chainKey n ∈ (chainStore n).pool := (hwf.adj _ _ hedgeN).2
  obtain ⟨m2, qv, p, g1, hq, _, _, hinv, _, _, _, h2, _, h4⟩ :=
    query_core (chainStore n) (chainKey 0) (chainKey n) [] hr hns hstart hstop
  have hp : p = [] := by
    by_contra hpne
    obtain ⟨hhead, hlen⟩ := h2 hpne
    obtain ⟨a, rest, rfl⟩ := List.exists_cons_of_ne_nil hpne
    have ha : a = chainKey 0 := by simpa using hhead
    have hch : List.Chain (fun a b => b = a + 1) a (rest ++ [chainKey n]) := by
      have : List.Chain ((chainStore n).Hop []) a (rest ++ [chainKey n]) := h4
      exact List.Chain.imp (fun x y hxy => hstep x y hxy.1) this
    have hl : (a :: (rest ++ [chainKey n])).getLast? = some (chainKey n) := by
      rw [← List.cons_append, List.getLast?_append]
      rfl
    have hlast := chain_step_last (rest ++ [chainKey n]) a (chainKey n) hch hl
    have hmax := (hinv.rng (chainKey n) ((mem_pool_dedup _ _).mpr hstop)).2
    rw [← hlen] at hmax
    have e1 : ((rest ++ [chainKey n]).length : Int) = rest.length + 1 := by
      rw [List.length_append]; simp
    have e2 : ((a :: rest).length : Int) = rest.length + 1 := by simp
    rw [e1, ha] at hlast
    rw [e2] at hmax
    unfold chainKey at hlast
    unfold INT_MAX at hmax
    omega
  subst hp
  exact ⟨g1, by simpa using hq⟩

/-- C3 as stated fails: the chain of `2^31` edges from `-2^30` to `2^30` is built by the
public operations from keys that are values of `int`, none of them `INT_MIN`; its two ends
are distinct, the walk along the chain leads from one to the other under the empty filter,
and the query between them returns false. -/
theorem shortestPath_incomplete_long_chain :
    Reachable storeLongChain ∧ storeLongChain.NoSentinelKey ∧
      (∀ p ∈ storeLongChain.linkedListOfVertices.vertexList, INT_MIN < p.1 ∧ p.1 ≤ INT_MAX) ∧
      chainKey 0 = -1073741824 ∧ chainKey 2147483648 = 1073741824 ∧
      chainKey 0 ≠ chainKey 2147483648 ∧
      storeLongChain.Walk [] (chainKey 0) (chainKey 2147483648)
        ((List.range (2147483648 + 1)).map chainKey) ∧
      ∃ g1, storeLongChain.shortestPath (chainKey 0) (chainKey 2147483648) [] =
        some (false, g1) := by
  have e : storeLongChain = chainStore 2147483648 := rfl
  rw [e]
  obtain ⟨hr, hrange, _, hw⟩ := chainStore_spec 2147483648 (by omega) (by omega)
  exact ⟨hr, fun p hp => ne_of_gt (hrange p hp).1, hrange, by unfold chainKey; omega,
    by unfold chainKey; omega, by unfold chainKey; omega, hw,
    chainStore_query 2147483648 (by omega) (by omega)⟩

end GraphStoreLinked

/-! ## Label vectors -/

section Labels

variable {V : Type}

theorem strLess_iff_lt (a b : String) : strLess a b ↔ a < b :=
  String.lt_iff_toList_lt.symm

theorem labelOrder_total (a b : String) : ¬ strLess b a ∨ ¬ strLess a b := by
  simp only [strLess_iff_lt, not_lt]
  exact le_total a b

theorem labelOrder_trans (a b c : String) (h1 : ¬ strLess b a) (h2 : ¬ strLess c b) :
    ¬ strLess c a := by
  simp only [strLess_iff_lt, not_lt] at h1 h2 ⊢
  exact le_trans h1 h2

theorem sortLabels_perm (l : List String) : List.Perm (sortLabels l) l :=
  List.perm_insertionSort _ l

theorem mem_sortLabels (l : List String) (x : String) : x ∈ sortLabels l ↔ x ∈ l :=
  (sortLabels_perm l).mem_iff

theorem sortLabels_sorted (l : List String) : LabelsSorted (sortLabels l) := by
  haveI : IsTotal String (fun a b => ¬ strLess b a) := ⟨labelOrder_total⟩
  haveI : IsTrans String (fun a b => ¬ strLess b a) := ⟨labelOrder_trans⟩
  exact List.sorted_insertionSort (fun a b => ¬ strLess b a) l

theorem sortLabels_eq_self (l : List String) (h : LabelsSorted l) : sortLabels l = l :=
  List.Sorted.insertionSort_eq h

theorem labelsSorted_filter (l : List String) (p : String → Bool) (h : LabelsSorted l) :
    LabelsSorted (l.filter p) :=
  List.Pairwise.sublist (List.filter_sublist l) h

/-- The label vector after the loop of `addLabelToVertex` is a permutation of the old one
followed by the added labels. -/
theorem labelVec_foldl_addLabel (ls : List String) :
    ∀ lv : LinkedVertices V,
      List.Perm (ls.foldl LinkedVertices.addLabel lv).head.labelVec (lv.head.labelVec ++ ls) := by
  induction ls with
  | nil => intro lv; simp
  | cons l rest ih =>
    intro lv
    rw [List.foldl_cons]
    refine (ih (lv.addLabel l)).trans ?_
    have h1 : (lv.addLabel l).head.labelVec = sortLabels (lv.head.labelVec ++ [l]) := rfl
    rw [h1]
    have h2 : lv.head.labelVec ++ l :: rest = (lv.head.labelVec ++ [l]) ++ rest := by simp
    rw [h2]
    exact List.Perm.append_right rest (sortLabels_perm _)

theorem labelsSorted_foldl_addLabel (ls : List String) :
    ∀ lv : LinkedVertices V, LabelsSorted lv.head.labelVec →
      LabelsSorted (ls.foldl LinkedVertices.addLabel lv).head.labelVec := by
  induction ls with
  | nil => intro lv h; exact h
  | cons l rest ih =>
    intro lv _
    rw [List.foldl_cons]
    exact ih _ (sortLabels_sorted _)

/-- The loop of `addLabelToVertex` only writes the label vector. -/
theorem foldl_addLabel_frame (ls : List String) :
    ∀ lv : LinkedVertices V,
      (ls.foldl LinkedVertices.addLabel lv).nodes = lv.nodes ∧
        (ls.foldl LinkedVertices.addLabel lv).head.id = lv.head.id ∧
        (ls.foldl LinkedVertices.addLabel lv).head.data = lv.head.data ∧
        (ls.foldl LinkedVertices.addLabel lv).head.distance = lv.head.distance ∧
        (ls.foldl LinkedVertices.addLabel lv).head.previous = lv.head.previous := by
  induction ls with
  | nil => intro lv; exact ⟨rfl, rfl, rfl, rfl, rfl⟩
  | cons l rest ih => intro lv; rw [List.foldl_cons]; exact ih (lv.addLabel l)

theorem removeLabel_fst (lv : LinkedVertices V) (l : String) :
    (lv.removeLabel l).1 = true ↔ l ∈ lv.head.labelVec := by
  unfold LinkedVertices.removeLabel
  simp only
  split_ifs with h
  · simp only [Bool.false_eq_true, false_iff]
    intro hl
    have := (List.filter_length_eq_length.mp h.symm) l hl
    simp at this
  · simp only [true_iff]
    by_contra hl
    apply h
    symm
    apply List.filter_length_eq_length.mpr
    intro a ha
    have : a ≠ l := fun e => hl (e ▸ ha)
    simpa using this

theorem removeLabel_labelVec (lv : LinkedVertices V) (l : String) :
    (lv.removeLabel l).2.head.labelVec = sortLabels (lv.head.labelVec.filter (fun x => x ≠ l)) := by
  unfold LinkedVertices.removeLabel
  simp only
  split_ifs <;> rfl

theorem removeLabel_frame (lv : LinkedVertices V) (l : String) :
    (lv.removeLabel l).2.nodes = lv.nodes ∧ (lv.removeLabel l).2.head.id = lv.head.id ∧
      (lv.removeLabel l).2.head.data = lv.head.data ∧
      (lv.removeLabel l).2.head.distance = lv.head.distance ∧
      (lv.removeLabel l).2.head.previous = lv.head.previous := by
  unfold LinkedVertices.removeLabel
  simp only
  split_ifs <;> exact ⟨rfl, rfl, rfl, rfl, rfl⟩

theorem removeLabelLoop_cons (lv : LinkedVertices V) (b : Bool) (l : String)
    (rest : List String) :
    LinkedListOfVertices.removeLabelLoop lv b (l :: rest) =
      LinkedListOfVertices.removeLabelLoop (lv.removeLabel l).2
        (if !(lv.removeLabel l).1 then false else b) rest := rfl

/-- The loop of `removeLabelFromVertex` only writes the label vector. -/
theorem removeLabelLoop_frame (ls : List String) :
    ∀ (lv : LinkedVertices V) (b : Bool),
      (LinkedListOfVertices.removeLabelLoop lv b ls).2.nodes = lv.nodes ∧
        (LinkedListOfVertices.removeLabelLoop lv b ls).2.head.id = lv.head.id ∧
        (LinkedListOfVertices.removeLabelLoop lv b ls).2.head.data = lv.head.data ∧
        (LinkedListOfVertices.removeLabelLoop lv b ls).2.head.distance = lv.head.distance ∧
        (LinkedListOfVertices.removeLabelLoop lv b ls).2.head.previous = lv.head.previous := by
  induction ls with
  | nil => intro lv b; exact ⟨rfl, rfl, rfl, rfl, rfl⟩
  | cons l rest ih =>
    intro lv b
    rw [removeLabelLoop_cons]
    obtain ⟨h1, h2, h3, h4, h5⟩ := ih (lv.removeLabel l).2 (if !(lv.removeLabel l).1 then false else b)
    obtain ⟨f1, f2, f3, f4, f5⟩ := removeLabel_frame lv l
    exact ⟨h1.trans f1, h2.trans f2, h3.trans f3, h4.trans f4, h5.trans f5⟩

/-- The state left by the loop does not depend on the flag. -/
theorem removeLabelLoop_snd (ls : List String) :
    ∀ (lv : LinkedVertices V) (b c : Bool),
      (LinkedListOfVertices.removeLabelLoop lv b ls).2 =
        (LinkedListOfVertices.removeLabelLoop lv c ls).2 := by
  induction ls with
  | nil => intro lv b c; rfl
  | cons l rest ih => intro lv b c; rw [removeLabelLoop_cons, removeLabelLoop_cons]; exact ih _ _ _

/-- The label vector after the loop of `removeLabelFromVertex` is a permutation of the old
one without the requested labels. -/
theorem removeLabelLoop_perm (ls : List String) :
    ∀ (lv : LinkedVertices V) (b : Bool),
      List.Perm (LinkedListOfVertices.removeLabelLoop lv b ls).2.head.labelVec
        (lv.head.labelVec.filter (fun x => decide (x ∉ ls))) := by
  induction ls with
  | nil => intro lv b; simp [LinkedListOfVertices.removeLabelLoop]
  | cons l rest ih =>
    intro lv b
    rw [removeLabelLoop_cons]
    refine (ih _ _).trans ?_
    rw [removeLabel_labelVec]
    refine ((sortLabels_perm _).filter _).trans ?_
    rw [List.filter_filter]
    apply List.Perm.of_eq
    apply List.filter_congr
    intro x _
    by_cases h1 : x = l <;> by_cases h2 : x ∈ rest <;> simp [h1, h2]

/-- On a sorted label vector the loop of `removeLabelFromVertex` leaves the old vector
without the requested labels, the others in their order. -/
theorem removeLabelLoop_labelVec (ls : List String) :
    ∀ (lv : LinkedVertices V) (b : Bool), LabelsSorted lv.head.labelVec →
      (LinkedListOfVertices.removeLabelLoop lv b ls).2.head.labelVec =
        lv.head.labelVec.filter (fun x => decide (x ∉ ls)) := by
  induction ls with
  | nil => intro lv b _; simp [LinkedListOfVertices.removeLabelLoop]
  | cons l rest ih =>
    intro lv b hs
    rw [removeLabelLoop_cons]
    have h1 : (lv.removeLabel l).2.head.labelVec = lv.head.labelVec.filter (fun x => x ≠ l) := by
      rw [removeLabel_labelVec]
      exact sortLabels_eq_self _ (labelsSorted_filter _ _ hs)
    rw [ih _ _ (by rw [h1]; exact labelsSorted_filter _ _ hs), h1, List.filter_filter]
    apply List.filter_congr
    intro x _
    by_cases h1 : x = l <;> by_cases h2 : x ∈ rest <;> simp [h1, h2]

theorem labelsSorted_removeLabelLoop (ls : List String) :
    ∀ (lv : LinkedVertices V) (b : Bool), LabelsSorted lv.head.labelVec →
      LabelsSorted (LinkedListOfVertices.removeLabelLoop lv b ls).2.head.labelVec := by
  intro lv b hs
  rw [removeLabelLoop_labelVec ls lv b hs]
  exact labelsSorted_filter _ _ hs

/-- The flag returned by the loop of `removeLabelFromVertex`: every requested label is in
the vector and is requested once. -/
theorem removeLabelLoop_fst (ls : List String) :
    ∀ (lv : LinkedVertices V) (b : Bool),
      (LinkedListOfVertices.removeLabelLoop lv b ls).1 = true ↔
        b = true ∧ (∀ x ∈ ls, x ∈ lv.head.labelVec) ∧ ls.Nodup := by
  induction ls with
  | nil => intro lv b; simp [LinkedListOfVertices.removeLabelLoop]
  | cons l rest ih =>
    intro lv b
    rw [removeLabelLoop_cons, ih]
    have hm : ∀ x, x ∈ (lv.removeLabel l).2.head.labelVec ↔ x ∈ lv.head.labelVec ∧ x ≠ l := by
      intro x
      rw [removeLabel_labelVec, mem_sortLabels]
      simp
    have hf := removeLabel_fst lv l
    simp only [hm, List.nodup_cons, List.mem_cons, forall_eq_or_imp]
    constructor
    · rintro ⟨h1, h2, h3⟩
      have hr : (lv.removeLabel l).1 = true := by
        by_contra hc
        simp only [Bool.not_eq_true] at hc
        simp [hc] at h1
      refine ⟨by simpa [hr] using h1, ⟨hf.mp hr, fun x hx => (h2 x hx).1⟩, ?_, h3⟩
      intro hl
      exact (h2 l hl).2 rfl
    · rintro ⟨h1, ⟨h2, h3⟩, h4, h5⟩
      have hr : (lv.removeLabel l).1 = true := hf.mpr h2
      refine ⟨by simpa [hr] using h1, ?_, h5⟩
      intro x hx
      exact ⟨h3 x hx, fun e => h4 (e ▸ hx)⟩

theorem mapLabels_mapModify (m : List (Int × LinkedVertices V)) (key k : Int)
    (f : LinkedVertices V → LinkedVertices V) (h : k ≠ key) :
    mapLabels (mapModify m key f) k = mapLabels m k := by
  unfold mapLabels
  rw [mapFind_mapModify_ne _ _ _ _ h]

end Labels

/-! ## Invariants of the entries of the vertex map -/

namespace GraphStoreLinked

variable {V : Type}

theorem addLabel_cases (g : GraphStoreLinked V) (k : Int) (ls : List String) :
    (g.vertex k = none ∧ g.addLabel k ls = (false, g)) ∨
      (∃ lv, g.vertex k = some lv ∧
        g.addLabel k ls =
          (true, { linkedListOfVertices := { g.linkedListOfVertices with
            vertexList := mapModify g.linkedListOfVertices.vertexList k
              (fun lv => ls.foldl LinkedVertices.addLabel lv) } })) := by
  unfold vertex addLabel LinkedListOfVertices.addLabelToVertex
  cases h : mapFind g.linkedListOfVertices.vertexList k with
  | none => left; simp
  | some lv => right; exact ⟨lv, rfl, rfl⟩

theorem removeLabel_cases (g : GraphStoreLinked V) (k : Int) (ls : List String) :
    (g.vertex k = none ∧ g.removeLabel k ls = (true, g)) ∨
      (∃ lv, g.vertex k = some lv ∧
        g.removeLabel k ls =
          ((LinkedListOfVertices.removeLabelLoop lv true ls).1,
            { linkedListOfVertices := { g.linkedListOfVertices with
              vertexList := mapModify g.linkedListOfVertices.vertexList k
                (fun lv => (LinkedListOfVertices.removeLabelLoop lv true ls).2) } })) := by
  unfold vertex removeLabel LinkedListOfVertices.removeLabelFromVertex
  cases h : mapFind g.linkedListOfVertices.vertexList k with
  | none => left; simp
  | some lv => right; exact ⟨lv, rfl, rfl⟩

/-- Whenever a query returns, every key holds the same id, payload, labels and adjacency
as before, the edge-key list holds the same keys, and the print flag is as before. -/
theorem shortestPath_sameGraph (g g1 : GraphStoreLinked V) (start stop : Int)
    (label : List String) (r : Bool) (h : g.shortestPath start stop label = some (r, g1)) :
    SameGraph g.linkedListOfVertices.vertexList g1.linkedListOfVertices.vertexList ∧
      (∀ k, k ∈ g1.pool ↔ k ∈ g.pool) ∧
      g1.linkedListOfVertices.enableOutputPrint = g.linkedListOfVertices.enableOutputPrint := by
  unfold shortestPath at h
  cases hf : g.linkedListOfVertices.findShortestPath start stop label with
  | none => simp [hf] at h
  | some res =>
    obtain ⟨r1, s1⟩ := res
    simp only [hf, Option.map_some', Option.some.injEq, Prod.mk.injEq] at h
    rw [← h.2]
    exact findShortestPath_frame _ s1 start stop label r1 hf

/-- A property of the persistent part of an entry that holds for a new vertex and is kept by
`insertNodeVertex`, `addLabel` and `removeLabel` holds for every entry of every store built
by the public operations. -/
theorem reachable_entries (Q : Int → Int × V × List String × List Int → Prop)
    (hnew : ∀ k x, Q k (LinkedVertices.new k x).persistent)
    (hedge : ∀ k (lv : LinkedVertices V) b, Q k lv.persistent →
      Q k (lv.insertNodeVertex b).persistent)
    (hadd : ∀ k (lv : LinkedVertices V) l, Q k lv.persistent → Q k (lv.addLabel l).persistent)
    (hrem : ∀ k (lv : LinkedVertices V) l, Q k lv.persistent →
      Q k (lv.removeLabel l).2.persistent)
    {g : GraphStoreLinked V} (hr : Reachable g) :
    ∀ k lv, g.vertex k = some lv → Q k lv.persistent := by
  have hfold : ∀ (ls : List String) k (lv : LinkedVertices V), Q k lv.persistent →
      Q k (ls.foldl LinkedVertices.addLabel lv).persistent := by
    intro ls
    induction ls with
    | nil => intro k lv h; exact h
    | cons l rest ih => intro k lv h; rw [List.foldl_cons]; exact ih k _ (hadd k lv l h)
  have hloop : ∀ (ls : List String) k (lv : LinkedVertices V) (b : Bool), Q k lv.persistent →
      Q k (LinkedListOfVertices.removeLabelLoop lv b ls).2.persistent := by
    intro ls
    induction ls with
    | nil => intro k lv b h; exact h
    | cons l rest ih =>
      intro k lv b h
      rw [removeLabelLoop_cons]
      exact ih k _ _ (hrem k lv l h)
  have hmod : ∀ (g : GraphStoreLinked V) (key : Int) (f : LinkedVertices V → LinkedVertices V),
      (∀ k lv, Q k lv.persistent → Q k (f lv).persistent) →
      (∀ k lv, g.vertex k = some lv → Q k lv.persistent) →
      ∀ k lv, mapFind (mapModify g.linkedListOfVertices.vertexList key f) k = some lv →
        Q k lv.persistent := by
    intro g key f hf ih k lv h
    rw [mapFind_mapModify] at h
    cases hm : mapFind g.linkedListOfVertices.vertexList k with
    | none => simp [hm] at h
    | some lv0 =>
      simp only [hm, Option.map_some', Option.some.injEq] at h
      rw [← h]
      split_ifs
      · exact hf k lv0 (ih k lv0 hm)
      · exact ih k lv0 hm
  induction hr with
  | new => intro k lv h; simp [vertex, GraphStoreLinked.new, LinkedListOfVertices.new, mapFind] at h
  | addVertex g key info _ ih =>
    intro k lv h
    rcases addVertex_cases g key info with ⟨_, h2⟩ | ⟨h1, h2⟩
    · rw [h2] at h; exact ih k lv h
    · rw [h2] at h
      unfold vertex at h h1
      by_cases hk : k = key
      · rw [hk] at h ⊢
        simp only [mapFind_mapInsert_self _ _ _ h1, Option.some.injEq] at h
        rw [← h]; exact hnew key info
      · simp only [mapFind_mapInsert_ne _ _ _ _ hk] at h
        exact ih k lv h
  | createEdge g start stop _ ih =>
    intro k lv h
    rcases createEdge_cases g start stop with h2 | ⟨_, _, h2⟩
    · rw [h2] at h; exact ih k lv h
    · rw [h2] at h
      exact hmod g start _ (fun k lv hq => hedge k lv stop hq) ih k lv h
  | addLabel g key label _ ih =>
    intro k lv h
    rcases addLabel_cases g key label with ⟨_, h2⟩ | ⟨_, _, h2⟩
    · rw [h2] at h; exact ih k lv h
    · rw [h2] at h
      exact hmod g key _ (fun k lv hq => hfold label k lv hq) ih k lv h
  | removeLabel g key label _ ih =>
    intro k lv h
    rcases removeLabel_cases g key label with ⟨_, h2⟩ | ⟨_, _, h2⟩
    · rw [h2] at h; exact ih k lv h
    · rw [h2] at h
      exact hmod g key _ (fun k lv hq => hloop label k lv true hq) ih k lv h
  | shortestPath g start stop label r g1 _ hq ih =>
    intro k lv h
    have hsg := (shortestPath_sameGraph g g1 start stop label r hq).1 k
    unfold vertex at h ih
    rw [h] at hsg
    cases hm : mapFind g.linkedListOfVertices.vertexList k with
    | none => simp [hm] at hsg
    | some lv0 =>
      simp only [hm, Option.map_some', Option.some.injEq] at hsg
      rw [hsg]
      exact ih k lv0 hm
  | getVertexInfo g key _ ih => exact ih
  | disableOutputPrint g _ ih => exact ih

theorem reachable_labelsSorted {g : GraphStoreLinked V} (hr : Reachable g) (k : Int)
    (lv : LinkedVertices V) (h : g.vertex k = some lv) : LabelsSorted lv.head.labelVec :=
  reachable_entries (fun _ p => LabelsSorted p.2.2.1)
    (fun _ _ => List.Pairwise.nil)
    (fun _ _ _ hq => hq)
    (fun _ _ _ _ => sortLabels_sorted _)
    (fun _ lv l _ => by
      show LabelsSorted (lv.removeLabel l).2.head.labelVec
      rw [removeLabel_labelVec]; exact sortLabels_sorted _)
    hr k lv h

theorem reachable_ids {g : GraphStoreLinked V} (hr : Reachable g) (k : Int)
    (lv : LinkedVertices V) (h : g.vertex k = some lv) : lv.head.id = k :=
  reachable_entries (fun k p => p.1 = k)
    (fun _ _ => rfl)
    (fun _ _ _ hq => hq)
    (fun _ _ _ hq => hq)
    (fun _ lv l hq => by
      show (lv.removeLabel l).2.head.id = _
      rw [(removeLabel_frame lv l).2.1]; exact hq)
    hr k lv h

/-- C14: in every store built by the public operations the label sequence of every vertex
is in non-decreasing order of the string comparison. -/
theorem labels_sorted (g : GraphStoreLinked V) (hr : Reachable g) (k : Int) :
    List.Pairwise (fun a b => ¬ strLess b a) (g.labels k) := by
  unfold labels mapLabels
  cases h : mapFind g.linkedListOfVertices.vertexList k with
  | none => exact List.Pairwise.nil
  | some lv => exact reachable_labelsSorted hr k lv h

theorem reachable_storeThreeLabels : Reachable storeThreeLabels :=
  Reachable.removeLabel _ 2 ["q"] (Reachable.addLabel _ 2 ["z", "y"] (Reachable.addLabel _ 1 ["b"]
    (Reachable.addLabel _ 1 ["c", "a"]
      (Reachable.addVertex _ 2 20 (Reachable.addVertex _ 1 10 Reachable.new)))))

theorem labels_sorted_witness :
    Reachable storeThreeLabels ∧ storeThreeLabels.labels 1 = ["a", "b", "c"] ∧
      storeThreeLabels.labels 2 = ["y", "z"] ∧
      List.Pairwise (fun a b => ¬ strLess b a) (storeThreeLabels.labels 1) ∧
      List.Pairwise (fun a b => ¬ strLess b a) (storeThreeLabels.labels 2) :=
  ⟨reachable_storeThreeLabels, by decide, by decide,
    labels_sorted storeThreeLabels reachable_storeThreeLabels 1,
    labels_sorted storeThreeLabels reachable_storeThreeLabels 2⟩

/-- C19: when a query returns, every key maps to a record with the same id, payload, label
sequence and adjacency sequence as before, a key is present after the call exactly when it
was present before, and the edge-key list holds the same keys; the print flag is unchanged
too. -/
theorem shortestPath_frame (g g1 : GraphStoreLinked V) (start stop : Int)
    (label : List String) (r : Bool) (h : g.shortestPath start stop label = some (r, g1)) :
    (∀ k, (g1.vertex k).map (fun lv => (lv.head.id, lv.head.data, lv.head.labelVec, lv.nodes)) =
        (g.vertex k).map (fun lv => (lv.head.id, lv.head.data, lv.head.labelVec, lv.nodes))) ∧
      (∀ k, (g1.vertex k).isSome = (g.vertex k).isSome) ∧
      (∀ k, g1.labels k = g.labels k) ∧ (∀ k, g1.adjacency k = g.adjacency k) ∧
      (∀ k, k ∈ g1.pool ↔ k ∈ g.pool) ∧
      g1.linkedListOfVertices.enableOutputPrint = g.linkedListOfVertices.enableOutputPrint := by
  obtain ⟨hsg, hp, he⟩ := shortestPath_sameGraph g g1 start stop label r h
  refine ⟨hsg, hsg.isSome, ?_, hsg.mapAdj, hp, he⟩
  intro k
  have := hsg k
  unfold labels mapLabels
  cases h1 : mapFind g1.linkedListOfVertices.vertexList k <;>
    cases h2 : mapFind g.linkedListOfVertices.vertexList k <;>
    simp [h1, h2, LinkedVertices.persistent] at this ⊢
  exact this.2.2.1

theorem shortestPath_frame_witness :
    ∃ g1, storeCycle.shortestPath 1 2 [] = some (true, g1) ∧
      (∀ k, g1.adjacency k = storeCycle.adjacency k) ∧ (∀ k, k ∈ g1.pool ↔ k ∈ storeCycle.pool) :=
  ⟨_, rfl,
    (shortestPath_frame storeCycle _ 1 2 [] true rfl).2.2.2.1,
    (shortestPath_frame storeCycle _ 1 2 [] true rfl).2.2.2.2.1⟩

/-- C20: in every store built by the public operations every key of the edge-key list is a
key of the vertex map, every entry of every adjacency sequence is a key of the vertex map,
and the record stored under a key `k` has id `k`. -/
theorem store_invariant (g : GraphStoreLinked V) (hr : Reachable g) :
    (∀ k ∈ g.pool, (g.vertex k).isSome = true) ∧
      (∀ a b, b ∈ g.adjacency a → (g.vertex b).isSome = true) ∧
      (∀ k lv, g.vertex k = some lv → lv.head.id = k) := by
  have hwf := reachable_wellFormed hr
  refine ⟨hwf.keys, ?_, fun k lv h => reachable_ids hr k lv h⟩
  intro a b hab
  exact hwf.keys b (hwf.adj a b hab).2

theorem store_invariant_witness :
    Reachable storeTest ∧ (∀ k ∈ storeTest.pool, (storeTest.vertex k).isSome = true) ∧
      (∀ a b, b ∈ storeTest.adjacency a → (storeTest.vertex b).isSome = true) ∧
      (∀ k lv, storeTest.vertex k = some lv → lv.head.id = k) :=
  ⟨reachable_storeTest, store_invariant storeTest reachable_storeTest⟩

end GraphStoreLinked

/-! ## Edge creation and label operations -/

namespace GraphStoreLinked

variable {V : Type}

theorem createEdge_known_eq (g : GraphStoreLinked V) (start stop : Int)
    (hs : (g.vertex start).isSome = true) (ht : (g.vertex stop).isSome = true) :
    g.createEdge start stop =
      (true, { linkedListOfVertices := { g.linkedListOfVertices with
        vertexList :=
          mapModify g.linkedListOfVertices.vertexList start (fun lv => lv.insertNodeVertex stop)
        qBackUp := g.linkedListOfVertices.qBackUp ++ [start, stop] } }) := by
  unfold vertex at hs ht
  obtain ⟨ls, hls⟩ := Option.isSome_iff_exists.mp hs
  obtain ⟨lt, hlt⟩ := Option.isSome_iff_exists.mp ht
  simp [createEdge, LinkedListOfVertices.addEdgeToHeadNodeVertex, hls, hlt]

theorem adjacency_createEdge (g : GraphStoreLinked V) (start stop : Int)
    (hs : (g.vertex start).isSome = true) (ht : (g.vertex stop).isSome = true) (k : Int) :
    (g.createEdge start stop).2.adjacency k =
      if k = start then g.adjacency k ++ [stop] else g.adjacency k := by
  rw [createEdge_known_eq g start stop hs ht]
  unfold adjacency
  simp only [mapAdj_insertNodeVertex]
  by_cases hk : k = start
  · subst hk
    unfold vertex at hs
    simp [hs]
  · simp [hk]

/-- C11: a `createEdge(start, stop)` on two known keys returns true; afterwards the
adjacency sequence of `start` is the previous one with `stop` appended at the end (so a
second call leaves two more entries `stop`), the edge-key list is the previous one followed
by `start` and `stop`, every other adjacency sequence is as before, and every head node,
with its labels and payload, is as before. -/
theorem createEdge_known (g : GraphStoreLinked V) (start stop : Int)
    (hs : (g.vertex start).isSome = true) (ht : (g.vertex stop).isSome = true) :
    (g.createEdge start stop).1 = true ∧
      (g.createEdge start stop).2.adjacency start = g.adjacency start ++ [stop] ∧
      ((g.createEdge start stop).2.createEdge start stop).1 = true ∧
      ((g.createEdge start stop).2.createEdge start stop).2.adjacency start =
        g.adjacency start ++ [stop, stop] ∧
      (g.createEdge start stop).2.pool = g.pool ++ [start, stop] ∧
      start ∈ (g.createEdge start stop).2.pool ∧ stop ∈ (g.createEdge start stop).2.pool ∧
      (∀ k, k ≠ start → (g.createEdge start stop).2.adjacency k = g.adjacency k) ∧
      (∀ k, ((g.createEdge start stop).2.vertex k).map (fun lv => lv.head) =
        (g.vertex k).map (fun lv => lv.head)) := by
  have e1 := createEdge_known_eq g start stop hs ht
  have hs1 : ((g.createEdge start stop).2.vertex start).isSome = true := by
    rw [vertex_isSome_createEdge]; exact hs
  have ht1 : ((g.createEdge start stop).2.vertex stop).isSome = true := by
    rw [vertex_isSome_createEdge]; exact ht
  have e2 := createEdge_known_eq (g.createEdge start stop).2 start stop hs1 ht1
  have hpool : (g.createEdge start stop).2.pool = g.pool ++ [start, stop] := by rw [e1]; rfl
  refine ⟨by rw [e1], ?_, by rw [e2], ?_, hpool, by rw [hpool]; simp, by rw [hpool]; simp, ?_, ?_⟩
  · rw [adjacency_createEdge g start stop hs ht, if_pos rfl]
  · rw [adjacency_createEdge _ start stop hs1 ht1, if_pos rfl,
      adjacency_createEdge g start stop hs ht, if_pos rfl]
    simp
  · intro k hk
    rw [adjacency_createEdge g start stop hs ht, if_neg hk]
  · intro k
    rw [e1]
    unfold vertex
    simp only [mapFind_mapModify]
    cases mapFind g.linkedListOfVertices.vertexList k with
    | none => rfl
    | some lv => by_cases hk : k = start <;> simp [hk, LinkedVertices.insertNodeVertex]

theorem createEdge_known_witness :
    (storeCycle.vertex 1).isSome = true ∧ (storeCycle.vertex 1).isSome = true ∧
      (storeCycle.createEdge 1 1).2.adjacency 1 = storeCycle.adjacency 1 ++ [1] ∧
      ((storeCycle.createEdge 1 1).2.createEdge 1 1).2.adjacency 1 =
        storeCycle.adjacency 1 ++ [1, 1] :=
  ⟨by decide, by decide, (createEdge_known storeCycle 1 1 (by decide) (by decide)).2.1,
    (createEdge_known storeCycle 1 1 (by decide) (by decide)).2.2.2.1⟩

theorem labels_mapModify_self (g : GraphStoreLinked V) (k : Int) (lv : LinkedVertices V)
    (f : LinkedVertices V → LinkedVertices V) (h : g.vertex k = some lv) :
    mapLabels (mapModify g.linkedListOfVertices.vertexList k f) k = (f lv).head.labelVec := by
  unfold vertex at h
  unfold mapLabels
  rw [mapFind_mapModify_self, h]
  rfl

theorem labels_of_vertex (g : GraphStoreLinked V) (k : Int) (lv : LinkedVertices V)
    (h : g.vertex k = some lv) : g.labels k = lv.head.labelVec := by
  unfold vertex at h
  unfold labels mapLabels
  rw [h]

/-- C12: `addLabel(k, ls)` returns true exactly when `k` is a key; when it returns true a
string is in the label sequence of `k` afterwards exactly when it was there before or occurs
in `ls`, and every other entry is as before; when it returns false the store is as before. -/
theorem addLabel_spec (g : GraphStoreLinked V) (k : Int) (ls : List String) :
    ((g.addLabel k ls).1 = true ↔ (g.vertex k).isSome = true) ∧
      ((g.addLabel k ls).1 = true →
        (∀ x, x ∈ (g.addLabel k ls).2.labels k ↔ x ∈ g.labels k ∨ x ∈ ls) ∧
          ∀ k1, k1 ≠ k → (g.addLabel k ls).2.vertex k1 = g.vertex k1) ∧
      ((g.addLabel k ls).1 = false → (g.addLabel k ls).2 = g) := by
  rcases addLabel_cases g k ls with ⟨h1, h2⟩ | ⟨lv, h1, h2⟩
  · rw [h2, h1]
    simp
  · rw [h2, h1]
    refine ⟨by simp, ?_, by simp⟩
    intro _
    refine ⟨?_, ?_⟩
    · intro x
      rw [labels_of_vertex g k lv h1]
      unfold labels
      dsimp only
      rw [labels_mapModify_self g k lv _ h1, (labelVec_foldl_addLabel ls lv).mem_iff,
        List.mem_append]
    · intro k1 hk1
      unfold vertex
      dsimp only
      rw [mapFind_mapModify_ne _ _ _ _ hk1]

/-- C13, amended: labels are kept with their multiplicity. After `addLabel(k, ls)` on a
known key every string occurs in the label sequence of `k` as many times as before plus as
many times as it occurs in `ls`; after `removeLabel(k, ls)` a string of `ls` does not occur
any more and every other string occurs as many times as before. -/
theorem label_count (g : GraphStoreLinked V) (k : Int) (ls : List String) (x : String)
    (hk : (g.vertex k).isSome = true) :
    ((g.addLabel k ls).2.labels k).count x = (g.labels k).count x + ls.count x ∧
      ((g.removeLabel k ls).2.labels k).count x =
        if x ∈ ls then 0 else (g.labels k).count x := by
  obtain ⟨lv, hlv⟩ := Option.isSome_iff_exists.mp hk
  refine ⟨?_, ?_⟩
  · rcases addLabel_cases g k ls with ⟨h1, _⟩ | ⟨lv1, h1, h2⟩
    · rw [h1] at hlv; cases hlv
    · rw [h2]
      rw [labels_of_vertex g k lv1 h1]
      unfold labels
      dsimp only
      rw [labels_mapModify_self g k lv1 _ h1, (labelVec_foldl_addLabel ls lv1).count_eq,
        List.count_append]
  · rcases removeLabel_cases g k ls with ⟨h1, _⟩ | ⟨lv1, h1, h2⟩
    · rw [h1] at hlv; cases hlv
    · rw [h2]
      rw [labels_of_vertex g k lv1 h1]
      unfold labels
      dsimp only
      rw [labels_mapModify_self g k lv1 _ h1, (removeLabelLoop_perm ls lv1 true).count_eq]
      by_cases hx : x ∈ ls
      · rw [if_pos hx]
        apply List.count_eq_zero.mpr
        intro hmem
        have := (List.mem_filter.mp hmem).2
        simp [hx] at this
      · rw [if_neg hx]
        exact List.count_filter (by simpa using hx)

theorem label_count_witness :
    (storeLabelled.vertex 1).isSome = true ∧
      ((storeLabelled.addLabel 1 ["a"]).2.labels 1).count "a" =
        (storeLabelled.labels 1).count "a" + ["a"].count "a" :=
  ⟨by decide, (label_count storeLabelled 1 ["a"] "a" (by decide)).1⟩

/-- C13 as stated fails: the vertex labelled "a", "b" holds "a" twice after
`addLabel(1, "a")`, and a vertex without label holds "x" twice after `addLabel(1, "x", "x")`. -/
theorem labels_not_deduplicated :
    storeLabelled.labels 1 = ["a", "b"] ∧
      (storeLabelled.addLabel 1 ["a"]).2.labels 1 = ["a", "a", "b"] ∧
      ((GraphStoreLinked.new.addVertex 1 10).2 : GraphStoreLinked Nat).labels 1 = [] ∧
      (((GraphStoreLinked.new.addVertex 1 10).2 : GraphStoreLinked Nat).addLabel 1
        ["x", "x"]).2.labels 1 = ["x", "x"] := by
  refine ⟨?_, ?_, ?_, ?_⟩ <;> decide

/-- C15, amended: on a known key `removeLabel(k, ls)` returns true exactly when every label
of `ls` was in the label sequence of `k` when the call began and no label occurs twice in
`ls`. -/
theorem removeLabel_true_iff (g : GraphStoreLinked V) (k : Int) (ls : List String)
    (hk : (g.vertex k).isSome = true) :
    (g.removeLabel k ls).1 = true ↔ (∀ x ∈ ls, x ∈ g.labels k) ∧ ls.Nodup := by
  obtain ⟨lv, hlv⟩ := Option.isSome_iff_exists.mp hk
  rcases removeLabel_cases g k ls with ⟨h1, _⟩ | ⟨lv1, h1, h2⟩
  · rw [h1] at hlv; cases hlv
  · rw [h2, labels_of_vertex g k lv1 h1]
    dsimp only
    rw [removeLabelLoop_fst]
    simp

theorem removeLabel_true_iff_witness :
    (storeLabelled.vertex 1).isSome = true ∧
      ((storeLabelled.removeLabel 1 ["b", "a"]).1 = true ↔
        (∀ x ∈ ["b", "a"], x ∈ storeLabelled.labels 1) ∧ ["b", "a"].Nodup) :=
  ⟨by decide, removeLabel_true_iff storeLabelled 1 ["b", "a"] (by decide)⟩

/-- C15 as stated fails: the vertex 1 holds "a", the request `["a", "a"]` only names labels
that are present, and `removeLabel(1, "a", "a")` returns false. -/
theorem removeLabel_repeated_request_false :
    (storeLabelled.vertex 1).isSome = true ∧ (∀ x ∈ ["a", "a"], x ∈ storeLabelled.labels 1) ∧
      (storeLabelled.removeLabel 1 ["a", "a"]).1 = false := by
  refine ⟨?_, ?_, ?_⟩ <;> decide

/-- C16: in a store built by the public operations, after `removeLabel(k, ls)` the label
sequence of `k` is the previous one without the strings of `ls`, the others in their order,
whatever the call returned; every other entry is as before. -/
theorem removeLabel_labels (g : GraphStoreLinked V) (k : Int) (ls : List String)
    (hr : Reachable g) :
    (g.removeLabel k ls).2.labels k = (g.labels k).filter (fun x => decide (x ∉ ls)) ∧
      ∀ k1, k1 ≠ k → (g.removeLabel k ls).2.vertex k1 = g.vertex k1 := by
  rcases removeLabel_cases g k ls with ⟨h1, h2⟩ | ⟨lv, h1, h2⟩
  · rw [h2]
    refine ⟨?_, fun _ _ => rfl⟩
    unfold vertex at h1
    unfold labels mapLabels
    rw [h1]
    rfl
  · rw [h2]
    refine ⟨?_, ?_⟩
    · rw [labels_of_vertex g k lv h1]
      unfold labels
      dsimp only
      rw [labels_mapModify_self g k lv _ h1]
      exact removeLabelLoop_labelVec ls lv true (reachable_labelsSorted hr k lv h1)
    · intro k1 hk1
      unfold vertex
      dsimp only
      rw [mapFind_mapModify_ne _ _ _ _ hk1]

theorem removeLabel_labels_witness :
    Reachable storeTest ∧
      (storeTest.removeLabel 2 ["a", "z"]).2.labels 2 =
        (storeTest.labels 2).filter (fun x => decide (x ∉ ["a", "z"])) :=
  ⟨reachable_storeTest, (removeLabel_labels storeTest 2 ["a", "z"] reachable_storeTest).1⟩

/-- C17: on a key that is not a key of the vertex map `removeLabel(k, ls)` returns true and
leaves the whole store as it was. -/
theorem removeLabel_unknown (g : GraphStoreLinked V) (k : Int) (ls : List String)
    (hk : g.vertex k = none) : g.removeLabel k ls = (true, g) := by
  rcases removeLabel_cases g k ls with ⟨_, h2⟩ | ⟨lv, h1, _⟩
  · exact h2
  · rw [hk] at h1; cases h1

theorem removeLabel_unknown_witness :
    storeTest.vertex 9 = none ∧ storeTest.removeLabel 9 ["a"] = (true, storeTest) :=
  ⟨by decide, removeLabel_unknown storeTest 9 ["a"] (by decide)⟩

end GraphStoreLinked

/-! ## Repeating a query -/

section Repeat

variable {V : Type}

theorem listUnique_head : ∀ (y : Int) (rest : List Int),
    (listUnique (y :: rest)).head? = some y
  | _, [] => rfl
  | y, z :: r => by
    by_cases h : y = z
    · simp only [listUnique, h, if_true]
      exact listUnique_head z r
    · simp [listUnique, h]

theorem chain_listUnique : ∀ l : List Int, List.Chain' (fun a b => a ≠ b) (listUnique l)
  | [] => by simp [listUnique]
  | [_] => by simp [listUnique]
  | x :: y :: rest => by
    have ih := chain_listUnique (y :: rest)
    by_cases h : x = y
    · simp only [listUnique, h, if_true]
      exact ih
    · simp only [listUnique, h, if_false]
      rw [List.chain'_cons']
      refine ⟨?_, ih⟩
      intro z hz
      rw [listUnique_head] at hz
      simp only [Option.mem_def, Option.some.injEq] at hz
      rw [← hz]; exact h

theorem listUnique_eq_self : ∀ l : List Int, List.Chain' (fun a b => a ≠ b) l → listUnique l = l
  | [], _ => rfl
  | [_], _ => rfl
  | x :: y :: rest, h => by
    rw [List.chain'_cons] at h
    simp only [listUnique, h.1, if_false]
    rw [listUnique_eq_self (y :: rest) h.2]

theorem listUnique_sublist : ∀ l : List Int, List.Sublist (listUnique l) l
  | [] => List.Sublist.refl _
  | [_] => List.Sublist.refl _
  | x :: y :: rest => by
    have ih := listUnique_sublist (y :: rest)
    by_cases h : x = y
    · simp only [listUnique, h, if_true]
      exact List.Sublist.cons _ ih
    · simp only [listUnique, h, if_false]
      exact List.Sublist.cons₂ _ ih

theorem listSort_sorted (l : List Int) : List.Sorted (fun a b => a ≤ b) (listSort l) :=
  List.sorted_insertionSort (fun a b : Int => a ≤ b) l

/-- Sorting and deduplicating the edge-key list a second time changes nothing. -/
theorem pool_dedup_idem (l : List Int) :
    listUnique (listSort (listUnique (listSort l))) = listUnique (listSort l) := by
  have h1 : List.Sorted (fun a b : Int => a ≤ b) (listUnique (listSort l)) :=
    List.Pairwise.sublist (listUnique_sublist _) (listSort_sorted l)
  have h2 : listSort (listUnique (listSort l)) = listUnique (listSort l) :=
    List.Sorted.insertionSort_eq h1
  rw [h2]
  exact listUnique_eq_self _ (chain_listUnique _)

theorem mapModify_eq_map (m : List (Int × LinkedVertices V)) (key : Int)
    (f : LinkedVertices V → LinkedVertices V) :
    mapModify m key f = m.map (fun p => (p.1, if p.1 = key then f p.2 else p.2)) := by
  unfold mapModify
  apply List.map_congr_left
  intro p _
  by_cases h : p.1 = key <;> simp [h]

theorem mapSetBoth_eq_map (m : List (Int × LinkedVertices V)) (e d p : Int) :
    mapSetBoth m e d p =
      m.map (fun x => (x.1, if x.1 = e then
        { x.2 with head := { x.2.head with distance := d, previous := p } } else x.2)) := by
  unfold mapSetBoth mapModifyHead
  rw [mapModify_eq_map, mapModify_eq_map, List.map_map]
  apply List.map_congr_left
  intro x _
  by_cases h : x.1 = e <;>
    simp [h, NodeVertex.setVertexDistance, NodeVertex.setPreviousNode]

theorem mapReset_mapSetBoth_cons (m : List (Int × LinkedVertices V)) (e : Int)
    (rest : List Int) :
    mapReset rest (mapSetBoth m e INT_MAX INT_MIN) = mapReset (e :: rest) m := by
  unfold mapReset
  rw [mapSetBoth_eq_map, List.map_map]
  apply List.map_congr_left
  intro x _
  by_cases h1 : x.1 = e <;> by_cases h2 : x.1 ∈ rest <;> simp [h1, h2]

theorem mapReset_mapSetBoth (qb : List Int) (m : List (Int × LinkedVertices V)) (e d p : Int)
    (h : e ∈ qb) : mapReset qb (mapSetBoth m e d p) = mapReset qb m := by
  unfold mapReset
  rw [mapSetBoth_eq_map, List.map_map]
  apply List.map_congr_left
  intro x _
  by_cases h1 : x.1 = e
  · have h2 : x.1 ∈ qb := h1 ▸ h
    simp [h1, h2, h]
  · simp [h1]

theorem mapReset_mapReset (qb : List Int) (m : List (Int × LinkedVertices V)) :
    mapReset qb (mapReset qb m) = mapReset qb m := by
  unfold mapReset
  rw [List.map_map]
  apply List.map_congr_left
  intro x _
  by_cases h : x.1 ∈ qb <;> simp [h]

theorem setStart_mapReset_setStart (qb : List Int) (m : List (Int × LinkedVertices V))
    (start : Int) :
    mapModifyHead (mapReset qb (mapModifyHead m start (fun n => n.setVertexDistance 0))) start
        (fun n => n.setVertexDistance 0) =
      mapModifyHead (mapReset qb m) start (fun n => n.setVertexDistance 0) := by
  unfold mapModifyHead mapReset
  rw [mapModify_eq_map, mapModify_eq_map, mapModify_eq_map, List.map_map, List.map_map,
    List.map_map]
  apply List.map_congr_left
  intro x _
  obtain ⟨k, lv⟩ := x
  by_cases h1 : k = start
  · subst h1
    by_cases h2 : k ∈ qb <;> simp [h2, NodeVertex.setVertexDistance]
  · by_cases h2 : k ∈ qb <;> simp [h1, h2, NodeVertex.setVertexDistance]

/-- When the reset loop returns, its result is the map with the listed keys reset, and all
the listed keys are keys of the map. -/
theorem resetLoop_eq (l : List Int) :
    ∀ (m m0 : List (Int × LinkedVertices V)), LinkedListOfVertices.resetLoop m l = some m0 →
      m0 = mapReset l m ∧ ∀ k ∈ l, (mapFind m k).isSome = true := by
  induction l with
  | nil =>
    intro m m0 h
    simp only [LinkedListOfVertices.resetLoop, Option.some.injEq] at h
    subst h
    refine ⟨?_, by simp⟩
    unfold mapReset
    simp
  | cons e rest ih =>
    intro m m0 h
    rw [resetLoop_cons] at h
    cases h1 : mapFind m e with
    | none => simp [h1] at h
    | some lv =>
      simp only [h1] at h
      obtain ⟨h2, h3⟩ := ih _ _ h
      refine ⟨by rw [h2, mapReset_mapSetBoth_cons], ?_⟩
      intro k hk
      rcases List.mem_cons.mp hk with h4 | h4
      · rw [h4, h1]; rfl
      · rw [← (sameGraph_mapSetBoth m e INT_MAX INT_MIN).isSome]
        exact h3 k h4

/-- The relaxation of edges that lead into `qb` only writes search fields of keys of `qb`. -/
theorem relaxEdges_mapReset (qb : List Int) (u : Int) (label : List String) (es : List Int) :
    ∀ (m m1 : List (Int × LinkedVertices V)),
      LinkedListOfVertices.relaxEdges u label m es = some m1 → (∀ e ∈ es, e ∈ qb) →
      mapReset qb m1 = mapReset qb m := by
  induction es with
  | nil =>
    intro m m1 h _
    simp only [LinkedListOfVertices.relaxEdges, Option.some.injEq] at h
    rw [h]
  | cons e rest ih =>
    intro m m1 h hes
    rw [relaxEdges_cons] at h
    cases h1 : mapFind m u with
    | none => simp [h1] at h
    | some lu =>
      cases h2 : mapFind m e with
      | none => simp [h1, h2] at h
      | some le =>
        simp only [h1, h2] at h
        have hrest : ∀ x ∈ rest, x ∈ qb := fun x hx => hes x (List.mem_cons_of_mem _ hx)
        split_ifs at h with hc
        · rw [ih _ _ h hrest]
          exact mapReset_mapSetBoth qb m e _ _ (hes e (List.mem_cons_self _ _))
        · exact ih _ _ h hrest

/-- When all edges lead into `qb`, the selection loop only writes search fields of keys of
`qb`. -/
theorem whileLoop_mapReset (qb : List Int) (stop : Int) (label : List String) (fuel : Nat) :
    ∀ (m : List (Int × LinkedVertices V)) (q : List Int) (t : Int)
      (m1 : List (Int × LinkedVertices V)) (q1 : List Int) (t1 : Int),
      LinkedListOfVertices.whileLoop stop label fuel m q t = some (m1, q1, t1) →
      (∀ a b, b ∈ mapAdj m a → b ∈ qb) → mapReset qb m1 = mapReset qb m := by
  induction fuel with
  | zero =>
    intro m q t m1 q1 t1 h _
    cases q with
    | nil =>
      rw [whileLoop_nil] at h
      simp only [Option.some.injEq, Prod.mk.injEq] at h
      rw [h.1]
    | cons a rest => simp [LinkedListOfVertices.whileLoop] at h
  | succ fuel ih =>
    intro m q t m1 q1 t1 h hadj
    cases q with
    | nil =>
      rw [whileLoop_nil] at h
      simp only [Option.some.injEq, Prod.mk.injEq] at h
      rw [h.1]
    | cons a rest =>
      rw [whileLoop_cons] at h
      cases hs : LinkedListOfVertices.selectMin m a (a :: rest) with
      | none => simp [hs] at h
      | some u =>
        cases hf : mapFind m u with
        | none => simp [hs, hf] at h
        | some lu =>
          cases hr : LinkedListOfVertices.relaxEdges u label m lu.returnEdges with
          | none => simp [hs, hf, hr] at h
          | some m2 =>
            simp only [hs, hf, hr] at h
            have hsg := relaxEdges_sameGraph u label _ m m2 hr
            have hadj2 : ∀ a b, b ∈ mapAdj m2 a → b ∈ qb := by
              intro a b hab
              rw [hsg.mapAdj] at hab
              exact hadj a b hab
            have hes : ∀ e ∈ lu.returnEdges, e ∈ qb := by
              intro e he
              apply hadj u e
              simp only [mapAdj, hf]
              exact he
            rw [ih _ _ _ _ _ _ h hadj2]
            exact relaxEdges_mapReset qb u label _ m m2 hr hes

/-- A query on the store left by the same query returns the same boolean and leaves the
store, recorded path included, as it is. -/
theorem findShortestPath_repeat (s s1 : LinkedListOfVertices V) (start stop : Int)
    (label : List String) (r : Bool) (hwf : WellFormed s)
    (h : s.findShortestPath start stop label = some (r, s1)) :
    s1.findShortestPath start stop label = some (r, s1) := by
  have h0 := h
  unfold LinkedListOfVertices.findShortestPath at h
  cases h1 : mapFind s.vertexList start with
  | none =>
    simp only [h1, Option.some.injEq, Prod.mk.injEq] at h
    rw [← h.2, ← h.1] at h0 ⊢
    exact h0
  | some ls =>
    cases h2 : mapFind s.vertexList stop with
    | none =>
      simp only [h1, h2, Option.some.injEq, Prod.mk.injEq] at h
      rw [← h.2, ← h.1] at h0 ⊢
      exact h0
    | some lt =>
      simp only [h1, h2] at h
      cases h3 : LinkedListOfVertices.resetLoop s.vertexList (listUnique (listSort s.qBackUp)) with
      | none => simp [h3] at h
      | some m0 =>
        simp only [h3] at h
        cases h4 : LinkedListOfVertices.whileLoop stop label
            (listUnique (listSort s.qBackUp)).length
            (mapModifyHead m0 start (fun n => n.setVertexDistance 0))
            (listUnique (listSort s.qBackUp)) 0 with
        | none => simp [h4] at h
        | some res =>
          obtain ⟨m2, q2, t2⟩ := res
          simp only [h4] at h
          cases h5 : LinkedListOfVertices.reconstruct m2
              ((listUnique (listSort s.qBackUp)).length + 1) t2 [] with
          | none => simp [h5] at h
          | some path =>
            simp only [h5, Option.some.injEq, Prod.mk.injEq] at h
            obtain ⟨hr, hs1⟩ := h
            obtain ⟨hm0, hkeys⟩ := resetLoop_eq _ _ _ h3
            have hsg0 : SameGraph s.vertexList m0 := resetLoop_sameGraph _ _ _ h3
            have hsg1 : SameGraph s.vertexList
                (mapModifyHead m0 start (fun n => n.setVertexDistance 0)) :=
              hsg0.trans (sameGraph_setStart m0 start)
            have hsg2 : SameGraph s.vertexList m2 :=
              hsg1.trans (whileLoop_sameGraph _ _ _ _ _ _ _ _ _ h4).1
            have hadj : ∀ a b,
                b ∈ mapAdj (mapModifyHead m0 start (fun n => n.setVertexDistance 0)) a →
                b ∈ listUnique (listSort s.qBackUp) := by
              intro a b hab
              rw [hsg1.mapAdj] at hab
              exact (mem_pool_dedup _ _).mpr (hwf.adj a b hab).2
            have hloop := whileLoop_mapReset (listUnique (listSort s.qBackUp)) stop label _ _ _ _
              _ _ _ h4 hadj
            -- the second run
            obtain ⟨ls2, hls2⟩ := Option.isSome_iff_exists.mp (by
              rw [hsg2.isSome, h1]; rfl : (mapFind m2 start).isSome = true)
            obtain ⟨lt2, hlt2⟩ := Option.isSome_iff_exists.mp (by
              rw [hsg2.isSome, h2]; rfl : (mapFind m2 stop).isSome = true)
            obtain ⟨m0b, hreset2, _, _⟩ := resetLoop_spec (listUnique (listSort s.qBackUp)) m2
              (fun k hk => by rw [hsg2.isSome]; exact hkeys k hk)
            have hm0b := (resetLoop_eq _ _ _ hreset2).1
            have hstate : mapModifyHead m0b start (fun n => n.setVertexDistance 0) =
                mapModifyHead m0 start (fun n => n.setVertexDistance 0) := by
              rw [hm0b, hloop, hm0, setStart_mapReset_setStart, mapReset_mapReset]
            rw [← hs1, ← hr]
            unfold LinkedListOfVertices.findShortestPath
            simp only [hls2, hlt2, pool_dedup_idem, hreset2, hstate, h4, h5]

end Repeat

namespace GraphStoreLinked

variable {V : Type}

/-- In a store built by the public operations, when a query returns a boolean and a store,
the same query on that store returns the same boolean and leaves that store as it is. -/
theorem shortestPath_repeat (g g1 : GraphStoreLinked V) (start stop : Int)
    (label : List String) (r : Bool) (hr : Reachable g)
    (h : g.shortestPath start stop label = some (r, g1)) :
    g1.shortestPath start stop label = some (r, g1) := by
  have hwf := reachable_wellFormed hr
  unfold shortestPath at h ⊢
  cases hf : g.linkedListOfVertices.findShortestPath start stop label with
  | none => simp [hf] at h
  | some res =>
    obtain ⟨r1, s1⟩ := res
    simp only [hf, Option.map_some', Option.some.injEq, Prod.mk.injEq] at h
    obtain ⟨h1, h2⟩ := h
    subst h1
    rw [← h2]
    dsimp only
    rw [findShortestPath_repeat _ s1 start stop label r1 hwf hf]
    rfl

end GraphStoreLinked


/-! ## Nothing is deleted -/

namespace GraphStoreLinked

variable {V : Type}

theorem kept_refl (g : GraphStoreLinked V) : g.Kept g :=
  fun _ lv h => ⟨lv, h, rfl, rfl, List.prefix_refl _⟩

/-- A store whose map is the old one with one entry rewritten by a function that keeps the
id and the payload and extends the adjacency sequence keeps everything. -/
theorem kept_mapModify (g g1 : GraphStoreLinked V) (k0 : Int)
    (f : LinkedVertices V → LinkedVertices V)
    (hf : ∀ lv, (f lv).head.id = lv.head.id ∧ (f lv).head.data = lv.head.data ∧
      lv.nodes <+: (f lv).nodes)
    (h : g1.linkedListOfVertices.vertexList = mapModify g.linkedListOfVertices.vertexList k0 f) :
    g.Kept g1 := by
  intro k lv hk
  unfold vertex at hk ⊢
  rw [h, mapFind_mapModify, hk]
  by_cases hkk : k = k0
  · exact ⟨f lv, by simp [hkk], (hf lv).1, (hf lv).2.1, (hf lv).2.2⟩
  · exact ⟨lv, by simp [hkk], rfl, rfl, List.prefix_refl _⟩

/-- Two maps with the same graph keep everything. -/
theorem kept_of_sameGraph (g g1 : GraphStoreLinked V)
    (h : SameGraph g.linkedListOfVertices.vertexList g1.linkedListOfVertices.vertexList) :
    g.Kept g1 := by
  intro k lv hk
  unfold vertex at hk ⊢
  have hk1 := h k
  rw [hk] at hk1
  cases h1 : mapFind g1.linkedListOfVertices.vertexList k with
  | none => simp [h1] at hk1
  | some lv1 =>
    simp only [h1, Option.map_some', Option.some.injEq, LinkedVertices.persistent,
      Prod.mk.injEq] at hk1
    refine ⟨lv1, rfl, hk1.1, hk1.2.1, ?_⟩
    rw [hk1.2.2.2]

/-- C21: no public operation deletes anything. For every store `g`, after `addVertex`,
`createEdge`, `addLabel`, `removeLabel`, a returning `shortestPath`, `getVertexInfo` and
`disableOutputPrint`, each vertex key present before is present after with the same id and
payload, and its previous adjacency sequence is a prefix of its adjacency sequence after. -/
theorem nothing_deleted (g : GraphStoreLinked V) :
    (∀ key info, g.Kept (g.addVertex key info).2) ∧
    (∀ start stop, g.Kept (g.createEdge start stop).2) ∧
    (∀ key label, g.Kept (g.addLabel key label).2) ∧
    (∀ key label, g.Kept (g.removeLabel key label).2) ∧
    (∀ start stop label r g1, g.shortestPath start stop label = some (r, g1) → g.Kept g1) ∧
    (∀ key, g.Kept (g.getVertexInfo key)) ∧
    g.Kept g.disableOutputPrint := by
  refine ⟨?_, ?_, ?_, ?_, ?_, ?_, ?_⟩
  · intro key info
    rcases addVertex_cases g key info with ⟨_, h2⟩ | ⟨h1, h2⟩
    · rw [h2]; exact kept_refl g
    · rw [h2]
      intro k lv hk
      have hne : k ≠ key := by
        intro e
        rw [e, h1] at hk
        simp at hk
      refine ⟨lv, ?_, rfl, rfl, List.prefix_refl _⟩
      unfold vertex at hk ⊢
      simpa only [mapFind_mapInsert_ne _ _ _ _ hne] using hk
  · intro start stop
    rcases createEdge_cases g start stop with h | ⟨_, _, h⟩
    · rw [h]; exact kept_refl g
    · rw [h]
      refine kept_mapModify g _ start (fun lv => lv.insertNodeVertex stop) ?_ rfl
      intro lv
      exact ⟨rfl, rfl, List.prefix_append _ _⟩
  · intro key label
    rcases addLabel_cases g key label with ⟨_, h⟩ | ⟨_, _, h⟩
    · rw [h]; exact kept_refl g
    · rw [h]
      refine kept_mapModify g _ key (fun lv => label.foldl LinkedVertices.addLabel lv) ?_ rfl
      intro lv
      have hfr := foldl_addLabel_frame label lv
      refine ⟨hfr.2.1, hfr.2.2.1, ?_⟩
      rw [hfr.1]
  · intro key label
    rcases removeLabel_cases g key label with ⟨_, h⟩ | ⟨_, _, h⟩
    · rw [h]; exact kept_refl g
    · rw [h]
      refine kept_mapModify g _ key
        (fun lv => (LinkedListOfVertices.removeLabelLoop lv true label).2) ?_ rfl
      intro lv
      have hfr := removeLabelLoop_frame label lv true
      refine ⟨hfr.2.1, hfr.2.2.1, ?_⟩
      rw [hfr.1]
  · intro start stop label r g1 h
    exact kept_of_sameGraph g g1 (shortestPath_sameGraph g g1 start stop label r h).1
  · intro key
    exact kept_refl g
  · exact kept_refl g

theorem nothing_deleted_witness :
    ∃ g1, storeCycle.shortestPath 1 2 [] = some (true, g1) ∧ storeCycle.Kept g1 ∧
      storeCycle.Kept (storeCycle.createEdge 2 2).2 :=
  ⟨_, rfl, (nothing_deleted storeCycle).2.2.2.2.1 1 2 [] true _ rfl,
    (nothing_deleted storeCycle).2.1 2 2⟩

end GraphStoreLinked

/-! ## The relaxation rule, the label of the start vertex and the failing lookup -/

namespace GraphStoreLinked

variable {V : Type}

/-- C22 fails on the code: in the query from 1 to 5 on `storeTie`, after vertices 1 and 2
were processed, vertex 5 has distance 2 and predecessor 2, and vertex 4 has distance 1. The
relaxation loop of vertex 4 finds the distance of 5 equal to the distance of 4 plus 1 and
still rewrites the predecessor of 5 to 4; the query records the path `[1, 4]`. -/
theorem relaxEdges_tie_rewrites_predecessor :
    mapDist tieMap 4 = 1 ∧ mapDist tieMap 5 = 2 ∧ mapPrev tieMap 5 = 2 ∧
      (5 : Int) ∈ mapAdj tieMap 4 ∧
      (∃ m1, LinkedListOfVertices.relaxEdges 4 [] tieMap [5] = some m1 ∧
        mapDist m1 5 = 2 ∧ mapPrev m1 5 = 4) ∧
      (LinkedListOfVertices.resetLoop storeTie.linkedListOfVertices.vertexList [1, 2, 4, 5]).bind
          (fun m0 => LinkedListOfVertices.whileLoop 5 [] 4
            (mapModifyHead m0 1 (fun n => n.setVertexDistance 0)) [1, 2, 4, 5] 0) =
        LinkedListOfVertices.whileLoop 5 [] 2 tieMap [4, 5] 0 ∧
      ∃ g1, storeTie.shortestPath 1 5 [] = some (true, g1) ∧ g1.recordedPath = [1, 4] := by
  refine ⟨by decide, by decide, by decide, by decide, ⟨_, rfl, by decide, by decide⟩, by decide,
    ⟨_, rfl, by decide⟩⟩

/-- C22 (amended): the relaxation loop of a processed vertex `u` with adjacency `es` returns,
and it rewrites the search distance and the predecessor of a vertex `v` only if `v` is in
`es`, the distance of `u` is strictly less than the current distance of `v`, and `v` passes
the filter: then `v` gets the distance of `u` plus 1 and the predecessor `u`, and every other
vertex keeps its record. A `v` of `es` that passes the filter and whose current distance
already equals the distance of `u` plus 1 keeps that distance and gets the predecessor
`u`. -/
theorem relaxEdges_rule (u : Int) (label : List String) (es : List Int)
    (m : List (Int × LinkedVertices V)) (hu : (mapFind m u).isSome = true)
    (hes : ∀ e ∈ es, (mapFind m e).isSome = true) (h0 : 0 ≤ mapDist m u)
    (hmax : ∀ e ∈ es, mapDist m e ≤ INT_MAX) :
    ∃ m1, LinkedListOfVertices.relaxEdges u label m es = some m1 ∧
      (∀ v, ¬ (v ∈ es ∧ mapDist m u < mapDist m v ∧ mapHasLabel m v label = true) →
        mapFind m1 v = mapFind m v) ∧
      (∀ v, v ∈ es → mapDist m u < mapDist m v → mapHasLabel m v label = true →
        mapDist m1 v = mapDist m u + 1 ∧ mapPrev m1 v = u) ∧
      (∀ v, v ∈ es → mapDist m v = mapDist m u + 1 → mapHasLabel m v label = true →
        mapDist m1 v = mapDist m v ∧ mapPrev m1 v = u) := by
  obtain ⟨m1, h1, h2, h3⟩ := relaxEdges_spec u label es m hu hes h0 hmax
  refine ⟨m1, h1, h3, fun v a b c => h2 v ⟨a, b, c⟩, ?_⟩
  intro v a b c
  have := h2 v ⟨a, by omega, c⟩
  exact ⟨by rw [this.1, b], this.2⟩

theorem relaxEdges_rule_witness :
    (mapFind tieMap 4).isSome = true ∧ 0 ≤ mapDist tieMap 4 ∧
      ∃ m1, LinkedListOfVertices.relaxEdges 4 [] tieMap [5] = some m1 ∧
        (∀ v, ¬ (v ∈ [5] ∧ mapDist tieMap 4 < mapDist tieMap v ∧
            mapHasLabel tieMap v [] = true) →
          mapFind m1 v = mapFind tieMap v) ∧
        (∀ v, v ∈ [5] → mapDist tieMap 4 < mapDist tieMap v → mapHasLabel tieMap v [] = true →
          mapDist m1 v = mapDist tieMap 4 + 1 ∧ mapPrev m1 v = 4) ∧
        (∀ v, v ∈ [5] → mapDist tieMap v = mapDist tieMap 4 + 1 →
          mapHasLabel tieMap v [] = true → mapDist m1 v = mapDist tieMap v ∧ mapPrev m1 v = 4) :=
  ⟨by decide, by decide,
    relaxEdges_rule 4 [] [5] tieMap (by decide) (by decide) (by decide) (by decide)⟩

theorem reachable_storeUnlabelledStart : Reachable storeUnlabelledStart :=
  Reachable.createEdge _ 1 2 (Reachable.addLabel _ 2 ["a"]
    (Reachable.addVertex _ 2 20 (Reachable.addVertex _ 1 10 Reachable.new)))

/-- C24 fails on the code: in `storeUnlabelledStart` the vertices 1 and 2 are the endpoints
of the edge 1 -> 2 and only vertex 2 has the label "a"; `shortestPath(1, 2, ["a"])` returns
true with the recorded path `[1]`, although vertex 1 does not pass `hasLabel(["a"])`. -/
theorem shortestPath_start_label_unchecked :
    Reachable storeUnlabelledStart ∧ (1 : Int) ∈ storeUnlabelledStart.pool ∧
      (2 : Int) ∈ storeUnlabelledStart.pool ∧ storeUnlabelledStart.labels 1 = [] ∧
      ¬ storeUnlabelledStart.passes ["a"] 1 ∧
      ∃ g1, storeUnlabelledStart.shortestPath 1 2 ["a"] = some (true, g1) ∧
        g1.recordedPath = [1] ∧ (1 : Int) ∈ g1.recordedPath :=
  ⟨reachable_storeUnlabelledStart, by decide, by decide, by decide, by decide,
    ⟨_, rfl, by decide, by decide⟩⟩

theorem reachable_storeNoEdges : Reachable storeNoEdges :=
  Reachable.addVertex _ 2 20 (Reachable.addVertex _ 1 10 Reachable.new)

/-- C25 fails on the code: in `storeNoEdges` the keys 1 and 2 are known and the edge-key list
is empty. In `shortestPath(1, 2, [])` the selection loop does not run, the remembered key
is still its initial value 0, which is no key of the map, and the first lookup of the path
reconstruction fails. -/
theorem shortestPath_lookup_fails :
    Reachable storeNoEdges ∧ (storeNoEdges.vertex 1).isSome = true ∧
      (storeNoEdges.vertex 2).isSome = true ∧ storeNoEdges.pool = [] ∧
      LinkedListOfVertices.whileLoop 2 [] 0 storeNoEdges.linkedListOfVertices.vertexList [] 0 =
        some (storeNoEdges.linkedListOfVertices.vertexList, [], 0) ∧
      storeNoEdges.vertex 0 = none ∧
      LinkedListOfVertices.reconstruct storeNoEdges.linkedListOfVertices.vertexList 1 0 [] =
        none ∧
      storeNoEdges.shortestPath 1 2 [] = none :=
  ⟨reachable_storeNoEdges, by decide, by decide, by decide, by decide, by decide, by decide,
    by decide⟩

/-- C26 fails on the code: with `a = INT_MIN` and `b = 0`, after `addVertex(a, x)`,
`addVertex(b, y)` and `createEdge(a, b)` both calls to `addVertex` and the call to
`createEdge` return true, the relaxation gives `b` the predecessor `INT_MIN`, which is the
value that ends the path reconstruction, and `shortestPath(a, b, [])` returns false with an
empty recorded path. -/
theorem sentinel_key_not_usable :
    ((GraphStoreLinked.new : GraphStoreLinked Nat).addVertex INT_MIN 1).1 = true ∧
      (((GraphStoreLinked.new : GraphStoreLinked Nat).addVertex INT_MIN 1).2.addVertex 0 2).1 =
        true ∧
      ((((GraphStoreLinked.new : GraphStoreLinked Nat).addVertex INT_MIN 1).2.addVertex
        0 2).2.createEdge INT_MIN 0).1 = true ∧
      ∃ g1, (twoVertexStore INT_MIN 0 1 2 : GraphStoreLinked Nat).shortestPath INT_MIN 0 [] =
          some (false, g1) ∧
        g1.recordedPath = [] ∧ g1.vertex 0 ≠ none ∧
        mapPrev g1.linkedListOfVertices.vertexList 0 = INT_MIN :=
  ⟨by decide, by decide, by decide, ⟨_, rfl, by decide, by decide, by decide⟩⟩

end GraphStoreLinked

/-! ## The query on a store of two vertices and one edge -/

namespace GraphStoreLinked

variable {V : Type}

theorem pool_addVertex (g : GraphStoreLinked V) (k : Int) (x : V) :
    (g.addVertex k x).2.pool = g.pool := by
  rcases addVertex_cases g k x with ⟨_, h⟩ | ⟨_, h⟩
  · rw [h]
  · rw [h]; rfl

theorem adjacency_addVertex_nil (g : GraphStoreLinked V) (k : Int) (x : V)
    (h : ∀ c, g.adjacency c = []) : ∀ c, (g.addVertex k x).2.adjacency c = [] := by
  intro c
  rw [List.eq_nil_iff_forall_not_mem]
  intro d hd
  have := edge_addVertex g k x c d hd
  unfold Edge at this
  have hc := h c
  unfold adjacency at hc
  rw [hc] at this
  simp at this

/-- The vertices, the edge-key list and the adjacency sequences of the store of two vertices
and one edge. -/
theorem twoVertexStore_spec (a b : Int) (x y : V) :
    Reachable (twoVertexStore a b x y) ∧ ((twoVertexStore a b x y).vertex a).isSome = true ∧
      ((twoVertexStore a b x y).vertex b).isSome = true ∧
      (twoVertexStore a b x y).pool = [a, b] ∧
      ∀ k, (twoVertexStore a b x y).adjacency k = if k = a then [b] else [] := by
  have ha : (((GraphStoreLinked.new.addVertex a x).2.addVertex b y).2.vertex a).isSome = true :=
    vertex_isSome_addVertex _ b y a (Or.inr (vertex_isSome_addVertex _ a x a (Or.inl rfl)))
  have hb : (((GraphStoreLinked.new.addVertex a x).2.addVertex b y).2.vertex b).isSome = true :=
    vertex_isSome_addVertex _ b y b (Or.inl rfl)
  have hadj : ∀ c, ((GraphStoreLinked.new.addVertex a x).2.addVertex b y).2.adjacency c = [] :=
    adjacency_addVertex_nil _ b y (adjacency_addVertex_nil _ a x (fun _ => rfl))
  have hpool : ((GraphStoreLinked.new.addVertex a x).2.addVertex b y).2.pool = [] := by
    rw [pool_addVertex, pool_addVertex]; rfl
  refine ⟨?_, ?_, ?_, ?_, ?_⟩
  · exact Reachable.createEdge _ a b
      (Reachable.addVertex _ b y (Reachable.addVertex _ a x Reachable.new))
  · unfold twoVertexStore
    rw [vertex_isSome_createEdge]; exact ha
  · unfold twoVertexStore
    rw [vertex_isSome_createEdge]; exact hb
  · unfold twoVertexStore
    rw [createEdge_known_eq _ a b ha hb]
    unfold pool at hpool ⊢
    simp [hpool]
  · intro k
    unfold twoVertexStore
    rw [adjacency_createEdge _ a b ha hb, hadj k]
    simp

/-- The empty filter is passed by every known vertex. -/
theorem mapHasLabel_nil (m : List (Int × LinkedVertices V)) (k : Int)
    (h : (mapFind m k).isSome = true) : mapHasLabel m k [] = true := by
  obtain ⟨lv, hlv⟩ := Option.isSome_iff_exists.mp h
  have hinc : ∀ l : List String, includes l [] = true := by
    intro l; cases l <;> rfl
  simp only [mapHasLabel, hlv, NodeVertex.hasLabel, hinc]

/-- C26 (amended): every int other than `INT_MIN` is usable as the key of the source of an
edge, and every int as the key of its target. For any two distinct ints `a` and `b` with
`a` different from `INT_MIN` and any payloads, starting from the empty store, after
`addVertex(a, x)`, `addVertex(b, y)` and `createEdge(a, b)`, the query
`shortestPath(a, b, [])` with the empty filter returns true and the recorded path is
`[a]`. -/
theorem two_vertex_query (a b : Int) (x y : V) (hab : a ≠ b) (ha : a ≠ INT_MIN) :
    ∃ g1, (twoVertexStore a b x y).shortestPath a b [] = some (true, g1) ∧
      g1.recordedPath = [a] := by
  obtain ⟨hr, hva, hvb, hpool, hadj⟩ := twoVertexStore_spec a b x y
  have hwf := reachable_wellFormed hr
  have hstart : a ∈ (twoVertexStore a b x y).linkedListOfVertices.qBackUp := by
    have : a ∈ (twoVertexStore a b x y).pool := by rw [hpool]; simp
    exact this
  have hstop : b ∈ (twoVertexStore a b x y).linkedListOfVertices.qBackUp := by
    have : b ∈ (twoVertexStore a b x y).pool := by rw [hpool]; simp
    exact this
  obtain ⟨m2, qv, p, t, hq, hsg, hinv, hqv, e1, e2, e3, e4, e5⟩ :=
    findShortestPath_spec (twoVertexStore a b x y).linkedListOfVertices a b [] hwf hstart hstop
  have hstopIn := (mem_pool_dedup _ _).mpr hstop
  have hadj2 : ∀ k, mapAdj m2 k = if k = a then [b] else [] := by
    intro k
    rw [hsg.mapAdj]
    exact hadj k
  have hns : ∀ k ∈ listUnique (listSort (twoVertexStore a b x y).linkedListOfVertices.qBackUp),
      mapAdj m2 k ≠ [] → k ≠ INT_MIN := by
    intro k _ hk
    rw [hadj2 k] at hk
    by_cases hka : k = a
    · rw [hka]; exact ha
    · simp [hka] at hk
  have hch : List.Chain (fun a b => b ∈ mapAdj m2 a ∧ mapHasLabel m2 b [] = true) a [b] := by
    refine List.Chain.cons ⟨?_, ?_⟩ List.Chain.nil
    · rw [hadj2 a]; simp
    · rw [hsg.mapHasLabel]
      exact mapHasLabel_nil _ b hvb
  have hd0 : mapDist m2 a ≤ 0 := by rw [hinv.dstart.1]
  have hreach := walk_reaches hinv hns hstopIn hqv [b] a 0 hch rfl (Or.inl rfl) hd0
    (by unfold INT_MAX; simp)
  have hprev : mapPrev m2 b ≠ INT_MIN := by
    rcases hreach with h | h
    · exact absurd h.symm hab
    · exact h
  have hlow := walk_lower_bound hinv hstopIn hqv [b] a 0 hch rfl (Or.inl hd0)
  simp only [List.length_singleton, Nat.cast_one, zero_add] at hlow
  have hp : p = [a] := by
    cases p with
    | nil =>
      have : b = t := by simpa using e1
      rw [← this] at e2
      exact absurd e2 hprev
    | cons c rest =>
      have hc := e5 c (List.mem_cons_self _ _)
      have hc0 := (hinv.rng c hc.1).1
      have hct : c = t := by simpa using e1
      rw [← hct] at e3
      simp only [List.length_cons, Nat.cast_add, Nat.cast_one] at e3
      have hrest : rest = [] := by
        apply List.eq_nil_of_length_eq_zero
        omega
      subst hrest
      have hcb : b ∈ mapAdj m2 c := by
        simp only [List.singleton_append, List.chain'_cons, List.chain'_singleton,
          and_true] at e4
        exact e4.1
      rw [hadj2 c] at hcb
      by_cases hca : c = a
      · rw [hca]
      · simp [hca] at hcb
  subst hp
  refine ⟨{ linkedListOfVertices :=
      { (twoVertexStore a b x y).linkedListOfVertices with
        vertexList := m2, q := [],
        qBackUp := listUnique (listSort (twoVertexStore a b x y).linkedListOfVertices.qBackUp),
        path := [a] } }, ?_, rfl⟩
  unfold GraphStoreLinked.shortestPath
  rw [hq]
  rfl

theorem two_vertex_query_witness :
    (5 : Int) ≠ INT_MIN ∧
      ∃ g1, (twoVertexStore 5 INT_MIN 1 2 : GraphStoreLinked Nat).shortestPath 5 INT_MIN [] =
          some (true, g1) ∧
        g1.recordedPath = [5] :=
  ⟨by decide, two_vertex_query 5 INT_MIN 1 2 (by decide) (by decide)⟩

end GraphStoreLinked

/-! ## Bounds of the two loops of a query -/

section LoopBounds

variable {V : Type}

/-- A selection loop that returns with some fuel returns the same with more fuel. -/
theorem whileLoop_mono (stop : Int) (label : List String) (fuel : Nat) :
    ∀ (m : List (Int × LinkedVertices V)) (q : List Int) (t : Int)
      (r : List (Int × LinkedVertices V) × List Int × Int),
      LinkedListOfVertices.whileLoop stop label fuel m q t = some r →
      ∀ fuel1, fuel ≤ fuel1 → LinkedListOfVertices.whileLoop stop label fuel1 m q t = some r := by
  induction fuel with
  | zero =>
    intro m q t r h fuel1 _
    cases q with
    | nil =>
      rw [whileLoop_nil] at h ⊢
      exact h
    | cons a rest => simp [LinkedListOfVertices.whileLoop] at h
  | succ fuel ih =>
    intro m q t r h fuel1 hle
    cases q with
    | nil =>
      rw [whileLoop_nil] at h ⊢
      exact h
    | cons a rest =>
      obtain ⟨k, rfl⟩ : ∃ k, fuel1 = k + 1 := ⟨fuel1 - 1, by omega⟩
      rw [whileLoop_cons] at h ⊢
      cases hs : LinkedListOfVertices.selectMin m a (a :: rest) with
      | none => simp [hs] at h
      | some u =>
        cases hf : mapFind m u with
        | none => simp [hs, hf] at h
        | some lu =>
          cases hr : LinkedListOfVertices.relaxEdges u label m lu.returnEdges with
          | none => simp [hs, hf, hr] at h
          | some m2 =>
            simp only [hs, hf, hr] at h ⊢
            exact ih _ _ _ _ h k (by omega)

/-- When every key of `qb` has distance `INT_MAX`, the selection loop returns with enough
fuel and rewrites no record. -/
theorem whileLoop_idle (qb : List Int) (stop : Int) (label : List String) (fuel : Nat) :
    ∀ (m : List (Int × LinkedVertices V)) (q : List Int) (t : Int),
      (∀ k ∈ qb, (mapFind m k).isSome = true) → (∀ a b, b ∈ mapAdj m a → b ∈ qb) →
      (∀ k ∈ qb, mapDist m k = INT_MAX) → (∀ k ∈ q, k ∈ qb) → q.length ≤ fuel →
      ∃ m1 t1, LinkedListOfVertices.whileLoop stop label fuel m q t = some (m1, [], t1) ∧
        (∀ v, mapFind m1 v = mapFind m v) ∧ (stop ∈ q → t1 = stop) ∧ (stop ∉ q → t1 = t) := by
  induction fuel with
  | zero =>
    intro m q t _ _ _ _ hlen
    cases q with
    | nil => exact ⟨m, t, whileLoop_nil _ _ _ _ _, fun _ => rfl, by simp, by simp⟩
    | cons a rest => simp at hlen
  | succ fuel ih =>
    intro m q t hkeys hadj hfar hq hlen
    cases q with
    | nil => exact ⟨m, t, whileLoop_nil _ _ _ _ _, fun _ => rfl, by simp, by simp⟩
    | cons a rest =>
      have hkq : ∀ k ∈ a :: rest, (mapFind m k).isSome = true := fun k hk => hkeys k (hq k hk)
      obtain ⟨u, hs, hmem, _, _⟩ :=
        selectMin_spec m (a :: rest) a (hkq a (List.mem_cons_self _ _)) hkq
      have hu : u ∈ a :: rest := by
        rcases hmem with h | h
        · rw [h]; exact List.mem_cons_self _ _
        · exact h
      have huqb : u ∈ qb := hq u hu
      obtain ⟨lu, hlu⟩ := Option.isSome_iff_exists.mp (hkeys u huqb)
      have hadju : mapAdj m u = lu.returnEdges := by
        simp [mapAdj, hlu, LinkedVertices.returnEdges]
      have hmax := int_max_pos
      obtain ⟨m1, hr, _, hkeep⟩ := relaxEdges_spec u label lu.returnEdges m (hkeys u huqb)
        (by intro e he; rw [← hadju] at he; exact hkeys e (hadj u e he))
        (by rw [hfar u huqb]; omega)
        (by intro e he; rw [← hadju] at he; rw [hfar e (hadj u e he)])
      rw [← hadju] at hkeep
      have hsame : ∀ v, mapFind m1 v = mapFind m v := by
        intro v
        apply hkeep v
        intro hc
        have h1 := hfar v (hadj u v hc.1)
        have h2 := hfar u huqb
        omega
      have hlen2 := length_listRemove_lt (a :: rest) u hu
      have hkeys1 : ∀ k ∈ qb, (mapFind m1 k).isSome = true := by
        intro k hk; rw [hsame k]; exact hkeys k hk
      have hadj1 : ∀ a b, b ∈ mapAdj m1 a → b ∈ qb := by
        intro a b hab
        unfold mapAdj at hab
        rw [hsame a] at hab
        exact hadj a b hab
      have hfar1 : ∀ k ∈ qb, mapDist m1 k = INT_MAX := by
        intro k hk; rw [mapDist_congr (hsame k)]; exact hfar k hk
      by_cases hus : u = stop
      · refine ⟨m1, stop, ?_, hsame, fun _ => rfl, ?_⟩
        · rw [whileLoop_cons]
          simp only [hs, hlu, hr, if_pos hus]
          have : listRemove [] u = [] := rfl
          rw [this, whileLoop_nil, hus]
        · intro h
          exact absurd (hus ▸ hu) h
      · obtain ⟨m2, t1, h1, h2, h3, h4⟩ := ih m1 (listRemove (a :: rest) u) t hkeys1 hadj1 hfar1
          (fun k hk => hq k ((mem_listRemove _ _ _).mp hk).1) (by
            simp only [List.length_cons] at hlen hlen2 ⊢
            omega)
        refine ⟨m2, t1, ?_, fun v => (h2 v).trans (hsame v), ?_, ?_⟩
        · rw [whileLoop_cons]
          simp only [hs, hlu, hr, if_neg hus]
          exact h1
        · intro h
          exact h3 ((mem_listRemove _ _ _).mpr ⟨h, fun e => hus e.symm⟩)
        · intro h
          exact h4 (fun e => h ((mem_listRemove _ _ _).mp e).1)

theorem mapFind_mapReset (qb : List Int) (m : List (Int × LinkedVertices V)) (k : Int)
    (hk : k ∉ qb) : mapFind (mapReset qb m) k = mapFind m k := by
  induction m with
  | nil => rfl
  | cons p rest ih =>
    obtain ⟨k0, lv0⟩ := p
    by_cases h1 : k0 = k
    · subst h1
      simp [mapReset, mapFind, hk]
    · have ih1 : mapFind (List.map (fun p : Int × LinkedVertices V =>
          (p.1, if p.1 ∈ qb then
            { p.2 with head := { p.2.head with distance := INT_MAX, previous := INT_MIN } }
          else p.2)) rest) k = mapFind rest k := ih
      simp [mapReset, mapFind, h1, ih1]

/-- The selection loop writes only to records of keys of `qb`. -/
theorem whileLoop_nonpool (qb : List Int) (stop : Int) (label : List String) (fuel : Nat)
    (m : List (Int × LinkedVertices V)) (q : List Int) (t : Int)
    (m1 : List (Int × LinkedVertices V)) (q1 : List Int) (t1 : Int)
    (h : LinkedListOfVertices.whileLoop stop label fuel m q t = some (m1, q1, t1))
    (hadj : ∀ a b, b ∈ mapAdj m a → b ∈ qb) (k : Int) (hk : k ∉ qb) :
    mapFind m1 k = mapFind m k := by
  have := whileLoop_mapReset qb stop label fuel m q t m1 q1 t1 h hadj
  rw [← mapFind_mapReset qb m1 k hk, this, mapFind_mapReset qb m k hk]

/-- Under the invariant the walk along the previous nodes from `v` pushes the same list `p`
for every fuel above the distance of `v`; `p` has at most as many elements as that
distance, and along `p` followed by `v` every element is the previous node of the next one
and has a distance that is less by one. -/
theorem reconstruct_decreasing {qb : List Int} {start : Int} {label : List String}
    {m : List (Int × LinkedVertices V)} {qv : List Int} (hinv : LoopInv qb start label m qv)
    (n : Nat) :
    ∀ (v : Int) (path : List Int), v ∈ qb → mapDist m v ≤ n →
      ∃ p, (∀ fuel, n < fuel → LinkedListOfVertices.reconstruct m fuel v path = some (p ++ path)) ∧
        p.length ≤ n ∧
        List.Chain' (fun x y => mapPrev m y = x ∧ mapDist m y = mapDist m x + 1) (p ++ [v]) := by
  induction n with
  | zero =>
    intro v path hv hd
    obtain ⟨lv, hlv⟩ := Option.isSome_iff_exists.mp (hinv.keys v hv)
    have hp : mapPrev m v = lv.head.previous := by simp [mapPrev, hlv]
    by_cases hprev : lv.head.previous = INT_MIN
    · refine ⟨[], ?_, by simp, by simp⟩
      intro fuel hf
      obtain ⟨k, rfl⟩ : ∃ k, fuel = k + 1 := ⟨fuel - 1, by omega⟩
      simp [LinkedListOfVertices.reconstruct, hlv, LinkedVertices.getHead,
        NodeVertex.getPreviousNode, hprev]
    · exfalso
      obtain ⟨h1, _, _, _, h5⟩ := hinv.pred v hv (by rw [hp]; exact hprev)
      have := (hinv.rng _ h1).1
      omega
  | succ n ih =>
    intro v path hv hd
    obtain ⟨lv, hlv⟩ := Option.isSome_iff_exists.mp (hinv.keys v hv)
    have hp : mapPrev m v = lv.head.previous := by simp [mapPrev, hlv]
    by_cases hprev : lv.head.previous = INT_MIN
    · refine ⟨[], ?_, by simp, by simp⟩
      intro fuel hf
      obtain ⟨k, rfl⟩ : ∃ k, fuel = k + 1 := ⟨fuel - 1, by omega⟩
      simp [LinkedListOfVertices.reconstruct, hlv, LinkedVertices.getHead,
        NodeVertex.getPreviousNode, hprev]
    · obtain ⟨h1, _, _, _, h5⟩ := hinv.pred v hv (by rw [hp]; exact hprev)
      rw [hp] at h1 h5
      obtain ⟨p, e1, e2, e3⟩ := ih lv.head.previous (lv.head.previous :: path) h1 (by omega)
      refine ⟨p ++ [lv.head.previous], ?_, ?_, ?_⟩
      · intro fuel hf
        obtain ⟨k, rfl⟩ : ∃ k, fuel = k + 1 := ⟨fuel - 1, by omega⟩
        simp [LinkedListOfVertices.reconstruct, hlv, LinkedVertices.getHead,
          NodeVertex.getPreviousNode, hprev, e1 k (by omega)]
      · simp only [List.length_append, List.length_singleton]
        omega
      · rw [List.chain'_append]
        refine ⟨e3, List.chain'_singleton _, ?_⟩
        intro x hx y hy
        have hx1 : lv.head.previous = x := by simpa using hx
        have hy1 : v = y := by simpa using hy
        subst hx1; subst hy1
        exact ⟨hp, h5⟩

/-- The walk along the previous nodes stops at its first test when the node has none. -/
theorem reconstruct_none (m : List (Int × LinkedVertices V)) (v : Int) (path : List Int)
    (h : mapFind m v = none) (fuel : Nat) :
    LinkedListOfVertices.reconstruct m fuel v path = none := by
  cases fuel with
  | zero => rfl
  | succ k => simp [LinkedListOfVertices.reconstruct, h]

/-- The sorted edge-key list without repetitions holds no key twice. -/
theorem pool_dedup_nodup (l : List Int) : (listUnique (listSort l)).Nodup := by
  have h1 : List.Sorted (fun a b : Int => a ≤ b) (listUnique (listSort l)) :=
    List.Pairwise.sublist (listUnique_sublist _) (listSort_sorted l)
  have h2 := chain_listUnique (listSort l)
  have h3 : List.Chain' (fun a b : Int => a < b) (listUnique (listSort l)) := by
    have h4 : List.Chain' (fun a b : Int => a ≤ b) (listUnique (listSort l)) :=
      List.Pairwise.chain' h1
    generalize listUnique (listSort l) = xs at h2 h4
    induction xs with
    | nil => exact List.chain'_nil
    | cons a rest ih =>
      cases rest with
      | nil => exact List.chain'_singleton _
      | cons b rest2 =>
        rw [List.chain'_cons] at h2 h4 ⊢
        exact ⟨lt_of_le_of_ne h4.1 h2.1, ih h2.2 h4.2⟩
  exact List.Pairwise.imp (fun h => ne_of_lt h) (List.chain'_iff_pairwise.mp h3)

/-- The sorted edge-key list without repetitions has one element per distinct key. -/
theorem length_pool_dedup (l : List Int) :
    (listUnique (listSort l)).length = l.toFinset.card := by
  rw [← List.toFinset_card_of_nodup (pool_dedup_nodup l)]
  congr 1
  ext x
  simp only [List.mem_toFinset]
  exact mem_pool_dedup l x

end LoopBounds

/-! ## The outcome of a query between two known keys -/

section Outcome

variable {V : Type}

theorem mapPrev_mapModify (m : List (Int × LinkedVertices V)) (key k : Int)
    (f : LinkedVertices V → LinkedVertices V)
    (hf : ∀ lv, (f lv).head.previous = lv.head.previous) :
    mapPrev (mapModify m key f) k = mapPrev m k := by
  unfold mapPrev
  rw [mapFind_mapModify]
  cases mapFind m k with
  | none => rfl
  | some lv =>
    simp only [Option.map_some']
    split_ifs
    · exact hf lv
    · rfl

/-- A query writes no predecessor to a record whose key is not in the edge-key list. -/
theorem findShortestPath_nonpool (s s1 : LinkedListOfVertices V) (start stop : Int)
    (label : List String) (r : Bool) (hwf : WellFormed s)
    (h : s.findShortestPath start stop label = some (r, s1)) (k : Int) (hk : k ∉ s.qBackUp) :
    mapPrev s1.vertexList k = mapPrev s.vertexList k := by
  unfold LinkedListOfVertices.findShortestPath at h
  cases h1 : mapFind s.vertexList start with
  | none =>
    simp only [h1, Option.some.injEq, Prod.mk.injEq] at h
    rw [← h.2]
  | some ls =>
    cases h2 : mapFind s.vertexList stop with
    | none =>
      simp only [h1, h2, Option.some.injEq, Prod.mk.injEq] at h
      rw [← h.2]
    | some lt =>
      simp only [h1, h2] at h
      cases h3 : LinkedListOfVertices.resetLoop s.vertexList (listUnique (listSort s.qBackUp)) with
      | none => simp [h3] at h
      | some m0 =>
        simp only [h3] at h
        cases h4 : LinkedListOfVertices.whileLoop stop label
            (listUnique (listSort s.qBackUp)).length
            (mapModifyHead m0 start (fun n => n.setVertexDistance 0))
            (listUnique (listSort s.qBackUp)) 0 with
        | none => simp [h4] at h
        | some res =>
          obtain ⟨m2, q2, t2⟩ := res
          simp only [h4] at h
          cases h5 : LinkedListOfVertices.reconstruct m2
              ((listUnique (listSort s.qBackUp)).length + 1) t2 [] with
          | none => simp [h5] at h
          | some path =>
            simp only [h5, Option.some.injEq, Prod.mk.injEq] at h
            rw [← h.2]
            have hkq : k ∉ listUnique (listSort s.qBackUp) :=
              fun hin => hk ((mem_pool_dedup _ _).mp hin)
            have hsg1 := (resetLoop_sameGraph _ _ _ h3).trans (sameGraph_setStart m0 start)
            have hadj : ∀ a b,
                b ∈ mapAdj (mapModifyHead m0 start (fun n => n.setVertexDistance 0)) a →
                  b ∈ listUnique (listSort s.qBackUp) := by
              intro a b hab
              rw [hsg1.mapAdj] at hab
              exact (mem_pool_dedup _ _).mpr (hwf.adj a b hab).2
            have e1 := whileLoop_nonpool _ stop label _ _ _ _ m2 q2 t2 h4 hadj k hkq
            have e2 := (resetLoop_eq _ _ _ h3).1
            show mapPrev m2 k = mapPrev s.vertexList k
            rw [mapPrev_congr e1, mapPrev_setStart, e2]
            exact mapPrev_congr (mapFind_mapReset _ _ k hkq)

/-- In every store built by the public operations, a record whose key is not in the
edge-key list has the predecessor `INT_MIN`. -/
theorem reachable_nonpool_prev {g : GraphStoreLinked V} (hr : GraphStoreLinked.Reachable g) :
    ∀ k, k ∉ g.pool → mapPrev g.linkedListOfVertices.vertexList k = INT_MIN := by
  induction hr with
  | new => intro k _; rfl
  | addVertex g key info _ ih =>
    intro k hk
    rcases GraphStoreLinked.addVertex_cases g key info with ⟨_, h2⟩ | ⟨h1, h2⟩
    · rw [h2] at hk ⊢; exact ih k hk
    · rw [h2] at hk ⊢
      unfold GraphStoreLinked.vertex at h1
      by_cases hkk : k = key
      · subst hkk
        unfold mapPrev
        simp only [mapFind_mapInsert_self _ _ _ h1]
        rfl
      · unfold mapPrev
        simp only [mapFind_mapInsert_ne _ _ _ _ hkk]
        exact ih k hk
  | createEdge g start stop _ ih =>
    intro k hk
    rcases GraphStoreLinked.createEdge_cases g start stop with h | ⟨_, _, h⟩
    · rw [h] at hk ⊢; exact ih k hk
    · rw [h] at hk ⊢
      have hk0 : k ∉ g.pool := by
        intro hin
        apply hk
        unfold GraphStoreLinked.pool at hin ⊢
        simp [hin]
      show mapPrev (mapModify _ start (fun lv => lv.insertNodeVertex stop)) k = INT_MIN
      rw [mapPrev_mapModify _ start k (fun lv => lv.insertNodeVertex stop) (fun _ => rfl)]
      exact ih k hk0
  | addLabel g key label _ ih =>
    intro k hk
    rcases GraphStoreLinked.addLabel_cases g key label with ⟨_, h⟩ | ⟨_, _, h⟩
    · rw [h] at hk ⊢; exact ih k hk
    · rw [h] at hk ⊢
      show mapPrev (mapModify _ key (fun lv => label.foldl LinkedVertices.addLabel lv)) k = INT_MIN
      rw [mapPrev_mapModify _ key k (fun lv => label.foldl LinkedVertices.addLabel lv)
        (fun lv => (foldl_addLabel_frame label lv).2.2.2.2)]
      exact ih k hk
  | removeLabel g key label _ ih =>
    intro k hk
    rcases GraphStoreLinked.removeLabel_cases g key label with ⟨_, h⟩ | ⟨_, _, h⟩
    · rw [h] at hk ⊢; exact ih k hk
    · rw [h] at hk ⊢
      show mapPrev (mapModify _ key
        (fun lv => (LinkedListOfVertices.removeLabelLoop lv true label).2)) k = INT_MIN
      rw [mapPrev_mapModify _ key k
        (fun lv => (LinkedListOfVertices.removeLabelLoop lv true label).2)
        (fun lv => (removeLabelLoop_frame label lv true).2.2.2.2)]
      exact ih k hk
  | shortestPath g start stop label r g1 hr0 hq ih =>
    intro k hk
    have hwf := reachable_wellFormed hr0
    have hk0 : k ∉ g.pool :=
      fun hin => hk (((GraphStoreLinked.shortestPath_sameGraph g g1 start stop label r hq).2.1 k).mpr
        hin)
    unfold GraphStoreLinked.shortestPath at hq
    cases hf : g.linkedListOfVertices.findShortestPath start stop label with
    | none => simp [hf] at hq
    | some res =>
      obtain ⟨r1, s1⟩ := res
      simp only [hf, Option.map_some', Option.some.injEq, Prod.mk.injEq] at hq
      rw [← hq.2]
      show mapPrev s1.vertexList k = INT_MIN
      rw [findShortestPath_nonpool _ s1 start stop label r1 hwf hf k hk0]
      exact ih k hk0
  | getVertexInfo g key _ ih => exact ih
  | disableOutputPrint g _ ih => exact ih

/-- The selection loop of a query on a well-formed store returns with one
unit of fuel per key of the sorted edge-key list without repetitions. In the final map every
key of that list either has no predecessor or satisfies the invariant with a distance of at
most the length of the list. -/
theorem query_loop (s : LinkedListOfVertices V) (start stop : Int) (label : List String)
    (hwf : WellFormed s) :
    ∃ m0 m2 t,
      LinkedListOfVertices.resetLoop s.vertexList (listUnique (listSort s.qBackUp)) = some m0 ∧
      LinkedListOfVertices.whileLoop stop label (listUnique (listSort s.qBackUp)).length
          (mapModifyHead m0 start (fun n => n.setVertexDistance 0))
          (listUnique (listSort s.qBackUp)) 0 = some (m2, [], t) ∧
      (stop ∈ s.qBackUp → t = stop) ∧ (stop ∉ s.qBackUp → t = 0) ∧
      ∀ k ∈ listUnique (listSort s.qBackUp), mapPrev m2 k = INT_MIN ∨
        ∃ qv, LoopInv (listUnique (listSort s.qBackUp)) start label m2 qv ∧
          mapDist m2 k ≤ (listUnique (listSort s.qBackUp)).length := by
  by_cases hsp : start ∈ s.qBackUp
  · obtain ⟨m0, h0, hinit⟩ := loopInv_init s start label hwf hsp
    obtain ⟨m2, qv, t1, hw, hinv, ht, hnt⟩ :=
      whileLoop_spec _ start stop label (listUnique (listSort s.qBackUp)).length _ _ 0 hinit
        (le_refl _)
    refine ⟨m0, m2, t1, h0, hw, ?_, ?_, ?_⟩
    · intro h; exact (ht ((mem_pool_dedup _ _).mpr h)).1
    · intro h; exact (hnt (fun hin => h ((mem_pool_dedup _ _).mp hin))).1
    · intro k hk
      by_cases hp : mapPrev m2 k = INT_MIN
      · exact Or.inl hp
      · right
        refine ⟨qv, hinv, ?_⟩
        have := hinv.count k hk (Or.inr hp)
        omega
  · have hkeys : ∀ k ∈ listUnique (listSort s.qBackUp), (mapFind s.vertexList k).isSome = true :=
      fun k hk => hwf.keys k ((mem_pool_dedup _ _).mp hk)
    obtain ⟨m0, h0, hreset, _⟩ := resetLoop_spec _ s.vertexList hkeys
    have hsg := (resetLoop_sameGraph _ _ _ h0).trans (sameGraph_setStart m0 start)
    have hne : ∀ k ∈ listUnique (listSort s.qBackUp), k ≠ start := by
      intro k hk e
      exact hsp ((mem_pool_dedup _ _).mp (e ▸ hk))
    obtain ⟨m2, t1, hw, hsame, ht, hnt⟩ :=
      whileLoop_idle (listUnique (listSort s.qBackUp)) stop label
        (listUnique (listSort s.qBackUp)).length
        (mapModifyHead m0 start (fun n => n.setVertexDistance 0))
        (listUnique (listSort s.qBackUp)) 0
        (by intro k hk; rw [hsg.isSome]; exact hkeys k hk)
        (by
          intro a b hab
          rw [hsg.mapAdj] at hab
          exact (mem_pool_dedup _ _).mpr (hwf.adj a b hab).2)
        (by
          intro k hk
          rw [mapDist_congr (mapFind_setStart_ne m0 start k (hne k hk))]
          exact (hreset k hk).1)
        (fun _ h => h) (le_refl _)
    refine ⟨m0, m2, t1, h0, hw, ?_, ?_, ?_⟩
    · intro h; exact ht ((mem_pool_dedup _ _).mpr h)
    · intro h; exact hnt (fun hin => h ((mem_pool_dedup _ _).mp hin))
    · intro k hk
      left
      rw [mapPrev_congr (hsame k), mapPrev_setStart]
      exact (hreset k hk).2

/-- The outcome of a query between two known keys of a store built by the public
operations. The reset loop returns; the selection loop returns with any fuel of at least the
number of distinct keys of the edge-key list and leaves in `tempNodeKey` the key `stop` when
`stop` is in that list and 0 otherwise. Then either `tempNodeKey` is no key of the map, the
first lookup of the walk along the previous nodes fails, and the query has no result; or the
walk returns the same path with any fuel above the number of distinct keys, the path has at
most that many elements, every element of the path followed by `tempNodeKey` is the previous
node of the next one with a distance that is less by one, and the query returns whether the
path is non-empty. -/
theorem query_outcome (g : GraphStoreLinked V) (start stop : Int) (label : List String)
    (hr : GraphStoreLinked.Reachable g) (hs : (g.vertex start).isSome = true)
    (ht : (g.vertex stop).isSome = true) :
    ∃ m0 m2 t,
      LinkedListOfVertices.resetLoop g.linkedListOfVertices.vertexList
        (listUnique (listSort g.pool)) = some m0 ∧
      (∀ fuel, g.pool.toFinset.card ≤ fuel →
        LinkedListOfVertices.whileLoop stop label fuel
          (mapModifyHead m0 start (fun n => n.setVertexDistance 0))
          (listUnique (listSort g.pool)) 0 = some (m2, [], t)) ∧
      SameGraph g.linkedListOfVertices.vertexList m2 ∧
      (stop ∈ g.pool → t = stop) ∧ (stop ∉ g.pool → t = 0) ∧
      ((mapFind m2 t = none ∧
          (∀ fuel, LinkedListOfVertices.reconstruct m2 fuel t [] = none) ∧
          g.shortestPath start stop label = none) ∨
        ((mapFind m2 t).isSome = true ∧ ∃ path g1,
          (∀ fuel, g.pool.toFinset.card + 1 ≤ fuel →
            LinkedListOfVertices.reconstruct m2 fuel t [] = some path) ∧
          path.length ≤ g.pool.toFinset.card ∧
          List.Chain' (fun x y => mapPrev m2 y = x ∧ mapDist m2 y = mapDist m2 x + 1)
            (path ++ [t]) ∧
          g.shortestPath start stop label = some (decide (path.length > 0), g1) ∧
          g1.recordedPath = path)) := by
  have hwf := reachable_wellFormed hr
  obtain ⟨ls, hls⟩ := Option.isSome_iff_exists.mp hs
  obtain ⟨lt, hlt⟩ := Option.isSome_iff_exists.mp ht
  unfold GraphStoreLinked.vertex at hls hlt
  obtain ⟨m0, m2, t, h0, hw, ht1, ht0, hwalk⟩ :=
    query_loop g.linkedListOfVertices start stop label hwf
  unfold GraphStoreLinked.pool
  have hlen := length_pool_dedup g.linkedListOfVertices.qBackUp
  have hsg : SameGraph g.linkedListOfVertices.vertexList m2 :=
    ((resetLoop_sameGraph _ _ _ h0).trans (sameGraph_setStart m0 start)).trans
      (whileLoop_sameGraph _ _ _ _ _ _ _ _ _ hw).1
  have hsg1 := (resetLoop_sameGraph _ _ _ h0).trans (sameGraph_setStart m0 start)
  have hnon : ∀ k, k ∉ listUnique (listSort g.linkedListOfVertices.qBackUp) → mapPrev m2 k = INT_MIN := by
    intro k hkq
    have hadj : ∀ a b,
        b ∈ mapAdj (mapModifyHead m0 start (fun n => n.setVertexDistance 0)) a →
          b ∈ listUnique (listSort g.linkedListOfVertices.qBackUp) := by
      intro a b hab
      rw [hsg1.mapAdj] at hab
      exact (mem_pool_dedup _ _).mpr (hwf.adj a b hab).2
    have e1 := whileLoop_nonpool _ stop label _ _ _ _ m2 [] t hw hadj k hkq
    have e2 := (resetLoop_eq _ _ _ h0).1
    rw [mapPrev_congr e1, mapPrev_setStart, e2, mapPrev_congr (mapFind_mapReset _ _ k hkq)]
    exact reachable_nonpool_prev hr k (fun hin => hkq ((mem_pool_dedup _ _).mpr hin))
  refine ⟨m0, m2, t, h0, ?_, hsg, ht1, ht0, ?_⟩
  · intro fuel hf
    exact whileLoop_mono stop label _ _ _ _ _ hw fuel (by rw [hlen]; exact hf)
  · cases hfind : mapFind m2 t with
    | none =>
      left
      refine ⟨rfl, fun fuel => reconstruct_none m2 t [] hfind fuel, ?_⟩
      unfold GraphStoreLinked.shortestPath
      simp only [LinkedListOfVertices.findShortestPath, hls, hlt]
      have h0a : LinkedListOfVertices.resetLoop g.linkedListOfVertices.vertexList
          (listUnique (listSort g.linkedListOfVertices.qBackUp)) = some m0 := h0
      simp only [h0a, hw, reconstruct_none m2 t [] hfind, Option.map_none']
    | some lvt =>
      right
      have hsome : (mapFind m2 t).isSome = true := by rw [hfind]; rfl
      refine ⟨rfl, ?_⟩
      have hpath : ∃ path,
          (∀ fuel, (listUnique (listSort g.linkedListOfVertices.qBackUp)).length + 1 ≤ fuel →
            LinkedListOfVertices.reconstruct m2 fuel t [] = some path) ∧
          path.length ≤ (listUnique (listSort g.linkedListOfVertices.qBackUp)).length ∧
          List.Chain' (fun x y => mapPrev m2 y = x ∧ mapDist m2 y = mapDist m2 x + 1)
            (path ++ [t]) := by
        have hcase : mapPrev m2 t = INT_MIN ∨
            (t ∈ listUnique (listSort g.linkedListOfVertices.qBackUp) ∧
              ∃ qv, LoopInv (listUnique (listSort g.linkedListOfVertices.qBackUp)) start label m2 qv ∧
                mapDist m2 t ≤ (listUnique (listSort g.linkedListOfVertices.qBackUp)).length) := by
          by_cases htq : t ∈ listUnique (listSort g.linkedListOfVertices.qBackUp)
          · rcases hwalk t htq with h | h
            · exact Or.inl h
            · exact Or.inr ⟨htq, h⟩
          · exact Or.inl (hnon t htq)
        rcases hcase with hp | ⟨htq, qv, hinv, hd⟩
        · refine ⟨[], ?_, by simp, by simp⟩
          intro fuel hf
          obtain ⟨k, rfl⟩ : ∃ k, fuel = k + 1 := ⟨fuel - 1, by omega⟩
          exact reconstruct_no_previous m2 k t [] hsome hp
        · have hd0 := (hinv.rng t htq).1
          obtain ⟨p, e1, e2, e3⟩ :=
            reconstruct_decreasing hinv (mapDist m2 t).toNat t [] htq (by omega)
          refine ⟨p, ?_, by omega, e3⟩
          intro fuel hf
          have := e1 fuel (by omega)
          simpa using this
      obtain ⟨path, e1, e2, e3⟩ := hpath
      refine ⟨path,
        { linkedListOfVertices :=
          { g.linkedListOfVertices with
            vertexList := m2, q := [],
            qBackUp := listUnique (listSort g.linkedListOfVertices.qBackUp), path := path } },
        ?_, by rw [← hlen]; exact e2, e3, ?_, rfl⟩
      · intro fuel hf
        exact e1 fuel (by rw [hlen]; exact hf)
      · have e4 := e1 _ (le_refl _)
        have h0a : LinkedListOfVertices.resetLoop g.linkedListOfVertices.vertexList
            (listUnique (listSort g.linkedListOfVertices.qBackUp)) = some m0 := h0
        have e4a : LinkedListOfVertices.reconstruct m2
            ((listUnique (listSort g.linkedListOfVertices.qBackUp)).length + 1) t [] =
              some path := e4
        unfold GraphStoreLinked.shortestPath
        simp only [LinkedListOfVertices.findShortestPath, hls, hlt, h0a, hw, e4a,
          Option.map_some']

/-- A query between two known keys of a store built by the public operations has no result
exactly when `stop` is not in the edge-key list and 0 is no key of the map. -/
theorem shortestPath_none_iff (g : GraphStoreLinked V) (start stop : Int) (label : List String)
    (hr : GraphStoreLinked.Reachable g) (hs : (g.vertex start).isSome = true)
    (ht : (g.vertex stop).isSome = true) :
    g.shortestPath start stop label = none ↔ stop ∉ g.pool ∧ g.vertex 0 = none := by
  obtain ⟨m0, m2, t, _, _, hsg, ht1, ht0, hout⟩ := query_outcome g start stop label hr hs ht
  constructor
  · intro hnone
    rcases hout with ⟨hfind, _, _⟩ | ⟨_, path, g1, _, _, _, hq, _⟩
    · have hstop : stop ∉ g.pool := by
        intro hin
        rw [ht1 hin] at hfind
        have := hsg.isSome stop
        rw [hfind] at this
        unfold GraphStoreLinked.vertex at ht
        rw [ht] at this
        simp at this
      refine ⟨hstop, ?_⟩
      rw [ht0 hstop] at hfind
      have := hsg.isSome 0
      rw [hfind] at this
      unfold GraphStoreLinked.vertex
      cases h0 : mapFind g.linkedListOfVertices.vertexList 0 with
      | none => rfl
      | some lv => rw [h0] at this; simp at this
    · rw [hq] at hnone
      simp at hnone
  · intro ⟨hstop, hzero⟩
    rcases hout with ⟨_, _, hq⟩ | ⟨hsome, _⟩
    · exact hq
    · rw [ht0 hstop, hsg.isSome] at hsome
      unfold GraphStoreLinked.vertex at hzero
      rw [hzero] at hsome
      simp at hsome

end Outcome

/-! ## A query without result -/

namespace GraphStoreLinked

variable {V : Type}

theorem reachable_storeNoZero : Reachable storeNoZero :=
  Reachable.createEdge _ 1 2 (Reachable.addVertex _ 3 30
    (Reachable.addVertex _ 2 20 (Reachable.addVertex _ 1 10 Reachable.new)))

/-- C23 fails on the code: in `storeNoZero` the keys 1 and 3 are known, the edge-key list
holds the two distinct keys 1 and 2, and 0 is no key. In `shortestPath(1, 3, [])` the
selection loop returns after its two iterations without having selected 3, so the remembered
key is still its initial value 0; the first lookup of the walk along the previous nodes
fails, whatever the fuel, and the query has no result. -/
theorem shortestPath_no_result :
    Reachable storeNoZero ∧ (storeNoZero.vertex 1).isSome = true ∧
      (storeNoZero.vertex 3).isSome = true ∧ listUnique (listSort storeNoZero.pool) = [1, 2] ∧
      storeNoZero.vertex 0 = none ∧
      (∃ m0 m2,
        LinkedListOfVertices.resetLoop storeNoZero.linkedListOfVertices.vertexList [1, 2] =
          some m0 ∧
        LinkedListOfVertices.whileLoop 3 [] 2
          (mapModifyHead m0 1 (fun n => n.setVertexDistance 0)) [1, 2] 0 = some (m2, [], 0) ∧
        mapFind m2 0 = none ∧
        ∀ fuel, LinkedListOfVertices.reconstruct m2 fuel 0 [] = none) ∧
      storeNoZero.shortestPath 1 3 [] = none :=
  ⟨reachable_storeNoZero, by decide, by decide, by decide, by decide,
    ⟨_, _, rfl, rfl, by decide, fun fuel => reconstruct_none _ 0 [] (by decide) fuel⟩,
    by decide⟩

end GraphStoreLinked

/-! ## Independence of a query from the search state left by earlier queries -/

section Independence

variable {V : Type}

theorem SameSearch.find {qb : List Int} {m m1 : List (Int × LinkedVertices V)}
    (h : SameSearch qb m m1) (k : Int) (lv : LinkedVertices V) (hk : mapFind m k = some lv) :
    ∃ lv1, mapFind m1 k = some lv1 ∧ lv1.head.previous = lv.head.previous ∧
      lv1.head.labelVec = lv.head.labelVec ∧ lv1.nodes = lv.nodes ∧
      (k ∈ qb → lv1.head.distance = lv.head.distance) := by
  have hg := h.graph k
  have hp := h.prev k
  rw [hk] at hg
  cases h1 : mapFind m1 k with
  | none => simp [h1] at hg
  | some lv1 =>
    simp only [h1, Option.map_some', Option.some.injEq, LinkedVertices.persistent,
      Prod.mk.injEq] at hg
    refine ⟨lv1, rfl, ?_, hg.2.2.1, hg.2.2.2, ?_⟩
    · simpa [mapPrev, hk, h1] using hp
    · intro hq
      have := h.dist k hq
      simpa [mapDist, hk, h1] using this

theorem SameSearch.find_none {qb : List Int} {m m1 : List (Int × LinkedVertices V)}
    (h : SameSearch qb m m1) (k : Int) (hk : mapFind m k = none) : mapFind m1 k = none := by
  have := h.graph.isSome k
  rw [hk] at this
  simpa using this

theorem SameSearch.mapSetBoth {qb : List Int} {m m1 : List (Int × LinkedVertices V)}
    (h : SameSearch qb m m1) (e d p : Int) :
    SameSearch qb (mapSetBoth m e d p) (mapSetBoth m1 e d p) := by
  constructor
  · exact ((sameGraph_mapSetBoth m e d p).symm.trans h.graph).trans
      (sameGraph_mapSetBoth m1 e d p)
  · intro k
    unfold mapPrev
    rw [mapFind_mapSetBoth, mapFind_mapSetBoth]
    cases h1 : mapFind m k with
    | none => rw [h.find_none k h1]
    | some lv =>
      obtain ⟨lv1, e1, e2, _⟩ := h.find k lv h1
      rw [e1]
      by_cases hk : k = e <;> simp [hk, e2]
  · intro k hkq
    unfold mapDist
    rw [mapFind_mapSetBoth, mapFind_mapSetBoth]
    cases h1 : mapFind m k with
    | none => rw [h.find_none k h1]
    | some lv =>
      obtain ⟨lv1, e1, _, _, _, e5⟩ := h.find k lv h1
      rw [e1]
      by_cases hk : k = e <;> simp [hk, e5 hkq]

/-- The selected key is the argument `u` or a key of the list. -/
theorem selectMin_mem (m : List (Int × LinkedVertices V)) (l : List Int) :
    ∀ u r, LinkedListOfVertices.selectMin m u l = some r → r = u ∨ r ∈ l := by
  induction l with
  | nil =>
    intro u r h
    simp only [LinkedListOfVertices.selectMin, Option.some.injEq] at h
    exact Or.inl h.symm
  | cons c rest ih =>
    intro u r h
    cases h1 : mapFind m c with
    | none => simp [LinkedListOfVertices.selectMin, h1] at h
    | some lc =>
      cases h2 : mapFind m u with
      | none => simp [LinkedListOfVertices.selectMin, h1, h2] at h
      | some lu =>
        simp only [LinkedListOfVertices.selectMin, h1, h2] at h
        split_ifs at h
        · rcases ih c r h with e | e
          · right; rw [e]; exact List.mem_cons_self _ _
          · right; exact List.mem_cons_of_mem _ e
        · rcases ih u r h with e | e
          · exact Or.inl e
          · right; exact List.mem_cons_of_mem _ e

/-- The selection of the key of least distance reads only distances of keys of `qb`. -/
theorem selectMin_congr {qb : List Int} {m m1 : List (Int × LinkedVertices V)}
    (h : SameSearch qb m m1) (l : List Int) :
    ∀ u, u ∈ qb → (∀ k ∈ l, k ∈ qb) →
      LinkedListOfVertices.selectMin m1 u l = LinkedListOfVertices.selectMin m u l := by
  induction l with
  | nil => intro u _ _; rfl
  | cons c rest ih =>
    intro u hu hl
    have hc : c ∈ qb := hl c (List.mem_cons_self _ _)
    have hrest : ∀ k ∈ rest, k ∈ qb := fun k hk => hl k (List.mem_cons_of_mem _ hk)
    cases h1 : mapFind m c with
    | none => simp [LinkedListOfVertices.selectMin, h1, h.find_none c h1]
    | some lc =>
      obtain ⟨lc1, e1, _, _, _, e5⟩ := h.find c lc h1
      cases h2 : mapFind m u with
      | none => simp [LinkedListOfVertices.selectMin, h1, e1, h2, h.find_none u h2]
      | some lu =>
        obtain ⟨lu1, f1, _, _, _, f5⟩ := h.find u lu h2
        simp only [LinkedListOfVertices.selectMin, h1, e1, h2, f1, LinkedVertices.getHead,
          NodeVertex.getVertexDistance, e5 hc, f5 hu]
        split_ifs
        · exact ih c hc hrest
        · exact ih u hu hrest

/-- The relaxation loop keeps two maps in agreement. -/
theorem relaxEdges_congr {qb : List Int} (u : Int) (label : List String) (es : List Int) :
    ∀ (m m1 a b : List (Int × LinkedVertices V)), SameSearch qb m m1 → u ∈ qb →
      (∀ e ∈ es, e ∈ qb) → LinkedListOfVertices.relaxEdges u label m es = some a →
      LinkedListOfVertices.relaxEdges u label m1 es = some b → SameSearch qb a b := by
  induction es with
  | nil =>
    intro m m1 a b h _ _ ha hb
    simp only [LinkedListOfVertices.relaxEdges, Option.some.injEq] at ha hb
    rw [← ha, ← hb]
    exact h
  | cons e rest ih =>
    intro m m1 a b h hu hes ha hb
    have he : e ∈ qb := hes e (List.mem_cons_self _ _)
    have hrest : ∀ x ∈ rest, x ∈ qb := fun x hx => hes x (List.mem_cons_of_mem _ hx)
    rw [relaxEdges_cons] at ha hb
    cases h1 : mapFind m u with
    | none => simp [h1] at ha
    | some lu =>
      cases h2 : mapFind m e with
      | none => simp [h1, h2] at ha
      | some le =>
        obtain ⟨lu1, f1, _, _, _, f5⟩ := h.find u lu h1
        obtain ⟨le1, e1, _, e3, _, e5⟩ := h.find e le h2
        have hl : le1.head.hasLabel label = le.head.hasLabel label := by
          unfold NodeVertex.hasLabel
          rw [e3]
        simp only [h1, h2] at ha
        simp only [f1, e1, f5 hu, e5 he, hl] at hb
        by_cases hc : lu.head.distance < le.head.distance ∧ le.head.hasLabel label = true
        · rw [if_pos hc] at ha hb
          exact ih _ _ a b (h.mapSetBoth e _ u) hu hrest ha hb
        · rw [if_neg hc] at ha hb
          exact ih m m1 a b h hu hrest ha hb

/-- The selection loop keeps two maps in agreement and leaves the same `q` and the same
`tempNodeKey`. -/
theorem whileLoop_congr {qb : List Int} (stop : Int) (label : List String) (fuel : Nat) :
    ∀ (m m1 : List (Int × LinkedVertices V)) (q : List Int) (t : Int)
      (a b : List (Int × LinkedVertices V) × List Int × Int),
      SameSearch qb m m1 → (∀ k ∈ q, k ∈ qb) → (∀ x y, y ∈ mapAdj m x → y ∈ qb) →
      LinkedListOfVertices.whileLoop stop label fuel m q t = some a →
      LinkedListOfVertices.whileLoop stop label fuel m1 q t = some b →
      SameSearch qb a.1 b.1 ∧ b.2 = a.2 := by
  induction fuel with
  | zero =>
    intro m m1 q t a b h _ _ ha hb
    cases q with
    | nil =>
      rw [whileLoop_nil] at ha hb
      simp only [Option.some.injEq] at ha hb
      rw [← ha, ← hb]
      exact ⟨h, rfl⟩
    | cons front rest => simp [LinkedListOfVertices.whileLoop] at ha
  | succ fuel ih =>
    intro m m1 q t a b h hq hadj ha hb
    cases q with
    | nil =>
      rw [whileLoop_nil] at ha hb
      simp only [Option.some.injEq] at ha hb
      rw [← ha, ← hb]
      exact ⟨h, rfl⟩
    | cons front rest =>
      rw [whileLoop_cons] at ha hb
      rw [selectMin_congr h (front :: rest) front (hq front (List.mem_cons_self _ _)) hq] at hb
      cases hs : LinkedListOfVertices.selectMin m front (front :: rest) with
      | none => simp [hs] at ha
      | some u =>
        have huq : u ∈ front :: rest := by
          rcases selectMin_mem m _ _ _ hs with e | e
          · rw [e]; exact List.mem_cons_self _ _
          · exact e
        have hu : u ∈ qb := hq u huq
        cases hf : mapFind m u with
        | none => simp [hs, hf] at ha
        | some lu =>
          obtain ⟨lu1, f1, _, _, f4, _⟩ := h.find u lu hf
          have hre : lu1.returnEdges = lu.returnEdges := by
            unfold LinkedVertices.returnEdges
            exact f4
          simp only [hs, hf] at ha
          simp only [hs, f1, hre] at hb
          cases hr : LinkedListOfVertices.relaxEdges u label m lu.returnEdges with
          | none => simp [hr] at ha
          | some m2 =>
            cases hr1 : LinkedListOfVertices.relaxEdges u label m1 lu.returnEdges with
            | none => simp [hr1] at hb
            | some m3 =>
              simp only [hr] at ha
              simp only [hr1] at hb
              have hes : ∀ e ∈ lu.returnEdges, e ∈ qb := by
                intro e he
                apply hadj u e
                simp only [mapAdj, hf]
                exact he
              have hss := relaxEdges_congr u label _ m m1 m2 m3 h hu hes hr hr1
              have hsg := relaxEdges_sameGraph u label _ m m2 hr
              refine ih m2 m3 _ _ a b hss ?_ ?_ ha hb
              · intro k hk
                have hk1 := ((mem_listRemove _ _ _).mp hk).1
                by_cases hus : u = stop
                · simp [hus] at hk1
                · rw [if_neg hus] at hk1
                  exact hq k hk1
              · intro x y hxy
                rw [hsg.mapAdj] at hxy
                exact hadj x y hxy

/-- The walk along the previous nodes reads only the predecessors. -/
theorem reconstruct_congr {qb : List Int} {m m1 : List (Int × LinkedVertices V)}
    (h : SameSearch qb m m1) (fuel : Nat) :
    ∀ (v : Int) (path : List Int),
      LinkedListOfVertices.reconstruct m1 fuel v path =
        LinkedListOfVertices.reconstruct m fuel v path := by
  induction fuel with
  | zero => intro v path; rfl
  | succ fuel ih =>
    intro v path
    cases h1 : mapFind m v with
    | none => simp [LinkedListOfVertices.reconstruct, h1, h.find_none v h1]
    | some lv =>
      obtain ⟨lv1, e1, e2, _⟩ := h.find v lv h1
      simp only [LinkedListOfVertices.reconstruct, h1, e1, LinkedVertices.getHead,
        NodeVertex.getPreviousNode, e2]
      rw [ih]

/-- The sorted edge-key list without repetitions depends only on the set of keys. -/
theorem pool_dedup_congr (l l1 : List Int) (h : ∀ k, k ∈ l1 ↔ k ∈ l) :
    listUnique (listSort l1) = listUnique (listSort l) := by
  have hs : ∀ x : List Int, List.Sorted (fun a b : Int => a ≤ b) (listUnique (listSort x)) :=
    fun x => List.Pairwise.sublist (listUnique_sublist _) (listSort_sorted x)
  refine List.eq_of_perm_of_sorted ?_ (hs l1) (hs l)
  rw [List.perm_ext_iff_of_nodup (pool_dedup_nodup l1) (pool_dedup_nodup l)]
  intro k
  rw [mem_pool_dedup, mem_pool_dedup]
  exact h k

/-- After the reset loop and the write of distance 0 to the start node, two maps with the
same graph whose keys outside `qb` have no predecessor agree. -/
theorem sameSearch_init (qb : List Int) (start : Int) (m m1 m0 m01 : List (Int × LinkedVertices V))
    (hsg : SameGraph m m1) (hkeys : ∀ k ∈ qb, (mapFind m k).isSome = true)
    (hp : ∀ k, k ∉ qb → mapPrev m k = INT_MIN) (hp1 : ∀ k, k ∉ qb → mapPrev m1 k = INT_MIN)
    (h0 : LinkedListOfVertices.resetLoop m qb = some m0)
    (h01 : LinkedListOfVertices.resetLoop m1 qb = some m01) :
    SameSearch qb (mapModifyHead m0 start (fun n => n.setVertexDistance 0))
      (mapModifyHead m01 start (fun n => n.setVertexDistance 0)) := by
  have hkeys1 : ∀ k ∈ qb, (mapFind m1 k).isSome = true := by
    intro k hk; rw [hsg.isSome]; exact hkeys k hk
  obtain ⟨x, hx, hreset, hother⟩ := resetLoop_spec qb m hkeys
  rw [h0] at hx
  simp only [Option.some.injEq] at hx
  subst hx
  obtain ⟨x1, hx1, hreset1, hother1⟩ := resetLoop_spec qb m1 hkeys1
  rw [h01] at hx1
  simp only [Option.some.injEq] at hx1
  subst hx1
  have g0 := resetLoop_sameGraph _ _ _ h0
  have g1 := resetLoop_sameGraph _ _ _ h01
  have hprev : ∀ k, mapPrev m01 k = mapPrev m0 k := by
    intro k
    by_cases hk : k ∈ qb
    · rw [(hreset k hk).2, (hreset1 k hk).2]
    · rw [mapPrev_congr (hother k hk), mapPrev_congr (hother1 k hk), hp k hk, hp1 k hk]
  constructor
  · exact ((((sameGraph_setStart m0 start).symm.trans g0.symm).trans hsg).trans g1).trans
      (sameGraph_setStart m01 start)
  · intro k
    rw [mapPrev_setStart, mapPrev_setStart]
    exact hprev k
  · intro k hk
    by_cases hks : k = start
    · subst hks
      rw [mapDist_setStart m0 k (by rw [g0.isSome]; exact hkeys k hk),
        mapDist_setStart m01 k (by rw [g1.isSome]; exact hkeys1 k hk)]
    · rw [mapDist_congr (mapFind_setStart_ne m0 start k hks),
        mapDist_congr (mapFind_setStart_ne m01 start k hks), (hreset k hk).1, (hreset1 k hk).1]

/-- On two stores built by the public operations that hold the same graph and the same set
of keys in their edge-key lists, a query between two known keys has the same outcome: no
result on both, or the same boolean and the same recorded path. -/
theorem shortestPath_known_congr (g g1 : GraphStoreLinked V) (start stop : Int)
    (label : List String) (hr : GraphStoreLinked.Reachable g)
    (hr1 : GraphStoreLinked.Reachable g1)
    (hsg : SameGraph g.linkedListOfVertices.vertexList g1.linkedListOfVertices.vertexList)
    (hpool : ∀ k, k ∈ g1.pool ↔ k ∈ g.pool) (hs : (g.vertex start).isSome = true)
    (ht : (g.vertex stop).isSome = true) :
    (g1.shortestPath start stop label).map (fun r => (r.1, r.2.recordedPath)) =
      (g.shortestPath start stop label).map (fun r => (r.1, r.2.recordedPath)) := by
  have hwf := reachable_wellFormed hr
  have hwf1 := reachable_wellFormed hr1
  have hqb : listUnique (listSort g1.linkedListOfVertices.qBackUp) =
      listUnique (listSort g.linkedListOfVertices.qBackUp) := pool_dedup_congr _ _ hpool
  unfold GraphStoreLinked.vertex at hs ht
  obtain ⟨ls, hls⟩ := Option.isSome_iff_exists.mp hs
  obtain ⟨lt, hlt⟩ := Option.isSome_iff_exists.mp ht
  obtain ⟨ls1, hls1⟩ := Option.isSome_iff_exists.mp (by rw [hsg.isSome]; exact hs)
  obtain ⟨lt1, hlt1⟩ := Option.isSome_iff_exists.mp (by rw [hsg.isSome]; exact ht)
  obtain ⟨m0, m2, t, h0, hw, _, _, _⟩ := query_loop g.linkedListOfVertices start stop label hwf
  obtain ⟨m01, m21, t1, h01, hw1, _, _, _⟩ :=
    query_loop g1.linkedListOfVertices start stop label hwf1
  have h01a := h01
  have hw1a := hw1
  rw [hqb] at h01a hw1a
  have hnon : ∀ (x : GraphStoreLinked V), GraphStoreLinked.Reachable x →
      ∀ k, k ∉ listUnique (listSort x.linkedListOfVertices.qBackUp) →
        mapPrev x.linkedListOfVertices.vertexList k = INT_MIN :=
    fun x hx k hk => reachable_nonpool_prev hx k (fun hin => hk ((mem_pool_dedup _ _).mpr hin))
  have hss0 := sameSearch_init _ start _ _ m0 m01 hsg
    (fun k hk => hwf.keys k ((mem_pool_dedup _ _).mp hk)) (hnon g hr)
    (by rw [← hqb]; exact hnon g1 hr1) h0 h01a
  have hsg0 := (resetLoop_sameGraph _ _ _ h0).trans (sameGraph_setStart m0 start)
  obtain ⟨hss, hqt⟩ := whileLoop_congr stop label _ _ _ _ 0 _ _ hss0 (fun _ hk => hk)
    (by
      intro x y hxy
      rw [hsg0.mapAdj] at hxy
      exact (mem_pool_dedup _ _).mpr (hwf.adj x y hxy).2)
    hw hw1a
  have htt : t1 = t := by
    simp only [Prod.mk.injEq, true_and] at hqt
    exact hqt
  subst htt
  have hrc := reconstruct_congr hss
    ((listUnique (listSort g.linkedListOfVertices.qBackUp)).length + 1) t1 []
  have hrc1 : LinkedListOfVertices.reconstruct m21
      ((listUnique (listSort g1.linkedListOfVertices.qBackUp)).length + 1) t1 [] =
      LinkedListOfVertices.reconstruct m2
        ((listUnique (listSort g.linkedListOfVertices.qBackUp)).length + 1) t1 [] := by
    rw [hqb]; exact hrc
  unfold GraphStoreLinked.shortestPath
  simp only [LinkedListOfVertices.findShortestPath, hls, hlt, hls1, hlt1, h0, hw, h01, hw1, hrc1]
  cases LinkedListOfVertices.reconstruct m2
      ((listUnique (listSort g.linkedListOfVertices.qBackUp)).length + 1) t1 [] with
  | none => rfl
  | some path => rfl

end Independence

namespace GraphStoreLinked

variable {V : Type}

theorem reachable_storePath : Reachable storePath :=
  Reachable.createEdge _ 2 3 (Reachable.createEdge _ 1 2 (Reachable.addVertex _ 3 30
    (Reachable.addVertex _ 2 20 (Reachable.addVertex _ 1 10 Reachable.new))))

theorem storePath_query : storePath.shortestPath 1 3 [] = some (true, storePathQueried) := rfl

theorem reachable_storePathQueried : Reachable storePathQueried :=
  Reachable.shortestPath storePath 1 3 [] true storePathQueried reachable_storePath
    storePath_query

/-- C18: the result of a query does not depend on the search state left by earlier queries.
Let `g` and `g1` be two stores built by the public operations that hold the same graph (the
same keys with the same id, payload, labels and adjacency) and the same set of keys in their
edge-key lists; they may differ in every search distance and predecessor and in the order
and multiplicity of the edge-key list. Then every query has the same outcome on both: the
same boolean, and the same recorded path when both keys are known or when the two stores
held the same recorded path before. In particular, when a query on `g` returns, the same
query on the store it leaves returns the same boolean and leaves that store, recorded path
included, as it is. -/
theorem shortestPath_independent (g g1 : GraphStoreLinked V) (start stop : Int)
    (label : List String) (hr : Reachable g) (hr1 : Reachable g1)
    (hsg : SameGraph g.linkedListOfVertices.vertexList g1.linkedListOfVertices.vertexList)
    (hpool : ∀ k, k ∈ g1.pool ↔ k ∈ g.pool) :
    (g1.shortestPath start stop label).map (fun r => r.1) =
        (g.shortestPath start stop label).map (fun r => r.1) ∧
      ((((g.vertex start).isSome = true ∧ (g.vertex stop).isSome = true) ∨
          g1.recordedPath = g.recordedPath) →
        (g1.shortestPath start stop label).map (fun r => r.2.recordedPath) =
          (g.shortestPath start stop label).map (fun r => r.2.recordedPath)) ∧
      ∀ r g2, g.shortestPath start stop label = some (r, g2) →
        g2.shortestPath start stop label = some (r, g2) := by
  have hknown : (g.vertex start).isSome = true ∧ (g.vertex stop).isSome = true →
      (g1.shortestPath start stop label).map (fun r => (r.1, r.2.recordedPath)) =
        (g.shortestPath start stop label).map (fun r => (r.1, r.2.recordedPath)) :=
    fun h => shortestPath_known_congr g g1 start stop label hr hr1 hsg hpool h.1 h.2
  have hunknown : ¬ ((g.vertex start).isSome = true ∧ (g.vertex stop).isSome = true) →
      g.shortestPath start stop label = some (false, g) ∧
        g1.shortestPath start stop label = some (false, g1) := by
    intro hn
    have hn1 : ¬ ((g1.vertex start).isSome = true ∧ (g1.vertex stop).isSome = true) := by
      unfold vertex at hn ⊢
      rw [hsg.isSome, hsg.isSome]
      exact hn
    have key : ∀ x : GraphStoreLinked V,
        ¬ ((x.vertex start).isSome = true ∧ (x.vertex stop).isSome = true) →
          x.shortestPath start stop label = some (false, x) := by
      intro x hx
      unfold vertex at hx
      unfold shortestPath
      cases h1 : mapFind x.linkedListOfVertices.vertexList start with
      | none => simp [LinkedListOfVertices.findShortestPath, h1]
      | some a =>
        cases h2 : mapFind x.linkedListOfVertices.vertexList stop with
        | none => simp [LinkedListOfVertices.findShortestPath, h1, h2]
        | some b => simp [h1, h2] at hx
    exact ⟨key g hn, key g1 hn1⟩
  refine ⟨?_, ?_, ?_⟩
  · by_cases hk : (g.vertex start).isSome = true ∧ (g.vertex stop).isSome = true
    · have := congrArg (Option.map Prod.fst) (hknown hk)
      simpa [Option.map_map, Function.comp] using this
    · obtain ⟨e, e1⟩ := hunknown hk
      rw [e, e1]
      rfl
  · intro h
    by_cases hk : (g.vertex start).isSome = true ∧ (g.vertex stop).isSome = true
    · have := congrArg (Option.map Prod.snd) (hknown hk)
      simpa [Option.map_map, Function.comp] using this
    · obtain ⟨e, e1⟩ := hunknown hk
      rcases h with h | h
      · exact absurd h hk
      · rw [e, e1]
        simp only [Option.map_some']
        rw [h]
  · intro r g2 h
    exact shortestPath_repeat g g2 start stop label r hr h

theorem shortestPath_independent_witness :
    Reachable storePath ∧ Reachable storePathQueried ∧
      mapDist storePath.linkedListOfVertices.vertexList 2 = INT_MAX ∧
      mapDist storePathQueried.linkedListOfVertices.vertexList 2 = 1 ∧
      mapPrev storePathQueried.linkedListOfVertices.vertexList 2 = 1 ∧
      storePath.recordedPath = [] ∧ storePathQueried.recordedPath = [1, 2] ∧
      (storePath.shortestPath 2 3 []).map (fun r => (r.1, r.2.recordedPath)) =
        some (true, [2]) ∧
      ((storePathQueried.shortestPath 2 3 []).map (fun r => r.1) =
          (storePath.shortestPath 2 3 []).map (fun r => r.1) ∧
        ((((storePath.vertex 2).isSome = true ∧ (storePath.vertex 3).isSome = true) ∨
            storePathQueried.recordedPath = storePath.recordedPath) →
          (storePathQueried.shortestPath 2 3 []).map (fun r => r.2.recordedPath) =
            (storePath.shortestPath 2 3 []).map (fun r => r.2.recordedPath)) ∧
        ∀ r g2, storePath.shortestPath 2 3 [] = some (r, g2) →
          g2.shortestPath 2 3 [] = some (r, g2)) :=
  ⟨reachable_storePath, reachable_storePathQueried, by decide, by decide, by decide, by decide,
    by decide, by decide,
    shortestPath_independent storePath storePathQueried 2 3 [] reachable_storePath
      reachable_storePathQueried
      (shortestPath_sameGraph storePath storePathQueried 1 3 [] true storePath_query).1
      (shortestPath_sameGraph storePath storePathQueried 1 3 [] true storePath_query).2.1⟩

end GraphStoreLinked
end graph
